import Mathlib

/-!
# A* grid planner and lazy-deletion priority queue

A shallow embedding of `src/src/a_star.cpp` (`AStar::Plan`,
`AStar::ConvertClosedListToPath`) and of the helpers of
`src/lib/utils/src/utils.cpp` (`Node`, `CompareCoordinates`,
`checkOutsideBoundary`, `compare_cost`, `GetMotion`, `LazyPQ`).

Modelling conventions.

* C++ `int` fields are `Int`; arithmetic overflow is not modelled. The fields `cost_` and
  `h_cost_` hold integral values throughout a search (unit step costs, Manhattan heuristic)
  and are `Int` as well.
* `std::vector<std::vector<int>>` is `List (List Int)`; an access outside the
  vector is undefined behaviour and is reported as `Run.ub`.
* `std::priority_queue<Node, std::vector<Node>, compare_cost>` is a list kept
  in extraction order: `push` inserts the node behind every queued node it does
  not outrank, `top` is the head and `pop` drops the head.
* `std::unordered_set<Node, NodeIdAsHash, compare_coordinates>` is a list in
  insertion order; a lookup matches an element with the same hash (`id_`) and
  the same coordinates.
* Loops that have no structural bound run on fuel; `Run.outOfFuel` is a
  distinct outcome, so that returning a result is a provable statement.
-/

set_option autoImplicit false

namespace PathPlanning

/-! ## Nodes (`utils.cpp`) -/

/-- Modelled from the spec: the class `Node` is declared in `utils.hpp`, which is not part of
the sources; its fields are those printed by `Node::PrintStatus` (section 3 of the spec):
coordinates, accumulated cost, heuristic, identity, parent identity. -/
structure Node where
  x_ : Int
  y_ : Int
  cost_ : Int
  h_cost_ : Int
  id_ : Int
  pid_ : Int
deriving DecidableEq, Repr

/-- Operator `Node::operator+`: coordinates and cost are summed, the other fields are default. -/
def Node.add (p q : Node) : Node :=
  { x_ := p.x_ + q.x_, y_ := p.y_ + q.y_, cost_ := p.cost_ + q.cost_,
    h_cost_ := 0, id_ := 0, pid_ := 0 }

/-- Function `CompareCoordinates` of `utils.cpp`. -/
def CompareCoordinates (p1 p2 : Node) : Bool :=
  p1.x_ == p2.x_ && p1.y_ == p2.y_

/-- Function `checkOutsideBoundary` of `utils.cpp`. -/
def checkOutsideBoundary (node : Node) (n : Int) : Bool :=
  decide (node.x_ < 0) || decide (node.y_ < 0) || decide (node.x_ ≥ n) || decide (node.y_ ≥ n)

/-- Comparator `compare_cost::operator()` of `utils.cpp`. -/
def compare_cost (p1 p2 : Node) : Bool :=
  decide (p1.cost_ + p1.h_cost_ > p2.cost_ + p2.h_cost_) ||
    (decide (p1.cost_ + p1.h_cost_ = p2.cost_ + p2.h_cost_) && decide (p1.h_cost_ ≥ p2.h_cost_))

/-- Function `GetMotion` of `utils.cpp`: the four unit moves, each of cost 1. -/
def GetMotion : List Node :=
  [ ⟨0, 1, 1, 0, 0, 0⟩, ⟨1, 0, 1, 0, 0, 0⟩, ⟨0, -1, 1, 0, 0, 0⟩, ⟨-1, 0, 1, 0, 0, 0⟩ ]

/-! ## Outcomes -/

/-- Outcome of a run: fuel exhausted, undefined behaviour, or a returned value. -/
inductive Run (α : Type) where
  | outOfFuel : Run α
  | ub : Run α
  | ret : α → Run α
deriving DecidableEq, Repr

/-- Apply a function to a returned value. -/
def Run.map {α β : Type} (f : α → β) : Run α → Run β
  | .outOfFuel => .outOfFuel
  | .ub => .ub
  | .ret a => .ret (f a)

/-! ## Grid -/

/-- Occupancy grid, indexed `grid[x][y]`; 0 is free. -/
abbrev Grid := List (List Int)

/-- Read `grid[x][y]`; `none` when the access is out of range. -/
def gridGet (g : Grid) (x y : Int) : Option Int :=
  if x < 0 ∨ y < 0 then none
  else match g[x.toNat]? with
    | none => none
    | some row => row[y.toNat]?

/-- Write `grid[x][y] = v`; `none` when the access is out of range. -/
def gridSet (g : Grid) (x y : Int) (v : Int) : Option Grid :=
  if x < 0 ∨ y < 0 then none
  else match g[x.toNat]? with
    | none => none
    | some row =>
      if y.toNat < row.length then some (g.set x.toNat (row.set y.toNat v)) else none

/-! ## Open list (`std::priority_queue<Node, std::vector<Node>, compare_cost>`) -/

/-- Push onto the open list: the node goes behind every queued node `e` with
`compare_cost node e` (the node does not outrank `e`). -/
def openPush (node : Node) : List Node → List Node
  | [] => [node]
  | e :: es => if compare_cost node e then e :: openPush node es else node :: e :: es

/-- Method `top()` of the open list. -/
def openTop (l : List Node) : Option Node := l.head?

/-- Method `pop()` of the open list. -/
def openPop (l : List Node) : List Node := l.tail

/-! ## Closed list (`std::unordered_set<Node, NodeIdAsHash, compare_coordinates>`) -/

/-- Modelled from the spec: `NodeIdAsHash` is declared in `utils.hpp`; as its name and
section 3 say, the identity `id_` is the hash. Lookup `closed_list.find(k)` returns an element
with the same hash (`id_`) and, by `compare_coordinates`, the same coordinates. -/
def closedFind (cl : List Node) (k : Node) : Option Node :=
  cl.find? (fun e => e.id_ == k.id_ && CompareCoordinates e k)

/-- Insertion `closed_list.insert(k)`: no effect when an equal element is present. -/
def closedInsert (cl : List Node) (k : Node) : List Node :=
  match closedFind cl k with
  | some _ => cl
  | none => cl ++ [k]

/-! ## `AStar::ConvertClosedListToPath` -/

/-- The `while` loop of `ConvertClosedListToPath`. -/
def convertLoop (n : Int) (closed_list : List Node) (start : Node) :
    Nat → Node → List Node → Run (List Node)
  | 0, _, _ => .outOfFuel
  | fuel + 1, current, path =>
    if CompareCoordinates current start then .ret (path ++ [start])
    else if n = 0 then .ub
    else
      match closedFind closed_list
          ⟨Int.tdiv current.pid_ n, Int.tmod current.pid_ n, 0, 0, current.pid_, 0⟩ with
      | some it => convertLoop n closed_list start fuel it (path ++ [current])
      | none => .ret []

/-- Method `AStar::ConvertClosedListToPath`. Dereferencing `find(goal)` when the
goal is absent is undefined behaviour. -/
def ConvertClosedListToPath (n : Int) (closed_list : List Node) (start goal : Node) :
    Run (List Node) :=
  match closedFind closed_list goal with
  | none => .ub
  | some current => convertLoop n closed_list start (closed_list.length + 1) current []

/-! ## `AStar::Plan` -/

/-- Successor generated from `current` by motion `m` (lines 39-43 of `a_star.cpp`). -/
def newPoint (n : Int) (goal current m : Node) : Node :=
  let p := current.add m
  { p with id_ := n * p.x_ + p.y_, pid_ := current.id_,
           h_cost_ := |p.x_ - goal.x_| + |p.y_ - goal.y_| }

/-- The `for` loop over the motions (lines 38-55), with its `break` and `continue`. -/
def expandLoop (n : Int) (grid : Grid) (goal current : Node) :
    List Node → List Node → Run (List Node)
  | [], open_list => .ret open_list
  | m :: ms, open_list =>
    let new_point := newPoint n goal current m
    if CompareCoordinates new_point goal then .ret (openPush new_point open_list)
    else if checkOutsideBoundary new_point n then expandLoop n grid goal current ms open_list
    else
      match gridGet grid new_point.x_ new_point.y_ with
      | none => .ub
      | some v =>
        if v ≠ 0 then expandLoop n grid goal current ms open_list
        else expandLoop n grid goal current ms (openPush new_point open_list)

/-- The main `while` loop of `Plan` (lines 28-58); the result carries the final `grid_`. -/
def planLoop (n : Int) (start goal : Node) :
    Nat → Grid → List Node → List Node → Run (Bool × List Node × Grid)
  | 0, _, _, _ => .outOfFuel
  | fuel + 1, grid, open_list, closed_list =>
    match openTop open_list with
    | none => .ret (false, [], grid)
    | some top =>
      let rest := openPop open_list
      let current : Node := { top with id_ := top.x_ * n + top.y_ }
      if CompareCoordinates current goal then
        match gridSet grid current.x_ current.y_ 2 with
        | none => .ub
        | some grid2 =>
          (ConvertClosedListToPath n (closedInsert closed_list current) start goal).map
            (fun path => (true, path, grid2))
      else
        match gridSet grid current.x_ current.y_ 2 with
        | none => .ub
        | some grid2 =>
          match expandLoop n grid2 goal current GetMotion rest with
          | .outOfFuel => .outOfFuel
          | .ub => .ub
          | .ret open2 => planLoop n start goal fuel grid2 open2 (closedInsert closed_list current)

/-- Number of free (zero) cells of a grid. -/
def zeros (g : Grid) : Nat := (g.map (fun row => row.count 0)).sum

/-- Fuel given to the main loop; `PlanRun_ends` shows it is never exhausted. -/
def planFuel (g : Grid) : Nat := 5 * 25 ^ zeros g + 1

/-- Modelled from the spec: the class `AStar` is declared in `a_star.hpp`, which is not part
of the sources; `Plan` uses its members `grid_`, `original_grid_` and `n_`. -/
structure AStar where
  grid_ : Grid
  original_grid_ : Grid
  n_ : Int
deriving DecidableEq, Repr

/-- Method `AStar::Plan`, full outcome: `(found, path, final grid_)`. The call first resets
the working grid (`grid_ = original_grid_`, line 20), then pushes `start` on a new open list
and runs the main loop with a new closed list. -/
def AStar.PlanRun (a : AStar) (start goal : Node) : Run (Bool × List Node × Grid) :=
  let a1 : AStar := { a with grid_ := a.original_grid_ }
  planLoop a1.n_ start goal (planFuel a1.grid_) a1.grid_ (openPush start []) []

/-- Method `AStar::Plan`: the returned tuple `(found, path)`. -/
def AStar.Plan (a : AStar) (start goal : Node) : Run (Bool × List Node) :=
  (a.PlanRun start goal).map (fun r => (r.1, r.2.1))

/-- The planner object after a call of `Plan` that returned. -/
def AStar.afterPlan (a : AStar) (start goal : Node) : Run AStar :=
  (a.PlanRun start goal).map (fun r => { a with grid_ := r.2.2 })

/-! ## Specification-side notions for the planner -/

/-- The grid is an `n` by `n` square. -/
def IsSquare (g : Grid) (n : Int) : Prop :=
  (g.length : Int) = n ∧ ∀ row ∈ g, (row.length : Int) = n

instance (g : Grid) (n : Int) : Decidable (IsSquare g n) :=
  inferInstanceAs (Decidable ((g.length : Int) = n ∧ ∀ row ∈ g, (row.length : Int) = n))

/-- Cell `(x, y)` is inside the `n` by `n` grid. -/
def InBounds (n x y : Int) : Prop := 0 ≤ x ∧ x < n ∧ 0 ≤ y ∧ y < n

instance (n x y : Int) : Decidable (InBounds n x y) :=
  inferInstanceAs (Decidable (0 ≤ x ∧ x < n ∧ 0 ≤ y ∧ y < n))

/-- Cell `(x, y)` is free in grid `g`. -/
def IsFree (g : Grid) (x y : Int) : Prop := gridGet g x y = some 0

instance (g : Grid) (x y : Int) : Decidable (IsFree g x y) :=
  inferInstanceAs (Decidable (gridGet g x y = some 0))

/-- Two cells differ by one of the four motions of `GetMotion`. -/
def StepOf (a b : Int × Int) : Prop :=
  ∃ m ∈ GetMotion, b.1 = a.1 + m.x_ ∧ b.2 = a.2 + m.y_

/-- Coordinates of a node. -/
def Node.pos (p : Node) : Int × Int := (p.x_, p.y_)

/-- A 4-connected walk of free in-bounds cells. -/
def IsWalk (g : Grid) (n : Int) (w : List (Int × Int)) : Prop :=
  (∀ c ∈ w, InBounds n c.1 c.2 ∧ IsFree g c.1 c.2) ∧ w.Chain' StepOf

/-- A walk from `a` to `b`. -/
def IsWalkFromTo (g : Grid) (n : Int) (a b : Int × Int) (w : List (Int × Int)) : Prop :=
  IsWalk g n w ∧ w.head? = some a ∧ w.getLast? = some b

/-- One step of the path towards the start: one coordinate decreases by one. -/
def MonotoneStep (a b : Node) : Prop :=
  (a.x_ = b.x_ + 1 ∧ a.y_ = b.y_) ∨ (a.x_ = b.x_ ∧ a.y_ = b.y_ + 1)

/-- Cell `(x, y)` is reached from `(sx, sy)` by `k` motions of `GetMotion` through free
in-bounds cells of `g0`. -/
inductive Reach (g0 : Grid) (n : Int) (sx sy : Int) : Nat → Int → Int → Prop where
  | zero : (0 ≤ sx ∧ sx < n ∧ 0 ≤ sy ∧ sy < n) → gridGet g0 sx sy = some 0 →
      Reach g0 n sx sy 0 sx sy
  | step (k : Nat) (x y x2 y2 : Int) (m : Node) : Reach g0 n sx sy k x y → m ∈ GetMotion →
      x2 = x + m.x_ → y2 = y + m.y_ → (0 ≤ x2 ∧ x2 < n ∧ 0 ≤ y2 ∧ y2 < n) →
      gridGet g0 x2 y2 = some 0 → Reach g0 n sx sy (k + 1) x2 y2

/-! ## Proof devices for the main loop -/

/-- The node extracted from the open list with its identity recomputed (line 31). -/
def canon (n : Int) (top : Node) : Node := { top with id_ := top.x_ * n + top.y_ }

/-- The open list is in extraction order: no node is outranked by a later one. -/
def OpenSorted (l : List Node) : Prop := l.Pairwise (fun a b => compare_cost b a = true)

/-- Weight of an open-list entry in the termination measure of the main loop. -/
def weight (goal : Node) (grid : Grid) (e : Node) : Nat :=
  if CompareCoordinates e goal then 1
  else if gridGet grid e.x_ e.y_ = some 0 then 25 ^ zeros grid
  else 5 * 25 ^ zeros grid

/-- Termination measure of the main loop: it decreases at every iteration. -/
def loopMeasure (goal : Node) (grid : Grid) (ol : List Node) : Nat :=
  (ol.map (weight goal grid)).sum

/-- A node that is in bounds, free in the original grid and carries the identity
`x * n + y`. -/
def NodeOk (g0 : Grid) (n : Int) (e : Node) : Prop :=
  (0 ≤ e.x_ ∧ e.x_ < n ∧ 0 ≤ e.y_ ∧ e.y_ < n) ∧ gridGet g0 e.x_ e.y_ = some 0 ∧
    e.id_ = e.x_ * n + e.y_

/-- Closed-list invariant: every entry is well formed and, unless it lies on the start cell,
its parent identity is that of an earlier entry on a 4-neighbour cell. -/
inductive ClosedOk (g0 : Grid) (n : Int) (start : Node) : List Node → Prop where
  | nil : ClosedOk g0 n start []
  | snoc (cl : List Node) (e : Node) : ClosedOk g0 n start cl → NodeOk g0 n e →
      ((e.x_ = start.x_ ∧ e.y_ = start.y_) ∨
        ∃ p ∈ cl, p.id_ = e.pid_ ∧
          ∃ m ∈ GetMotion, e.x_ = p.x_ + m.x_ ∧ e.y_ = p.y_ + m.y_) →
      ClosedOk g0 n start (cl ++ [e])

/-- Structural invariant of the main loop, at the loop head: the working grid is the
original one with exactly the closed cells marked, the closed list is well formed, and every
open node is a free in-bounds cell generated from a closed one (or lies on the start cell). -/
structure PlanInv (g0 : Grid) (n : Int) (start : Node) (grid : Grid) (ol cl : List Node) :
    Prop where
  sq : IsSquare grid n
  gr : ∀ x y, (0 ≤ x ∧ x < n ∧ 0 ≤ y ∧ y < n) →
    (gridGet grid x y = some 0 ↔
      (gridGet g0 x y = some 0 ∧ ∀ e ∈ cl, ¬ (e.x_ = x ∧ e.y_ = y)))
  closed : ClosedOk g0 n start cl
  opn : ∀ e ∈ ol, (0 ≤ e.x_ ∧ e.x_ < n ∧ 0 ≤ e.y_ ∧ e.y_ < n) ∧ gridGet g0 e.x_ e.y_ = some 0 ∧
    ((e.x_ = start.x_ ∧ e.y_ = start.y_) ∨
      ∃ p ∈ cl, p.id_ = e.pid_ ∧ ∃ m ∈ GetMotion, e.x_ = p.x_ + m.x_ ∧ e.y_ = p.y_ + m.y_)

/-- Manhattan distance of cell `(x, y)` to the goal: the heuristic of lines 42-43. -/
def hDist (goal : Node) (x y : Int) : Int := |x - goal.x_| + |y - goal.y_|

/-- The goal has been generated: an open node on the goal cell whose cost is at most the
length of every walk to the goal and at most the total cost of every open node. -/
def GoalQueued (g0 : Grid) (n : Int) (start goal : Node) (ol : List Node) : Prop :=
  ∃ e ∈ ol, (e.x_ = goal.x_ ∧ e.y_ = goal.y_) ∧
    (∀ k, Reach g0 n start.x_ start.y_ k goal.x_ goal.y_ → e.cost_ ≤ start.cost_ + k) ∧
    (∀ e2 ∈ ol, e.cost_ ≤ e2.cost_ + e2.h_cost_)

/-- Every free neighbour of a closed cell is closed or queued at a cost at most one more. -/
def Frontier (g0 : Grid) (n : Int) (ol cl : List Node) : Prop :=
  ∀ p ∈ cl, ∀ m ∈ GetMotion,
    (0 ≤ p.x_ + m.x_ ∧ p.x_ + m.x_ < n ∧ 0 ≤ p.y_ + m.y_ ∧ p.y_ + m.y_ < n) →
    gridGet g0 (p.x_ + m.x_) (p.y_ + m.y_) = some 0 →
    (∃ q ∈ cl, q.x_ = p.x_ + m.x_ ∧ q.y_ = p.y_ + m.y_) ∨
    (∃ e ∈ ol, (e.x_ = p.x_ + m.x_ ∧ e.y_ = p.y_ + m.y_) ∧ e.cost_ ≤ p.cost_ + 1)

/-- Cost invariant of the main loop once the start cell has been expanded. -/
structure PhaseB (g0 : Grid) (n : Int) (start goal : Node) (ol cl : List Node) : Prop where
  b0 : ∃ p ∈ cl, p.x_ = start.x_ ∧ p.y_ = start.y_
  bh : ∀ e ∈ ol, e.h_cost_ = hDist goal e.x_ e.y_
  bns : ∀ e ∈ ol, ¬ (e.x_ = start.x_ ∧ e.y_ = start.y_)
  bcost : ∀ e ∈ ol, ∃ k, Reach g0 n start.x_ start.y_ k e.x_ e.y_ ∧ e.cost_ = start.cost_ + k
  bcl : ∀ p ∈ cl, (∃ k, Reach g0 n start.x_ start.y_ k p.x_ p.y_ ∧ p.cost_ = start.cost_ + k) ∧
    ∀ k, Reach g0 n start.x_ start.y_ k p.x_ p.y_ → p.cost_ ≤ start.cost_ + k
  bnog : ∀ p ∈ cl, ¬ (p.x_ = goal.x_ ∧ p.y_ = goal.y_)
  blo : ∀ e ∈ ol, ∀ q ∈ cl, q.id_ = e.pid_ → q.cost_ + 1 ≤ e.cost_
  blink : ∀ e ∈ cl, ¬ (e.x_ = start.x_ ∧ e.y_ = start.y_) →
    ∀ q ∈ cl, q.id_ = e.pid_ → q.cost_ + 1 ≤ e.cost_
  bfr : GoalQueued g0 n start goal ol ∨ Frontier g0 n ol cl

/-- Cost invariant of the main loop: the structural invariant, an open list in extraction
order, and either the initial state or the invariant of the later iterations. -/
structure CostInv (g0 : Grid) (n : Int) (start goal : Node) (grid : Grid)
    (ol cl : List Node) : Prop where
  base : PlanInv g0 n start grid ol cl
  sorted : OpenSorted ol
  phase : (cl = [] ∧ ∃ s, ol = [s] ∧ s.x_ = start.x_ ∧ s.y_ = start.y_ ∧
      s.cost_ = start.cost_) ∨ PhaseB g0 n start goal ol cl

/-! ## `LazyPQ` (`utils.cpp`, lines 183-261) -/

/-- Modelled from the spec: the type `NodeKeyPair` is declared in `utils.hpp`, which is
not part of the sources; following section 4.3 it pairs a cell identity with its ranking key. -/
structure NodeKeyPair where
  id : Int
  key : Int
deriving DecidableEq, Repr

/-- Modelled from the spec: the members of `LazyPQ` are declared in `utils.hpp`; following
section 4.3, `pq` is a min-heap on the key holding every inserted pair (kept here in
extraction order) and `s` is the authoritative set, keyed by identity. -/
structure LazyPQ where
  pq : List NodeKeyPair
  s : List NodeKeyPair
deriving DecidableEq, Repr

/-- Heap `pq.push(t)`: the pair goes behind every queued pair of strictly smaller key. -/
def heapPush (t : NodeKeyPair) : List NodeKeyPair → List NodeKeyPair
  | [] => [t]
  | e :: es => if t.key > e.key then e :: heapPush t es else t :: e :: es

/-- Set lookup `s.find(t)`, by identity. -/
def setFind (s : List NodeKeyPair) (t : NodeKeyPair) : Option NodeKeyPair :=
  s.find? (fun e => e.id == t.id)

/-- Set insertion `s.insert(t)`: the new set and whether the insertion took place. -/
def setInsert (s : List NodeKeyPair) (t : NodeKeyPair) : List NodeKeyPair × Bool :=
  match setFind s t with
  | some _ => (s, false)
  | none => (s ++ [t], true)

/-- Set removal `s.erase(t)`, by identity. -/
def setErase (s : List NodeKeyPair) (t : NodeKeyPair) : List NodeKeyPair :=
  s.filter (fun e => !(e.id == t.id))

/-- The condition under which the cleanup loops discard the heap's top. -/
def isStale (s : List NodeKeyPair) (t : NodeKeyPair) : Bool :=
  match setFind s t with
  | none => true
  | some it => !(t.key == it.key)

/-- The cleanup loop shared by `pop` and `remove`: discard the heap's top while it is stale. -/
def cleanup (s : List NodeKeyPair) : List NodeKeyPair → List NodeKeyPair
  | [] => []
  | t :: rest => if isStale s t then cleanup s rest else t :: rest

/-- The empty queue. -/
def LazyPQ.emptyQueue : LazyPQ := ⟨[], []⟩

/-- Method `LazyPQ::clear`. -/
def LazyPQ.clear (_q : LazyPQ) : LazyPQ := ⟨[], []⟩

/-- Method `LazyPQ::insert`. -/
def LazyPQ.insert (q : LazyPQ) (t : NodeKeyPair) : LazyPQ :=
  let p := setInsert q.s t
  let s1 := if !p.2 then (setInsert (setErase p.1 t) t).1 else p.1
  ⟨heapPush t q.pq, s1⟩

/-- Method `LazyPQ::pop`; `none` is the undefined behaviour of reading the top of an
empty heap. -/
def LazyPQ.pop (q : LazyPQ) : Option LazyPQ :=
  let pq1 := cleanup q.s q.pq
  if q.s.isEmpty then some ⟨pq1, q.s⟩
  else
    match pq1 with
    | [] => none
    | t :: rest =>
      let s1 := setErase q.s t
      some ⟨cleanup s1 rest, s1⟩

/-- Method `LazyPQ::top`; `none` is the undefined behaviour of reading the top of an
empty heap. -/
def LazyPQ.top (q : LazyPQ) : Option NodeKeyPair := q.pq.head?

/-- Method `LazyPQ::size`. -/
def LazyPQ.size (q : LazyPQ) : Nat := q.s.length

/-- Method `LazyPQ::empty`. -/
def LazyPQ.empty (q : LazyPQ) : Bool := q.s.isEmpty

/-- Method `LazyPQ::isElementInStruct`. -/
def LazyPQ.isElementInStruct (q : LazyPQ) (t : NodeKeyPair) : Bool :=
  (setFind q.s t).isSome

/-- Method `LazyPQ::remove`. -/
def LazyPQ.remove (q : LazyPQ) (t : NodeKeyPair) : LazyPQ :=
  let s1 := if (setFind q.s t).isSome then setErase q.s t else q.s
  ⟨cleanup s1 q.pq, s1⟩

/-- States reachable from the empty queue by `insert`, `pop`, `remove` and `clear`. -/
inductive LazyPQ.Reachable : LazyPQ → Prop where
  | init : LazyPQ.Reachable LazyPQ.emptyQueue
  | insert (q : LazyPQ) (t : NodeKeyPair) : LazyPQ.Reachable q → LazyPQ.Reachable (q.insert t)
  | pop (q q2 : LazyPQ) : LazyPQ.Reachable q → q.pop = some q2 → LazyPQ.Reachable q2
  | remove (q : LazyPQ) (t : NodeKeyPair) : LazyPQ.Reachable q → LazyPQ.Reachable (q.remove t)
  | clear (q : LazyPQ) : LazyPQ.Reachable q → LazyPQ.Reachable q.clear

/-- States reachable when `insert` is used only to add an identity or to lower (or keep) the
key of a live one. -/
inductive LazyPQ.ReachableDec : LazyPQ → Prop where
  | init : LazyPQ.ReachableDec LazyPQ.emptyQueue
  | insert (q : LazyPQ) (t : NodeKeyPair) : LazyPQ.ReachableDec q →
      (∀ e ∈ q.s, e.id = t.id → t.key ≤ e.key) → LazyPQ.ReachableDec (q.insert t)
  | pop (q q2 : LazyPQ) : LazyPQ.ReachableDec q → q.pop = some q2 → LazyPQ.ReachableDec q2
  | remove (q : LazyPQ) (t : NodeKeyPair) : LazyPQ.ReachableDec q →
      LazyPQ.ReachableDec (q.remove t)
  | clear (q : LazyPQ) : LazyPQ.ReachableDec q → LazyPQ.ReachableDec q.clear

/-- Representation invariant of `LazyPQ`: one set entry per identity, every set entry has a
copy in the heap, and the heap is in extraction order. -/
def LazyPQ.Inv (q : LazyPQ) : Prop :=
  (q.s.map (fun e => e.id)).Nodup ∧ (∀ e ∈ q.s, e ∈ q.pq) ∧
    q.pq.Pairwise (fun a b => a.key ≤ b.key)

/-- The heap's top, when there is one, is an entry of the authoritative set. -/
def LazyPQ.TopValid (q : LazyPQ) : Prop :=
  ∀ t, q.pq.head? = some t → t ∈ q.s

/-! ## Operation sequences on `LazyPQ` and the reference map model -/

/-- The four mutating operations of `LazyPQ`. -/
inductive Op where
  | insert : NodeKeyPair → Op
  | pop : Op
  | remove : NodeKeyPair → Op
  | clear : Op
deriving DecidableEq, Repr

/-- Apply one operation; `none` is the undefined behaviour of `pop` reading an empty heap. -/
def LazyPQ.apply (q : LazyPQ) : Op → Option LazyPQ
  | .insert t => some (q.insert t)
  | .pop => q.pop
  | .remove t => some (q.remove t)
  | .clear => some q.clear

/-- Apply a sequence of operations, first to last. -/
def LazyPQ.run : List Op → LazyPQ → Option LazyPQ
  | [], q => some q
  | op :: ops, q =>
    match q.apply op with
    | none => none
    | some q2 => LazyPQ.run ops q2

/-- Reference model, `insert`: add the identity or overwrite its key. -/
def refInsert (m : List NodeKeyPair) (t : NodeKeyPair) : List NodeKeyPair :=
  m.filter (fun e => !(e.id == t.id)) ++ [t]

/-- Reference model, `remove`: delete the identity. -/
def refRemove (m : List NodeKeyPair) (t : NodeKeyPair) : List NodeKeyPair :=
  m.filter (fun e => !(e.id == t.id))

/-- Reference model, `pop`: delete one identity of minimum key (nothing on the empty map). -/
def RefPop (m m2 : List NodeKeyPair) : Prop :=
  (m = [] ∧ m2 = []) ∨
  ∃ t ∈ m, (∀ e ∈ m, t.key ≤ e.key) ∧ m2 = m.filter (fun e => !(e.id == t.id))

/-- Reference model: the maps that a sequence of operations can lead to from map `m`. -/
inductive RefRun : List NodeKeyPair → List Op → List NodeKeyPair → Prop where
  | done (m : List NodeKeyPair) : RefRun m [] m
  | insert (m : List NodeKeyPair) (t : NodeKeyPair) (ops : List Op) (m2 : List NodeKeyPair) :
      RefRun (refInsert m t) ops m2 → RefRun m (Op.insert t :: ops) m2
  | pop (m m1 : List NodeKeyPair) (ops : List Op) (m2 : List NodeKeyPair) :
      RefPop m m1 → RefRun m1 ops m2 → RefRun m (Op.pop :: ops) m2
  | remove (m : List NodeKeyPair) (t : NodeKeyPair) (ops : List Op) (m2 : List NodeKeyPair) :
      RefRun (refRemove m t) ops m2 → RefRun m (Op.remove t :: ops) m2
  | clear (m : List NodeKeyPair) (ops : List Op) (m2 : List NodeKeyPair) :
      RefRun [] ops m2 → RefRun m (Op.clear :: ops) m2

/-! ## Trace of a run of `AStar::Plan` -/

/-- What a run of the main loop does, in order. -/
inductive Event where
  /-- A node is taken from the open list and its identity recomputed (lines 29-31). -/
  | extract : Node → Event
  /-- The call `closed_list.insert(current)` inserts the node (lines 33 and 56). -/
  | closed : Node → Event
  /-- The write `grid_[x][y] = 2` (lines 34 and 37); the flag tells whether the indices are
  in range. -/
  | write : Int → Int → Bool → Event
  /-- The loop over the motions is entered for the node (line 38). -/
  | expand : Node → Event
  /-- The read of `grid_[x][y]` (line 51); the flag tells whether the indices are in range. -/
  | read : Int → Int → Bool → Event
  /-- The trace was cut because the fuel ran out. -/
  | truncated : Event
deriving DecidableEq, Repr

/-- The reads of `grid_` made by the loop over the motions (lines 38-55): a successor is read
only when it is not the goal and `checkOutsideBoundary` is false for it. -/
def expandReads (n : Int) (grid : Grid) (goal current : Node) : List Node → List Event
  | [] => []
  | m :: ms =>
    let new_point := newPoint n goal current m
    if CompareCoordinates new_point goal then []
    else if checkOutsideBoundary new_point n then expandReads n grid goal current ms
    else
      match gridGet grid new_point.x_ new_point.y_ with
      | none => [Event.read new_point.x_ new_point.y_ false]
      | some _ => Event.read new_point.x_ new_point.y_ true :: expandReads n grid goal current ms

/-- The event of `closed_list.insert(current)`, when the insertion takes place. -/
def closedEvent (closed_list : List Node) (current : Node) : List Event :=
  match closedFind closed_list current with
  | none => [Event.closed current]
  | some _ => []

/-- Trace of the main loop of `Plan`, following the control flow of `planLoop`. -/
def planLog (n : Int) (goal : Node) : Nat → Grid → List Node → List Node → List Event
  | 0, _, _, _ => [Event.truncated]
  | fuel + 1, grid, open_list, closed_list =>
    match openTop open_list with
    | none => []
    | some top =>
      let rest := openPop open_list
      let current : Node := { top with id_ := top.x_ * n + top.y_ }
      if CompareCoordinates current goal then
        Event.extract current :: (closedEvent closed_list current ++
          [Event.write current.x_ current.y_ (gridSet grid current.x_ current.y_ 2).isSome])
      else
        match gridSet grid current.x_ current.y_ 2 with
        | none => [Event.extract current, Event.write current.x_ current.y_ false]
        | some grid2 =>
          Event.extract current :: Event.write current.x_ current.y_ true ::
            Event.expand current :: (expandReads n grid2 goal current GetMotion ++
              match expandLoop n grid2 goal current GetMotion rest with
              | .ret open2 =>
                closedEvent closed_list current ++
                  planLog n goal fuel grid2 open2 (closedInsert closed_list current)
              | _ => [])

/-- Trace of a call of `AStar::Plan`. -/
def AStar.PlanLog (a : AStar) (start goal : Node) : List Event :=
  let a1 : AStar := { a with grid_ := a.original_grid_ }
  planLog a1.n_ goal (planFuel a1.grid_) a1.grid_ (openPush start []) []

/-- Coordinates of the nodes expanded in a trace, in order. -/
def expandedCells : List Event → List (Int × Int)
  | [] => []
  | Event.expand c :: tr => c.pos :: expandedCells tr
  | _ :: tr => expandedCells tr

/-- Coordinates of the nodes inserted in the closed list in a trace, in order. -/
def closedCells : List Event → List (Int × Int)
  | [] => []
  | Event.closed c :: tr => c.pos :: closedCells tr
  | _ :: tr => closedCells tr

/-- An event stays inside the `n` by `n` grid: an extracted node is inside
(`checkOutsideBoundary` is false), a write or a read has indices in `0 .. n - 1` that are in
range of `grid_`, and the trace is not cut. -/
def EventInRange (n : Int) : Event → Prop
  | Event.extract c => checkOutsideBoundary c n = false
  | Event.write x y ok => InBounds n x y ∧ ok = true
  | Event.read x y ok => InBounds n x y ∧ ok = true
  | Event.truncated => False
  | _ => True

/-- The nodes pushed on the open list by the loop over the motions (lines 38-55), in the
order of the pushes: the goal is pushed and ends the loop (lines 45-48), a successor outside
the boundary or on a cell whose grid value is not 0 is skipped (lines 49-54), any other one is
pushed (line 55). -/
def expandPushes (n : Int) (grid : Grid) (goal current : Node) : List Node → List Node
  | [] => []
  | m :: ms =>
    let new_point := newPoint n goal current m
    if CompareCoordinates new_point goal then [new_point]
    else if checkOutsideBoundary new_point n then expandPushes n grid goal current ms
    else
      match gridGet grid new_point.x_ new_point.y_ with
      | none => []
      | some v =>
        if v ≠ 0 then expandPushes n grid goal current ms
        else new_point :: expandPushes n grid goal current ms

/-- The expansions of the main loop of `Plan`, following the control flow of `planLoop`: one
entry for each node that is extracted and enters the loop over the motions (line 38), with
the nodes that this loop pushes on the open list. -/
def planSteps (n : Int) (goal : Node) :
    Nat → Grid → List Node → List Node → List (Node × List Node)
  | 0, _, _, _ => []
  | fuel + 1, grid, open_list, closed_list =>
    match openTop open_list with
    | none => []
    | some top =>
      let rest := openPop open_list
      let current : Node := { top with id_ := top.x_ * n + top.y_ }
      if CompareCoordinates current goal then []
      else
        match gridSet grid current.x_ current.y_ 2 with
        | none => []
        | some grid2 =>
          (current, expandPushes n grid2 goal current GetMotion) ::
            match expandLoop n grid2 goal current GetMotion rest with
            | .ret open2 => planSteps n goal fuel grid2 open2 (closedInsert closed_list current)
            | _ => []

/-- The expansions of a call of `AStar::Plan`, in order. -/
def AStar.PlanSteps (a : AStar) (start goal : Node) : List (Node × List Node) :=
  let a1 : AStar := { a with grid_ := a.original_grid_ }
  planSteps a1.n_ goal (planFuel a1.grid_) a1.grid_ (openPush start []) []


/-! ## Basic facts -/

theorem CompareCoordinates_iff (p q : Node) :
    CompareCoordinates p q = true ↔ p.x_ = q.x_ ∧ p.y_ = q.y_ := by
  simp [CompareCoordinates]

theorem gridSet_isSome_of_inBounds {g : Grid} {n x y : Int} (v : Int)
    (hsq : IsSquare g n) (hb : InBounds n x y) : ∃ g2, gridSet g x y v = some g2 := by
  obtain ⟨hx0, hxn, hy0, hyn⟩ := hb
  obtain ⟨hlen, hrow⟩ := hsq
  have hx : x.toNat < g.length := by omega
  have hneg : ¬ (x < 0 ∨ y < 0) := by omega
  have hrl : (g[x.toNat].length : Int) = n := hrow _ (List.getElem_mem _)
  have hy : y.toNat < g[x.toNat].length := by omega
  refine ⟨g.set x.toNat (g[x.toNat].set y.toNat v), ?_⟩
  simp [gridSet, hneg, List.getElem?_eq_getElem hx, hy]

theorem closedFind_some {cl : List Node} {k e : Node} (h : closedFind cl k = some e) :
    e ∈ cl ∧ e.id_ = k.id_ ∧ e.x_ = k.x_ ∧ e.y_ = k.y_ := by
  unfold closedFind at h
  have h1 := List.find?_some h
  have h2 := List.mem_of_find?_eq_some h
  simp [CompareCoordinates] at h1
  exact ⟨h2, h1.1, h1.2.1, h1.2.2⟩

/-! ## Endpoints of the reconstructed path -/

theorem convertLoop_ends (n : Int) (cl : List Node) (start : Node) :
    ∀ (fuel : Nat) (cur : Node) (path p : List Node),
      convertLoop n cl start fuel cur path = .ret p →
      p = [] ∨ (p.getLast? = some start ∧
        p.head? = (path ++ [if CompareCoordinates cur start then start else cur]).head?) := by
  intro fuel
  induction fuel with
  | zero => intro cur path p h; simp [convertLoop] at h
  | succ k ih =>
    intro cur path p h
    unfold convertLoop at h
    by_cases hc : CompareCoordinates cur start = true
    · simp only [hc, if_true] at h
      cases h
      right
      simp [hc]
    · simp only [hc] at h
      by_cases hn : n = 0
      · simp [hn] at h
      · simp only [hn, if_false] at h
        generalize closedFind cl _ = r at h
        cases r with
        | none => cases h; exact Or.inl rfl
        | some it =>
          rcases ih it (path ++ [cur]) p h with h0 | ⟨hl, hh⟩
          · exact Or.inl h0
          · right
            refine ⟨hl, ?_⟩
            rw [hh]
            cases path <;> simp [hc]

theorem Convert_ends {n : Int} {cl : List Node} {start goal : Node} {p : List Node}
    (h : ConvertClosedListToPath n cl start goal = .ret p) :
    p = [] ∨ (p.getLast? = some start ∧ ∃ first, p.head? = some first ∧ first.pos = goal.pos) := by
  unfold ConvertClosedListToPath at h
  split at h
  · cases h
  · rename_i cur hfind
    obtain ⟨_, _, hx, hy⟩ := closedFind_some hfind
    rcases convertLoop_ends n cl start _ cur [] p h with h0 | ⟨hl, hh⟩
    · exact Or.inl h0
    · right
      refine ⟨hl, ?_⟩
      by_cases hc : CompareCoordinates cur start = true
      · refine ⟨start, by simpa [hc] using hh, ?_⟩
        rw [CompareCoordinates_iff] at hc
        simp [Node.pos, ← hc.1, ← hc.2, hx, hy]
      · refine ⟨cur, by simpa [hc] using hh, ?_⟩
        simp [Node.pos, hx, hy]

theorem planLoop_ends (n : Int) (start goal : Node) :
    ∀ (fuel : Nat) (grid : Grid) (ol cl : List Node) (found : Bool) (p : List Node) (g2 : Grid),
      planLoop n start goal fuel grid ol cl = .ret (found, p, g2) →
      p = [] ∨ (p.getLast? = some start ∧ ∃ first, p.head? = some first ∧ first.pos = goal.pos) := by
  intro fuel
  induction fuel with
  | zero => intro grid ol cl found p g2 h; simp [planLoop] at h
  | succ k ih =>
    intro grid ol cl found p g2 h
    unfold planLoop at h
    split at h
    · cases h; exact Or.inl rfl
    · rename_i top htop
      simp only at h
      split at h
      · split at h
        · cases h
        · rename_i grid2 hset
          cases hconv : ConvertClosedListToPath n
              (closedInsert cl { top with id_ := top.x_ * n + top.y_ }) start goal with
          | outOfFuel => rw [hconv] at h; simp [Run.map] at h
          | ub => rw [hconv] at h; simp [Run.map] at h
          | ret path =>
            rw [hconv] at h
            simp only [Run.map, Run.ret.injEq, Prod.mk.injEq] at h
            obtain ⟨_, hp, _⟩ := h
            subst hp
            exact Convert_ends hconv
      · split at h
        · cases h
        · split at h
          · cases h
          · cases h
          · exact ih _ _ _ _ _ _ h

/-! ## Grid facts -/

theorem gridGet_gridSet {g g2 : Grid} {x y v : Int} (h : gridSet g x y v = some g2)
    (x2 y2 : Int) :
    gridGet g2 x2 y2 = if x2 = x ∧ y2 = y then some v else gridGet g x2 y2 := by
  unfold gridSet at h
  split at h
  · cases h
  · rename_i hneg
    split at h
    · cases h
    · rename_i row hrow
      split at h
      · rename_i hy
        cases h
        have hxl : x.toNat < g.length := by
          rcases List.getElem?_eq_some_iff.1 hrow with ⟨hl, _⟩
          exact hl
        unfold gridGet
        by_cases hneg2 : x2 < 0 ∨ y2 < 0
        · have : ¬ (x2 = x ∧ y2 = y) := by omega
          simp [hneg2, this]
        · simp only [hneg2, if_false]
          by_cases hx : x2 = x
          · subst hx
            rw [List.getElem?_set_self hxl]
            simp only [hrow, true_and]
            by_cases hyy : y2 = y
            · subst hyy
              simp [List.getElem?_set_self hy]
            · have : y.toNat ≠ y2.toNat := by omega
              simp [hyy, List.getElem?_set_ne this]
          · have : x.toNat ≠ x2.toNat := by omega
            rw [List.getElem?_set_ne this]
            simp [hx]
      · cases h

theorem gridSet_isSquare {g g2 : Grid} {n x y v : Int} (hsq : IsSquare g n)
    (h : gridSet g x y v = some g2) : IsSquare g2 n := by
  unfold gridSet at h
  split at h
  · cases h
  · split at h
    · cases h
    · rename_i row hrow
      split at h
      · cases h
        refine ⟨by simpa using hsq.1, ?_⟩
        intro r hr
        rcases List.mem_or_eq_of_mem_set hr with hr | hr
        · exact hsq.2 r hr
        · subst hr
          have hmem : row ∈ g := by
            obtain ⟨hl, he⟩ := List.getElem?_eq_some_iff.1 hrow
            exact he ▸ List.getElem_mem hl
          have := hsq.2 row hmem
          simpa using this
      · cases h

theorem gridGet_isSome_of_inBounds {g : Grid} {n x y : Int}
    (hsq : IsSquare g n) (hb : InBounds n x y) : ∃ v, gridGet g x y = some v := by
  obtain ⟨hx0, hxn, hy0, hyn⟩ := hb
  obtain ⟨hlen, hrow⟩ := hsq
  have hx : x.toNat < g.length := by omega
  have hneg : ¬ (x < 0 ∨ y < 0) := by omega
  have hrl : (g[x.toNat].length : Int) = n := hrow _ (List.getElem_mem _)
  have hy : y.toNat < g[x.toNat].length := by omega
  refine ⟨g[x.toNat][y.toNat], ?_⟩
  simp [gridGet, hneg, List.getElem?_eq_getElem hx, List.getElem?_eq_getElem hy]

theorem count_set_zero (row : List Int) (j : Nat) (v old : Int) (h : row[j]? = some old) :
    (row.set j v).count 0 + (if old = 0 then 1 else 0) =
      row.count 0 + (if v = 0 then 1 else 0) := by
  induction row generalizing j with
  | nil => simp at h
  | cons a row ih =>
    cases j with
    | zero =>
      simp only [List.getElem?_cons_zero, Option.some.injEq] at h
      subst h
      simp only [List.set_cons_zero, List.count_cons]
      by_cases ha : a = 0 <;> by_cases hv : v = 0 <;> simp [ha, hv]
    | succ j =>
      simp only [List.getElem?_cons_succ] at h
      have := ih j h
      simp only [List.set_cons_succ, List.count_cons]
      omega

theorem zeros_set (g : Grid) (i : Nat) (row : List Int) (j : Nat) (v old : Int)
    (hrow : g[i]? = some row) (h : row[j]? = some old) :
    zeros (g.set i (row.set j v)) + (if old = 0 then 1 else 0) =
      zeros g + (if v = 0 then 1 else 0) := by
  induction g generalizing i with
  | nil => simp at hrow
  | cons r g ih =>
    cases i with
    | zero =>
      simp only [List.getElem?_cons_zero, Option.some.injEq] at hrow
      subst hrow
      have := count_set_zero r j v old h
      simp only [zeros, List.set_cons_zero, List.map_cons, List.sum_cons] at *
      omega
    | succ i =>
      simp only [List.getElem?_cons_succ] at hrow
      have := ih i hrow
      simp only [zeros, List.set_cons_succ, List.map_cons, List.sum_cons] at *
      omega

theorem zeros_gridSet {g g2 : Grid} {x y : Int} {old : Int} (h : gridSet g x y 2 = some g2)
    (hold : gridGet g x y = some old) :
    zeros g2 + (if old = 0 then 1 else 0) = zeros g := by
  unfold gridSet at h
  unfold gridGet at hold
  split at h
  · cases h
  · rename_i hneg
    simp only [hneg, if_false] at hold
    split at h
    · cases h
    · rename_i row hrow
      simp only [hrow] at hold
      split at h
      · cases h
        have := zeros_set g x.toNat row y.toNat 2 old hrow hold
        simpa using this
      · cases h

theorem gridGet_of_gridSet {g g2 : Grid} {x y v : Int} (h : gridSet g x y v = some g2) :
    ∃ old, gridGet g x y = some old := by
  unfold gridSet at h
  unfold gridGet
  split at h
  · cases h
  · rename_i hneg
    rw [if_neg hneg]
    split at h
    · cases h
    · rename_i row hrow
      split at h
      · rename_i hy
        exact ⟨row[y.toNat], List.getElem?_eq_getElem hy⟩
      · cases h

/-! ## Open list facts -/

theorem compare_cost_total {a b : Node} (h : compare_cost a b = false) :
    compare_cost b a = true := by
  simp only [compare_cost, Bool.or_eq_false_iff, Bool.and_eq_false_iff, decide_eq_false_iff_not,
    Bool.or_eq_true, Bool.and_eq_true, decide_eq_true_eq] at *
  omega

theorem compare_cost_trans {a b c : Node} (h1 : compare_cost a b = true)
    (h2 : compare_cost b c = true) : compare_cost a c = true := by
  simp only [compare_cost, Bool.or_eq_true, Bool.and_eq_true, decide_eq_true_eq] at *
  omega

theorem compare_cost_le {a b : Node} (h : compare_cost a b = true) :
    b.cost_ + b.h_cost_ ≤ a.cost_ + a.h_cost_ ∧
      (b.cost_ + b.h_cost_ = a.cost_ + a.h_cost_ → b.h_cost_ ≤ a.h_cost_) := by
  simp only [compare_cost, Bool.or_eq_true, Bool.and_eq_true, decide_eq_true_eq] at h
  omega

theorem openPush_perm (x : Node) (l : List Node) : (openPush x l).Perm (x :: l) := by
  induction l with
  | nil => exact List.Perm.refl _
  | cons e es ih =>
    unfold openPush
    split
    · exact (List.Perm.cons e ih).trans (List.Perm.swap x e es)
    · exact List.Perm.refl _

theorem mem_openPush {x e : Node} {l : List Node} : e ∈ openPush x l ↔ e = x ∨ e ∈ l := by
  rw [(openPush_perm x l).mem_iff, List.mem_cons]

theorem openPush_sorted (x : Node) (l : List Node) (h : OpenSorted l) :
    OpenSorted (openPush x l) := by
  unfold OpenSorted at *
  induction l with
  | nil => simp [openPush]
  | cons e es ih =>
    rw [List.pairwise_cons] at h
    unfold openPush
    split
    · rename_i hc
      rw [List.pairwise_cons]
      refine ⟨?_, ih h.2⟩
      intro b hb
      rcases mem_openPush.1 hb with rfl | hb
      · exact hc
      · exact h.1 b hb
    · rename_i hc
      have hex : compare_cost e x = true := compare_cost_total (by simpa using hc)
      rw [List.pairwise_cons]
      refine ⟨?_, List.pairwise_cons.2 h⟩
      intro b hb
      rcases List.mem_cons.1 hb with rfl | hb
      · exact hex
      · exact compare_cost_trans (h.1 b hb) hex

/-! ## The loop over the motions -/

theorem expandLoop_cons_goal {n : Int} {grid : Grid} {goal cur m : Node} (ms ol : List Node)
    (hg : CompareCoordinates (newPoint n goal cur m) goal = true) :
    expandLoop n grid goal cur (m :: ms) ol = .ret (openPush (newPoint n goal cur m) ol) := by
  simp [expandLoop, hg]

theorem expandLoop_cons_out {n : Int} {grid : Grid} {goal cur m : Node} (ms ol : List Node)
    (hg : CompareCoordinates (newPoint n goal cur m) goal = false)
    (ho : checkOutsideBoundary (newPoint n goal cur m) n = true) :
    expandLoop n grid goal cur (m :: ms) ol = expandLoop n grid goal cur ms ol := by
  simp [expandLoop, hg, ho]

theorem expandLoop_cons_none {n : Int} {grid : Grid} {goal cur m : Node} (ms ol : List Node)
    (hg : CompareCoordinates (newPoint n goal cur m) goal = false)
    (ho : checkOutsideBoundary (newPoint n goal cur m) n = false)
    (hget : gridGet grid (newPoint n goal cur m).x_ (newPoint n goal cur m).y_ = none) :
    expandLoop n grid goal cur (m :: ms) ol = .ub := by
  simp [expandLoop, hg, ho, hget]

theorem expandLoop_cons_blocked {n : Int} {grid : Grid} {goal cur m : Node} (ms ol : List Node)
    {v : Int} (hg : CompareCoordinates (newPoint n goal cur m) goal = false)
    (ho : checkOutsideBoundary (newPoint n goal cur m) n = false)
    (hget : gridGet grid (newPoint n goal cur m).x_ (newPoint n goal cur m).y_ = some v)
    (hv : v ≠ 0) :
    expandLoop n grid goal cur (m :: ms) ol = expandLoop n grid goal cur ms ol := by
  simp [expandLoop, hg, ho, hget, hv]

theorem expandLoop_cons_free {n : Int} {grid : Grid} {goal cur m : Node} (ms ol : List Node)
    (hg : CompareCoordinates (newPoint n goal cur m) goal = false)
    (ho : checkOutsideBoundary (newPoint n goal cur m) n = false)
    (hget : gridGet grid (newPoint n goal cur m).x_ (newPoint n goal cur m).y_ = some 0) :
    expandLoop n grid goal cur (m :: ms) ol =
      expandLoop n grid goal cur ms (openPush (newPoint n goal cur m) ol) := by
  simp [expandLoop, hg, ho, hget]

theorem expandLoop_spec (n : Int) (grid : Grid) (goal cur : Node) :
    ∀ (ms ol : List Node),
      (expandLoop n grid goal cur ms ol = .ub ∧
        ∃ m ∈ ms, checkOutsideBoundary (newPoint n goal cur m) n = false ∧
          gridGet grid (newPoint n goal cur m).x_ (newPoint n goal cur m).y_ = none) ∨
      ∃ pushed ol2, expandLoop n grid goal cur ms ol = .ret ol2 ∧
        ol2.Perm (pushed ++ ol) ∧ (OpenSorted ol → OpenSorted ol2) ∧
        pushed.length ≤ ms.length ∧
        (∀ e ∈ pushed, ∃ m ∈ ms, e = newPoint n goal cur m ∧
          (CompareCoordinates e goal = true ∨
            (checkOutsideBoundary e n = false ∧ gridGet grid e.x_ e.y_ = some 0))) ∧
        ((∃ e ∈ pushed, CompareCoordinates e goal = true) ∨
          ∀ m ∈ ms, CompareCoordinates (newPoint n goal cur m) goal = false ∧
            (checkOutsideBoundary (newPoint n goal cur m) n = true ∨
              (∃ v, gridGet grid (newPoint n goal cur m).x_ (newPoint n goal cur m).y_ = some v
                ∧ v ≠ 0) ∨
              newPoint n goal cur m ∈ pushed)) := by
  intro ms
  induction ms with
  | nil =>
    intro ol
    right
    exact ⟨[], ol, rfl, List.Perm.refl _, id, le_refl _, by simp, Or.inr (by simp)⟩
  | cons m ms ih =>
    intro ol
    by_cases hg : CompareCoordinates (newPoint n goal cur m) goal = true
    · right
      rw [expandLoop_cons_goal ms ol hg]
      refine ⟨[newPoint n goal cur m], _, rfl, openPush_perm _ _, openPush_sorted _ _, by simp,
        ?_, Or.inl ⟨_, by simp, hg⟩⟩
      intro e he
      rw [List.mem_singleton] at he
      subst he
      exact ⟨m, by simp, rfl, Or.inl hg⟩
    · have hg2 : CompareCoordinates (newPoint n goal cur m) goal = false := by simpa using hg
      by_cases ho : checkOutsideBoundary (newPoint n goal cur m) n = true
      · rw [expandLoop_cons_out ms ol hg2 ho]
        rcases ih ol with ⟨hub, m2, hm2, h1, h2⟩ | ⟨pushed, ol2, hr, hperm, hso, hlen, hp, hall⟩
        · exact Or.inl ⟨hub, m2, List.mem_cons_of_mem _ hm2, h1, h2⟩
        · right
          refine ⟨pushed, ol2, hr, hperm, hso, by simp; omega, ?_, ?_⟩
          · intro e he
            obtain ⟨m2, hm2, h⟩ := hp e he
            exact ⟨m2, List.mem_cons_of_mem _ hm2, h⟩
          · rcases hall with hbr | hall
            · exact Or.inl hbr
            · right
              intro m2 hm2
              rcases List.mem_cons.1 hm2 with rfl | hm2
              · exact ⟨hg2, Or.inl ho⟩
              · exact hall m2 hm2
      · have ho2 : checkOutsideBoundary (newPoint n goal cur m) n = false := by simpa using ho
        cases hget : gridGet grid (newPoint n goal cur m).x_ (newPoint n goal cur m).y_ with
        | none =>
          left
          exact ⟨expandLoop_cons_none ms ol hg2 ho2 hget, m, by simp, ho2, hget⟩
        | some v =>
          by_cases hv : v ≠ 0
          · rw [expandLoop_cons_blocked ms ol hg2 ho2 hget hv]
            rcases ih ol with ⟨hub, m2, hm2, h1, h2⟩ |
              ⟨pushed, ol2, hr, hperm, hso, hlen, hp, hall⟩
            · exact Or.inl ⟨hub, m2, List.mem_cons_of_mem _ hm2, h1, h2⟩
            · right
              refine ⟨pushed, ol2, hr, hperm, hso, by simp; omega, ?_, ?_⟩
              · intro e he
                obtain ⟨m2, hm2, h⟩ := hp e he
                exact ⟨m2, List.mem_cons_of_mem _ hm2, h⟩
              · rcases hall with hbr | hall
                · exact Or.inl hbr
                · right
                  intro m2 hm2
                  rcases List.mem_cons.1 hm2 with rfl | hm2
                  · exact ⟨hg2, Or.inr (Or.inl ⟨v, hget, hv⟩)⟩
                  · exact hall m2 hm2
          · have hv0 : v = 0 := by simpa using hv
            subst hv0
            rw [expandLoop_cons_free ms ol hg2 ho2 hget]
            rcases ih (openPush (newPoint n goal cur m) ol) with ⟨hub, m2, hm2, h1, h2⟩ |
              ⟨pushed, ol2, hr, hperm, hso, hlen, hp, hall⟩
            · exact Or.inl ⟨hub, m2, List.mem_cons_of_mem _ hm2, h1, h2⟩
            · right
              refine ⟨newPoint n goal cur m :: pushed, ol2, hr, ?_, ?_, by simp; omega, ?_, ?_⟩
              · refine hperm.trans ?_
                refine (List.Perm.append_left pushed (openPush_perm _ ol)).trans ?_
                exact List.perm_middle
              · intro h; exact hso (openPush_sorted _ _ h)
              · intro e he
                rcases List.mem_cons.1 he with rfl | he
                · exact ⟨m, by simp, rfl, Or.inr ⟨ho2, hget⟩⟩
                · obtain ⟨m2, hm2, h⟩ := hp e he
                  exact ⟨m2, List.mem_cons_of_mem _ hm2, h⟩
              · rcases hall with ⟨e, he, hbr⟩ | hall
                · exact Or.inl ⟨e, List.mem_cons_of_mem _ he, hbr⟩
                · right
                  intro m2 hm2
                  rcases List.mem_cons.1 hm2 with rfl | hm2
                  · exact ⟨hg2, Or.inr (Or.inr (by simp))⟩
                  · obtain ⟨h1, h2⟩ := hall m2 hm2
                    refine ⟨h1, ?_⟩
                    rcases h2 with h2 | h2 | h2
                    · exact Or.inl h2
                    · exact Or.inr (Or.inl h2)
                    · exact Or.inr (Or.inr (List.mem_cons_of_mem _ h2))

/-! ## One iteration of the main loop -/

theorem planLoop_nil (n : Int) (start goal : Node) (k : Nat) (grid : Grid) (cl : List Node) :
    planLoop n start goal (k + 1) grid [] cl = .ret (false, [], grid) := by
  simp [planLoop, openTop]

theorem planLoop_goal (n : Int) (start goal : Node) (k : Nat) (grid : Grid)
    (top : Node) (rest cl : List Node) (hg : CompareCoordinates top goal = true) :
    planLoop n start goal (k + 1) grid (top :: rest) cl =
      match gridSet grid top.x_ top.y_ 2 with
      | none => .ub
      | some grid2 =>
        (ConvertClosedListToPath n (closedInsert cl (canon n top)) start goal).map
          (fun path => (true, path, grid2)) := by
  have hg2 : CompareCoordinates (canon n top) goal = true := hg
  simp only [planLoop, openTop, List.head?_cons]
  rw [show ({ top with id_ := top.x_ * n + top.y_ } : Node) = canon n top from rfl]
  simp only [hg2, if_true]

theorem planLoop_setfail (n : Int) (start goal : Node) (k : Nat) (grid : Grid)
    (top : Node) (rest cl : List Node) (hset : gridSet grid top.x_ top.y_ 2 = none) :
    planLoop n start goal (k + 1) grid (top :: rest) cl = .ub := by
  simp only [planLoop, openTop, List.head?_cons]
  rw [show ({ top with id_ := top.x_ * n + top.y_ } : Node) = canon n top from rfl]
  rw [hset]
  simp

theorem planLoop_expand_ub (n : Int) (start goal : Node) (k : Nat) (grid grid2 : Grid)
    (top : Node) (rest cl : List Node) (hg : CompareCoordinates top goal = false)
    (hset : gridSet grid top.x_ top.y_ 2 = some grid2)
    (hex : expandLoop n grid2 goal (canon n top) GetMotion rest = .ub) :
    planLoop n start goal (k + 1) grid (top :: rest) cl = .ub := by
  have hg2 : CompareCoordinates (canon n top) goal = false := hg
  simp only [planLoop, openTop, openPop, List.head?_cons, List.tail_cons]
  rw [show ({ top with id_ := top.x_ * n + top.y_ } : Node) = canon n top from rfl]
  rw [hset]
  simp [hg2, hex]

theorem planLoop_step (n : Int) (start goal : Node) (k : Nat) (grid grid2 : Grid)
    (top : Node) (rest cl ol2 : List Node) (hg : CompareCoordinates top goal = false)
    (hset : gridSet grid top.x_ top.y_ 2 = some grid2)
    (hex : expandLoop n grid2 goal (canon n top) GetMotion rest = .ret ol2) :
    planLoop n start goal (k + 1) grid (top :: rest) cl =
      planLoop n start goal k grid2 ol2 (closedInsert cl (canon n top)) := by
  have hg2 : CompareCoordinates (canon n top) goal = false := hg
  simp only [planLoop, openTop, openPop, List.head?_cons, List.tail_cons]
  rw [show ({ top with id_ := top.x_ * n + top.y_ } : Node) = canon n top from rfl]
  rw [hset]
  simp [hg2, hex]

/-! ## Termination measure -/

theorem weight_le_of_gridSet (goal : Node) {grid grid2 : Grid} {x y : Int}
    (hset : gridSet grid x y 2 = some grid2) (e : Node) :
    weight goal grid2 e ≤ weight goal grid e := by
  obtain ⟨old, hold⟩ := gridGet_of_gridSet hset
  have hz := zeros_gridSet hset hold
  have hget := gridGet_gridSet hset e.x_ e.y_
  have hmono : 25 ^ zeros grid2 ≤ 25 ^ zeros grid :=
    Nat.pow_le_pow_right (by norm_num) (by split at hz <;> omega)
  unfold weight
  by_cases hg : CompareCoordinates e goal = true
  · simp [hg]
  · simp only [hg, if_false, Bool.false_eq_true]
    by_cases h2 : gridGet grid2 e.x_ e.y_ = some 0
    · have h1 : gridGet grid e.x_ e.y_ = some 0 := by
        rw [hget] at h2
        split at h2
        · simp at h2
        · exact h2
      simp only [h2, h1, if_true]
      exact hmono
    · simp only [h2, if_false]
      by_cases h1 : gridGet grid e.x_ e.y_ = some 0
      · simp only [h1, if_true]
        have hxy : e.x_ = x ∧ e.y_ = y := by
          by_contra hne
          rw [hget, if_neg hne] at h2
          exact h2 h1
        rw [hxy.1, hxy.2, hold] at h1
        have h0 : old = 0 := by simpa using h1
        rw [if_pos h0] at hz
        rw [← hz, pow_succ]
        omega
      · simp only [h1, if_false]
        omega

theorem loopMeasure_le_of_gridSet (goal : Node) {grid grid2 : Grid} {x y : Int}
    (hset : gridSet grid x y 2 = some grid2) (l : List Node) :
    loopMeasure goal grid2 l ≤ loopMeasure goal grid l := by
  induction l with
  | nil => simp [loopMeasure]
  | cons e l ih =>
    have := weight_le_of_gridSet goal hset e
    simp only [loopMeasure, List.map_cons, List.sum_cons] at *
    omega

theorem loopMeasure_pushed (goal : Node) (grid2 : Grid) (pushed : List Node)
    (h : ∀ e ∈ pushed, CompareCoordinates e goal = true ∨ gridGet grid2 e.x_ e.y_ = some 0) :
    loopMeasure goal grid2 pushed ≤ pushed.length * 25 ^ zeros grid2 := by
  induction pushed with
  | nil => simp [loopMeasure]
  | cons e l ih =>
    have ih2 := ih (fun e he => h e (List.mem_cons_of_mem _ he))
    have hw : weight goal grid2 e ≤ 25 ^ zeros grid2 := by
      unfold weight
      rcases h e (List.mem_cons_self _ _) with hg | hz
      · simp only [hg, if_true]
        exact Nat.one_le_pow _ _ (by norm_num)
      · by_cases hg : CompareCoordinates e goal = true
        · simp only [hg, if_true]
          exact Nat.one_le_pow _ _ (by norm_num)
        · simp [hg, hz]
    simp only [loopMeasure, List.map_cons, List.sum_cons, List.length_cons] at *
    rw [Nat.add_mul]
    omega

theorem loopMeasure_step {n : Int} {goal : Node} {grid grid2 : Grid} {top : Node}
    {rest ol2 : List Node} (hg : CompareCoordinates top goal = false)
    (hset : gridSet grid top.x_ top.y_ 2 = some grid2)
    (hex : expandLoop n grid2 goal (canon n top) GetMotion rest = .ret ol2) :
    loopMeasure goal grid2 ol2 < loopMeasure goal grid (top :: rest) := by
  rcases expandLoop_spec n grid2 goal (canon n top) GetMotion rest with
    ⟨hub, _⟩ | ⟨pushed, ol3, hr, hperm, _, hlen, hp, _⟩
  · rw [hub] at hex; cases hex
  · rw [hr] at hex
    cases hex
    have hsum : loopMeasure goal grid2 ol2 =
        loopMeasure goal grid2 pushed + loopMeasure goal grid2 rest := by
      unfold loopMeasure
      rw [(hperm.map _).sum_eq, List.map_append, List.sum_append]
    have hpm := loopMeasure_pushed goal grid2 pushed (by
      intro e he
      obtain ⟨m, _, _, h⟩ := hp e he
      rcases h with h | h
      · exact Or.inl h
      · exact Or.inr h.2)
    have hrest := loopMeasure_le_of_gridSet goal hset rest
    have hlen4 : pushed.length ≤ 4 := by simpa [GetMotion] using hlen
    obtain ⟨old, hold⟩ := gridGet_of_gridSet hset
    have hz := zeros_gridSet hset hold
    have htop : 4 * 25 ^ zeros grid2 < weight goal grid top := by
      unfold weight
      simp only [hg, if_false, Bool.false_eq_true, hold]
      by_cases h0 : old = 0
      · rw [if_pos h0] at hz
        simp only [h0, if_true]
        rw [← hz, pow_succ]
        have : 0 < 25 ^ zeros grid2 := Nat.pos_pow_of_pos _ (by norm_num)
        omega
      · rw [if_neg h0, Nat.add_zero] at hz
        have hne : ¬ (some old = some (0 : Int)) := by simpa using h0
        simp only [hne, if_false]
        rw [← hz]
        have : 0 < 25 ^ zeros grid2 := Nat.pos_pow_of_pos _ (by norm_num)
        omega
    have hmul : pushed.length * 25 ^ zeros grid2 ≤ 4 * 25 ^ zeros grid2 :=
      Nat.mul_le_mul_right _ hlen4
    have hcons : loopMeasure goal grid (top :: rest) =
        weight goal grid top + loopMeasure goal grid rest := by
      simp [loopMeasure]
    omega
/-! ## Invariant rule for the main loop -/

/-- Invariant rule: a run with enough fuel ends like a one-iteration run from a state that
satisfies the invariant and whose iteration does not enter another one. -/
theorem planLoop_last (n : Int) (start goal : Node)
    (Inv : Grid → List Node → List Node → Prop)
    (hstep : ∀ grid top rest cl grid2 ol2, Inv grid (top :: rest) cl →
      CompareCoordinates top goal = false → gridSet grid top.x_ top.y_ 2 = some grid2 →
      expandLoop n grid2 goal (canon n top) GetMotion rest = .ret ol2 →
      Inv grid2 ol2 (closedInsert cl (canon n top))) :
    ∀ (fuel : Nat) (grid : Grid) (ol cl : List Node), Inv grid ol cl →
      loopMeasure goal grid ol < fuel →
      ∃ grid1 ol1 cl1, Inv grid1 ol1 cl1 ∧
        planLoop n start goal fuel grid ol cl = planLoop n start goal 1 grid1 ol1 cl1 ∧
        (ol1 = [] ∨ ∃ top rest, ol1 = top :: rest ∧
          (CompareCoordinates top goal = true ∨ gridSet grid1 top.x_ top.y_ 2 = none ∨
            ∃ grid2, gridSet grid1 top.x_ top.y_ 2 = some grid2 ∧
              expandLoop n grid2 goal (canon n top) GetMotion rest = .ub)) := by
  intro fuel
  induction fuel with
  | zero => intro grid ol cl _ hm; omega
  | succ k ih =>
    intro grid ol cl hinv hm
    cases ol with
    | nil =>
      exact ⟨grid, [], cl, hinv, by rw [planLoop_nil, planLoop_nil], Or.inl rfl⟩
    | cons top rest =>
      by_cases hg : CompareCoordinates top goal = true
      · exact ⟨grid, top :: rest, cl, hinv, by rw [planLoop_goal _ _ _ _ _ _ _ _ hg,
          planLoop_goal _ _ _ _ _ _ _ _ hg], Or.inr ⟨top, rest, rfl, Or.inl hg⟩⟩
      · have hg2 : CompareCoordinates top goal = false := by simpa using hg
        cases hset : gridSet grid top.x_ top.y_ 2 with
        | none =>
          exact ⟨grid, top :: rest, cl, hinv, by rw [planLoop_setfail _ _ _ _ _ _ _ _ hset,
            planLoop_setfail _ _ _ _ _ _ _ _ hset], Or.inr ⟨top, rest, rfl, Or.inr (Or.inl hset)⟩⟩
        | some grid2 =>
          rcases expandLoop_spec n grid2 goal (canon n top) GetMotion rest with
            ⟨hub, _⟩ | ⟨pushed, ol2, hr, _⟩
          · exact ⟨grid, top :: rest, cl, hinv,
              by rw [planLoop_expand_ub _ _ _ _ _ _ _ _ _ hg2 hset hub,
                planLoop_expand_ub _ _ _ _ _ _ _ _ _ hg2 hset hub],
              Or.inr ⟨top, rest, rfl, Or.inr (Or.inr ⟨grid2, hset, hub⟩)⟩⟩
          · have hlt := loopMeasure_step hg2 hset hr
            have hinv2 := hstep grid top rest cl grid2 ol2 hinv hg2 hset hr
            obtain ⟨grid1, ol1, cl1, h1, h2, h3⟩ := ih grid2 ol2 _ hinv2 (by omega)
            exact ⟨grid1, ol1, cl1, h1, by rw [planLoop_step _ _ _ _ _ _ _ _ _ _ hg2 hset hr, h2],
              h3⟩

/-! ## Path reconstruction over a well-formed closed list -/

theorem decode_id {n x y : Int} (hx : 0 ≤ x) (hy0 : 0 ≤ y) (hyn : y < n) :
    Int.tdiv (x * n + y) n = x ∧ Int.tmod (x * n + y) n = y := by
  have hn : 0 < n := by omega
  have hnn : 0 ≤ x * n + y := by positivity
  constructor
  · rw [Int.tdiv_eq_ediv hnn hn.le, Int.add_comm, Int.add_mul_ediv_right _ _ (by omega),
      Int.ediv_eq_zero_of_lt hy0 hyn]
    simp
  · rw [Int.tmod_eq_emod hnn hn.le, Int.add_comm, Int.add_mul_emod_self,
      Int.emod_eq_of_lt hy0 hyn]

theorem ClosedOk_mem {g0 : Grid} {n : Int} {start : Node} {cl : List Node}
    (h : ClosedOk g0 n start cl) : ∀ e ∈ cl, NodeOk g0 n e := by
  induction h with
  | nil => intro e he; cases he
  | snoc cl e0 _ hok _ ih =>
    intro e he
    rcases List.mem_append.1 he with he | he
    · exact ih e he
    · rw [List.mem_singleton] at he; exact he ▸ hok

theorem closedFind_append_of_mem {cl : List Node} (ext : List Node) {k p : Node} (hp : p ∈ cl)
    (hid : p.id_ = k.id_) (hx : p.x_ = k.x_) (hy : p.y_ = k.y_) :
    ∃ q ∈ cl, closedFind (cl ++ ext) k = some q ∧ q.id_ = k.id_ ∧ q.x_ = k.x_ ∧ q.y_ = k.y_ := by
  have hsome : (cl.find? (fun e => e.id_ == k.id_ && CompareCoordinates e k)).isSome := by
    rw [List.find?_isSome]
    exact ⟨p, hp, by simp [CompareCoordinates, hid, hx, hy]⟩
  obtain ⟨q, hq⟩ := Option.isSome_iff_exists.1 hsome
  have hq2 : closedFind cl k = some q := hq
  obtain ⟨hmem, h1, h2, h3⟩ := closedFind_some hq2
  refine ⟨q, hmem, ?_, h1, h2, h3⟩
  unfold closedFind
  rw [List.find?_append, hq]
  rfl

theorem convertLoop_spec {g0 : Grid} {n : Int} {start : Node} {cl : List Node}
    (h : ClosedOk g0 n start cl) :
    ∀ (ext : List Node) (e : Node), e ∈ cl → ∀ (fuel : Nat), cl.length ≤ fuel →
      ∀ path : List Node, ∃ L : List Node,
        convertLoop n (cl ++ ext) start fuel e path = .ret (path ++ (L ++ [start])) ∧
        (∀ c ∈ L, c ∈ cl) ∧
        (L ++ [start]).Chain' (fun a b => ∃ m ∈ GetMotion, a.x_ = b.x_ + m.x_ ∧ a.y_ = b.y_ + m.y_) ∧
        ∃ first, (L ++ [start]).head? = some first ∧ first.x_ = e.x_ ∧ first.y_ = e.y_ := by
  induction h with
  | nil => intro ext e he; cases he
  | snoc cl e0 hcl hok hpar ih =>
    intro ext e he fuel hfuel path
    rw [List.append_assoc]
    rcases List.mem_append.1 he with he | he
    · obtain ⟨L, h1, h2, h3, h4⟩ := ih ([e0] ++ ext) e he fuel
        (by simp at hfuel; omega) path
      exact ⟨L, h1, fun c hc => List.mem_append_left _ (h2 c hc), h3, h4⟩
    · rw [List.mem_singleton] at he
      subst he
      cases fuel with
      | zero => simp at hfuel
      | succ k =>
        have hk : cl.length ≤ k := by simp at hfuel; omega
        unfold convertLoop
        by_cases hc : CompareCoordinates e start = true
        · rw [if_pos hc]
          rw [CompareCoordinates_iff] at hc
          exact ⟨[], rfl, by simp, by simp, start, rfl, hc.1.symm, hc.2.symm⟩
        · rw [if_neg hc]
          have hn : n ≠ 0 := by
            have := hok.1
            omega
          rw [if_neg hn]
          rcases hpar with hst | ⟨p, hp, hpid, m, hm, hmx, hmy⟩
          · exact absurd ((CompareCoordinates_iff _ _).2 hst) hc
          · have hpok := ClosedOk_mem hcl p hp
            have hdec := decode_id hpok.1.1 hpok.1.2.2.1 hpok.1.2.2.2
            rw [← hpok.2.2, hpid] at hdec
            obtain ⟨q, hq, hfind, _, hqx, hqy⟩ :=
              closedFind_append_of_mem ([e] ++ ext)
                (k := ⟨Int.tdiv e.pid_ n, Int.tmod e.pid_ n, 0, 0, e.pid_, 0⟩) hp hpid
                hdec.1.symm hdec.2.symm
            rw [hfind]
            obtain ⟨L, h1, h2, h3, first, hf, hfx, hfy⟩ := ih ([e] ++ ext) q hq k hk (path ++ [e])
            refine ⟨e :: L, ?_, ?_, ?_, e, rfl, rfl, rfl⟩
            · change convertLoop n (cl ++ ([e] ++ ext)) start k q (path ++ [e]) = _
              rw [h1]; simp
            · intro c hc2
              rcases List.mem_cons.1 hc2 with rfl | hc2
              · simp
              · exact List.mem_append_left _ (h2 c hc2)
            · rw [List.cons_append, List.chain'_cons']
              refine ⟨?_, h3⟩
              intro b hb
              rw [hf] at hb
              simp only [Option.mem_def, Option.some.injEq] at hb
              subst hb
              simp only at hqx hqy
              refine ⟨m, hm, ?_, ?_⟩
              · rw [hfx, hqx, hdec.1]; exact hmx
              · rw [hfy, hqy, hdec.2]; exact hmy

/-! ## The structural invariant is kept by every iteration -/

theorem mem_GetMotion {m : Node} (h : m ∈ GetMotion) :
    m.cost_ = 1 ∧ ((m.x_ = 0 ∧ m.y_ = 1) ∨ (m.x_ = 1 ∧ m.y_ = 0) ∨
      (m.x_ = 0 ∧ m.y_ = -1) ∨ (m.x_ = -1 ∧ m.y_ = 0)) := by
  simp only [GetMotion, List.mem_cons, List.mem_singleton, List.not_mem_nil, or_false] at h
  rcases h with rfl | rfl | rfl | rfl <;> simp

theorem closedInsert_cases (cl : List Node) (k : Node) :
    (closedInsert cl k = cl ∧ ∃ q ∈ cl, q.id_ = k.id_ ∧ q.x_ = k.x_ ∧ q.y_ = k.y_) ∨
    (closedInsert cl k = cl ++ [k] ∧ ∀ q ∈ cl, ¬ (q.id_ = k.id_ ∧ q.x_ = k.x_ ∧ q.y_ = k.y_)) := by
  unfold closedInsert
  cases hf : closedFind cl k with
  | some q =>
    left
    obtain ⟨h1, h2, h3, h4⟩ := closedFind_some hf
    exact ⟨rfl, q, h1, h2, h3, h4⟩
  | none =>
    right
    refine ⟨rfl, ?_⟩
    intro q hq hmatch
    unfold closedFind at hf
    rw [List.find?_eq_none] at hf
    exact hf q hq (by simp [CompareCoordinates, hmatch.1, hmatch.2.1, hmatch.2.2])

theorem newPoint_fields (n : Int) (goal cur m : Node) :
    (newPoint n goal cur m).x_ = cur.x_ + m.x_ ∧ (newPoint n goal cur m).y_ = cur.y_ + m.y_ ∧
    (newPoint n goal cur m).cost_ = cur.cost_ + m.cost_ ∧
    (newPoint n goal cur m).pid_ = cur.id_ ∧
    (newPoint n goal cur m).h_cost_ =
      |cur.x_ + m.x_ - goal.x_| + |cur.y_ + m.y_ - goal.y_| :=
  ⟨rfl, rfl, rfl, rfl, rfl⟩

theorem checkOutsideBoundary_false {e : Node} {n : Int} (h : checkOutsideBoundary e n = false) :
    0 ≤ e.x_ ∧ e.x_ < n ∧ 0 ≤ e.y_ ∧ e.y_ < n := by
  simp only [checkOutsideBoundary, Bool.or_eq_false_iff, decide_eq_false_iff_not] at h
  omega

/-- Effect of `closed_list.insert(current)` on a well-formed closed list. -/
theorem closedInsert_ok {g0 : Grid} {n : Int} {start : Node} {cl : List Node} (cur : Node)
    (hcl : ClosedOk g0 n start cl) (hok : NodeOk g0 n cur)
    (hpar : (cur.x_ = start.x_ ∧ cur.y_ = start.y_) ∨
      ∃ p ∈ cl, p.id_ = cur.pid_ ∧ ∃ m ∈ GetMotion, cur.x_ = p.x_ + m.x_ ∧ cur.y_ = p.y_ + m.y_) :
    ClosedOk g0 n start (closedInsert cl cur) ∧
    (∀ e ∈ cl, e ∈ closedInsert cl cur) ∧
    (∃ p ∈ closedInsert cl cur, p.id_ = cur.id_ ∧ p.x_ = cur.x_ ∧ p.y_ = cur.y_) ∧
    (∀ e ∈ closedInsert cl cur, e ∈ cl ∨ (e.x_ = cur.x_ ∧ e.y_ = cur.y_)) := by
  rcases closedInsert_cases cl cur with ⟨heq, q, hq, h1, h2, h3⟩ | ⟨heq, _⟩
  · rw [heq]
    exact ⟨hcl, fun e he => he, ⟨q, hq, h1, h2, h3⟩, fun e he => Or.inl he⟩
  · rw [heq]
    refine ⟨ClosedOk.snoc cl cur hcl hok hpar, fun e he => List.mem_append_left _ he,
      ⟨cur, by simp, rfl, rfl, rfl⟩, ?_⟩
    intro e he
    rcases List.mem_append.1 he with he | he
    · exact Or.inl he
    · rw [List.mem_singleton] at he; subst he; exact Or.inr ⟨rfl, rfl⟩

theorem PlanInv_step {g0 : Grid} {n : Int} {start goal : Node}
    (hgb : 0 ≤ goal.x_ ∧ goal.x_ < n ∧ 0 ≤ goal.y_ ∧ goal.y_ < n)
    (hgf : gridGet g0 goal.x_ goal.y_ = some 0)
    {grid : Grid} {top : Node} {rest cl : List Node} {grid2 : Grid} {ol2 : List Node}
    (hinv : PlanInv g0 n start grid (top :: rest) cl)
    (hset : gridSet grid top.x_ top.y_ 2 = some grid2)
    (hex : expandLoop n grid2 goal (canon n top) GetMotion rest = .ret ol2) :
    PlanInv g0 n start grid2 ol2 (closedInsert cl (canon n top)) := by
  obtain ⟨htb, htf, htpar⟩ := hinv.opn top (List.mem_cons_self _ _)
  have hok : NodeOk g0 n (canon n top) := ⟨htb, htf, rfl⟩
  obtain ⟨hcl2, hsub, ⟨p0, hp0, hp0id, hp0x, hp0y⟩, hnew⟩ :=
    closedInsert_ok (canon n top) hinv.closed hok htpar
  have hget := gridGet_gridSet hset
  have hgr2 : ∀ x y, (0 ≤ x ∧ x < n ∧ 0 ≤ y ∧ y < n) →
      (gridGet grid2 x y = some 0 ↔
        (gridGet g0 x y = some 0 ∧ ∀ e ∈ closedInsert cl (canon n top), ¬ (e.x_ = x ∧ e.y_ = y))) := by
    intro x y hb
    rw [hget x y]
    by_cases hxy : x = top.x_ ∧ y = top.y_
    · rw [if_pos hxy]
      constructor
      · intro h; simp at h
      · intro h
        exact absurd ⟨hp0x.trans hxy.1.symm, hp0y.trans hxy.2.symm⟩ (h.2 p0 hp0)
    · rw [if_neg hxy, hinv.gr x y hb]
      constructor
      · intro h
        refine ⟨h.1, ?_⟩
        intro e he hexy
        rcases hnew e he with he | he
        · exact h.2 e he hexy
        · exact hxy ⟨hexy.1.symm.trans he.1, hexy.2.symm.trans he.2⟩
      · intro h
        exact ⟨h.1, fun e he => h.2 e (hsub e he)⟩
  refine ⟨gridSet_isSquare hinv.sq hset, hgr2, hcl2, ?_⟩
  rcases expandLoop_spec n grid2 goal (canon n top) GetMotion rest with
    ⟨hub, _⟩ | ⟨pushed, ol3, hr, hperm, _, _, hp, _⟩
  · rw [hub] at hex; cases hex
  · rw [hr] at hex
    cases hex
    intro e he
    rcases List.mem_append.1 (hperm.mem_iff.1 he) with he | he
    · obtain ⟨m, hm, hem, hcase⟩ := hp e he
      obtain ⟨fx, fy, _, fpid, _⟩ := newPoint_fields n goal (canon n top) m
      rw [← hem] at fx fy fpid
      have hpar : ∃ p ∈ closedInsert cl (canon n top), p.id_ = e.pid_ ∧
          ∃ m ∈ GetMotion, e.x_ = p.x_ + m.x_ ∧ e.y_ = p.y_ + m.y_ :=
        ⟨p0, hp0, by rw [hp0id, fpid], m, hm, by rw [fx, hp0x], by rw [fy, hp0y]⟩
      rcases hcase with hc | ⟨ho, hz⟩
      · rw [CompareCoordinates_iff] at hc
        refine ⟨by rw [hc.1, hc.2]; exact hgb, by rw [hc.1, hc.2]; exact hgf, Or.inr hpar⟩
      · have hb := checkOutsideBoundary_false ho
        exact ⟨hb, ((hgr2 _ _ hb).1 hz).1, Or.inr hpar⟩
    · obtain ⟨h1, h2, h3⟩ := hinv.opn e (List.mem_cons_of_mem _ he)
      refine ⟨h1, h2, ?_⟩
      rcases h3 with h3 | ⟨p, hp1, hp2⟩
      · exact Or.inl h3
      · exact Or.inr ⟨p, hsub p hp1, hp2⟩

theorem PlanInv_init {g0 : Grid} {n : Int} {start : Node} (hsq : IsSquare g0 n)
    (hsb : 0 ≤ start.x_ ∧ start.x_ < n ∧ 0 ≤ start.y_ ∧ start.y_ < n)
    (hsf : gridGet g0 start.x_ start.y_ = some 0) :
    PlanInv g0 n start g0 (openPush start []) [] := by
  refine ⟨hsq, ?_, ClosedOk.nil, ?_⟩
  · intro x y _; simp
  · intro e he
    simp only [openPush, List.mem_singleton] at he
    subst he
    exact ⟨hsb, hsf, Or.inl ⟨rfl, rfl⟩⟩

/-! ## How a run of `Plan` ends -/

theorem PlanInv_gridSet {g0 : Grid} {n : Int} {start : Node} {grid : Grid} {top : Node}
    {rest cl : List Node} (hinv : PlanInv g0 n start grid (top :: rest) cl) :
    ∃ grid2, gridSet grid top.x_ top.y_ 2 = some grid2 :=
  gridSet_isSome_of_inBounds 2 hinv.sq (hinv.opn top (List.mem_cons_self _ _)).1

theorem expandLoop_ne_ub {n : Int} {grid2 : Grid} (hsq : IsSquare grid2 n)
    (goal cur : Node) (ms ol : List Node) : expandLoop n grid2 goal cur ms ol ≠ .ub := by
  intro hub
  rcases expandLoop_spec n grid2 goal cur ms ol with ⟨_, m, _, ho, hnone⟩ | ⟨_, _, hr, _⟩
  · obtain ⟨v, hv⟩ := gridGet_isSome_of_inBounds hsq (checkOutsideBoundary_false ho)
    rw [hv] at hnone; cases hnone
  · rw [hr] at hub; cases hub

theorem planLoop_found {g0 : Grid} {n : Int} {start goal : Node} {grid : Grid} {top : Node}
    {rest cl : List Node} (hinv : PlanInv g0 n start grid (top :: rest) cl)
    (hg : CompareCoordinates top goal = true) (hgid : goal.id_ = goal.x_ * n + goal.y_) :
    ∃ grid2 L, planLoop n start goal 1 grid (top :: rest) cl = .ret (true, L ++ [start], grid2) ∧
      (∀ c ∈ L, c ∈ closedInsert cl (canon n top)) ∧
      ClosedOk g0 n start (closedInsert cl (canon n top)) ∧
      (L ++ [start]).Chain'
        (fun a b => ∃ m ∈ GetMotion, a.x_ = b.x_ + m.x_ ∧ a.y_ = b.y_ + m.y_) ∧
      ∃ first, (L ++ [start]).head? = some first ∧ first.x_ = goal.x_ ∧ first.y_ = goal.y_ := by
  obtain ⟨grid2, hset⟩ := PlanInv_gridSet hinv
  obtain ⟨htb, htf, htpar⟩ := hinv.opn top (List.mem_cons_self _ _)
  have hok : NodeOk g0 n (canon n top) := ⟨htb, htf, rfl⟩
  obtain ⟨hcl2, _, ⟨p0, hp0, hp0id, hp0x, hp0y⟩, _⟩ :=
    closedInsert_ok (canon n top) hinv.closed hok htpar
  have hxy := (CompareCoordinates_iff _ _).1 hg
  have hid : p0.id_ = goal.id_ := by
    rw [hp0id, hgid, ← hxy.1, ← hxy.2]; rfl
  obtain ⟨q, hq, hfind, _, hqx, hqy⟩ :=
    closedFind_append_of_mem [] (k := goal) hp0 hid
      (hp0x.trans hxy.1) (hp0y.trans hxy.2)
  rw [List.append_nil] at hfind
  obtain ⟨L, h1, h2, h3, first, hf, hfx, hfy⟩ :=
    convertLoop_spec hcl2 [] q hq ((closedInsert cl (canon n top)).length + 1) (by omega) []
  rw [List.append_nil, List.nil_append] at h1
  refine ⟨grid2, L, ?_, h2, hcl2, h3, first, hf, hfx.trans hqx, hfy.trans hqy⟩
  rw [planLoop_goal _ _ _ _ _ _ _ _ hg, hset]
  simp only [ConvertClosedListToPath, hfind, h1, Run.map]

theorem loopMeasure_init (goal start : Node) (g0 : Grid) :
    loopMeasure goal g0 (openPush start []) < planFuel g0 := by
  unfold loopMeasure planFuel weight openPush
  simp only [List.map_cons, List.map_nil, List.sum_cons, List.sum_nil, Nat.add_zero]
  have : 0 < 25 ^ zeros g0 := Nat.pos_pow_of_pos _ (by norm_num)
  split
  · omega
  · split <;> omega

/-- With a square grid and in-bounds free endpoints, a run of `Plan` neither exhausts its
fuel nor leaves the grid: it ends at a state satisfying the invariant whose open list is
empty or has a node on the goal cell on top. -/
theorem PlanRun_ends (a : AStar) (start goal : Node)
    (hsq : IsSquare a.original_grid_ a.n_)
    (hsb : 0 ≤ start.x_ ∧ start.x_ < a.n_ ∧ 0 ≤ start.y_ ∧ start.y_ < a.n_)
    (hsf : gridGet a.original_grid_ start.x_ start.y_ = some 0)
    (hgb : 0 ≤ goal.x_ ∧ goal.x_ < a.n_ ∧ 0 ≤ goal.y_ ∧ goal.y_ < a.n_)
    (hgf : gridGet a.original_grid_ goal.x_ goal.y_ = some 0) :
    ∃ grid1 ol1 cl1, PlanInv a.original_grid_ a.n_ start grid1 ol1 cl1 ∧
      a.PlanRun start goal = planLoop a.n_ start goal 1 grid1 ol1 cl1 ∧
      (ol1 = [] ∨ ∃ top rest, ol1 = top :: rest ∧ CompareCoordinates top goal = true) := by
  obtain ⟨grid1, ol1, cl1, hinv, hrun, hterm⟩ :=
    planLoop_last a.n_ start goal (PlanInv a.original_grid_ a.n_ start)
      (fun grid top rest cl grid2 ol2 hinv _ hset hex => PlanInv_step hgb hgf hinv hset hex)
      (planFuel a.original_grid_) a.original_grid_ (openPush start []) []
      (PlanInv_init hsq hsb hsf) (loopMeasure_init goal start a.original_grid_)
  refine ⟨grid1, ol1, cl1, hinv, hrun, ?_⟩
  rcases hterm with h | ⟨top, rest, rfl, h | h | ⟨grid2, hset, hub⟩⟩
  · exact Or.inl h
  · exact Or.inr ⟨top, rest, rfl, h⟩
  · obtain ⟨g2, hg2⟩ := PlanInv_gridSet hinv
    rw [hg2] at h; cases h
  · exact absurd hub (expandLoop_ne_ub (gridSet_isSquare hinv.sq hset) _ _ _ _)

theorem StepOf_symm {a b : Int × Int} (h : StepOf a b) : StepOf b a := by
  obtain ⟨m, hm, hx, hy⟩ := h
  obtain ⟨_, hcase⟩ := mem_GetMotion hm
  rcases hcase with ⟨h1, h2⟩ | ⟨h1, h2⟩ | ⟨h1, h2⟩ | ⟨h1, h2⟩
  · exact ⟨⟨0, -1, 1, 0, 0, 0⟩, by simp [GetMotion], by simp; omega, by simp; omega⟩
  · exact ⟨⟨-1, 0, 1, 0, 0, 0⟩, by simp [GetMotion], by simp; omega, by simp; omega⟩
  · exact ⟨⟨0, 1, 1, 0, 0, 0⟩, by simp [GetMotion], by simp; omega, by simp; omega⟩
  · exact ⟨⟨1, 0, 1, 0, 0, 0⟩, by simp [GetMotion], by simp; omega, by simp; omega⟩

/-- C1: on an `n` by `n` grid with in-bounds free start and goal (start cost 0, ids
`x * n + y`), whenever `Plan` returns `found = true`, consecutive cells of the returned path
differ by one of the four motions of `GetMotion`, and every cell of the path is inside the
grid and free in the original grid. -/
theorem Plan_path_valid (a : AStar) (start goal : Node) (path : List Node)
    (hsq : IsSquare a.original_grid_ a.n_)
    (hsb : InBounds a.n_ start.x_ start.y_) (hsf : IsFree a.original_grid_ start.x_ start.y_)
    (hgb : InBounds a.n_ goal.x_ goal.y_) (hgf : IsFree a.original_grid_ goal.x_ goal.y_)
    (_hsc : start.cost_ = 0) (_hsid : start.id_ = start.x_ * a.n_ + start.y_)
    (hgid : goal.id_ = goal.x_ * a.n_ + goal.y_)
    (h : a.Plan start goal = .ret (true, path)) :
    path.Chain' (fun p q => StepOf p.pos q.pos) ∧
    ∀ c ∈ path, InBounds a.n_ c.x_ c.y_ ∧ IsFree a.original_grid_ c.x_ c.y_ := by
  obtain ⟨grid1, ol1, cl1, hinv, hrun, hterm⟩ := PlanRun_ends a start goal hsq hsb hsf hgb hgf
  unfold AStar.Plan at h
  rw [hrun] at h
  rcases hterm with rfl | ⟨top, rest, rfl, hg⟩
  · rw [planLoop_nil] at h
    simp [Run.map] at h
  · obtain ⟨grid2, L, hres, hmem, hcl2, hchain, _⟩ := planLoop_found hinv hg hgid
    rw [hres] at h
    simp only [Run.map, Run.ret.injEq, Prod.mk.injEq, true_and] at h
    subst h
    constructor
    · refine List.Chain'.imp ?_ hchain
      intro p q ⟨m, hm, hx, hy⟩
      exact StepOf_symm ⟨m, hm, hx, hy⟩
    · intro c hc
      rcases List.mem_append.1 hc with hc | hc
      · have := ClosedOk_mem hcl2 c (hmem c hc)
        exact ⟨this.1, this.2.1⟩
      · rw [List.mem_singleton] at hc
        subst hc
        exact ⟨hsb, hsf⟩

/-- Witness for C1 on the free 2 x 2 grid, from (0,0) to (1,1). -/
theorem Plan_path_valid_witness :
    ([⟨1, 1, 2, 0, 3, 1⟩, ⟨0, 1, 1, 1, 1, 0⟩, ⟨0, 0, 0, 2, 0, 0⟩] : List Node).Chain'
      (fun p q => StepOf p.pos q.pos) ∧
    ∀ c ∈ ([⟨1, 1, 2, 0, 3, 1⟩, ⟨0, 1, 1, 1, 1, 0⟩, ⟨0, 0, 0, 2, 0, 0⟩] : List Node),
      InBounds 2 c.x_ c.y_ ∧ IsFree [[0, 0], [0, 0]] c.x_ c.y_ :=
  Plan_path_valid ⟨[], [[0, 0], [0, 0]], 2⟩ ⟨0, 0, 0, 2, 0, 0⟩ ⟨1, 1, 0, 0, 3, 0⟩
    [⟨1, 1, 2, 0, 3, 1⟩, ⟨0, 1, 1, 1, 1, 0⟩, ⟨0, 0, 0, 2, 0, 0⟩]
    (by decide) (by decide) (by decide) (by decide) (by decide) rfl (by decide) (by decide)
    (by decide)

/-! ## Walks and reachability -/

theorem Reach_good {g0 : Grid} {n sx sy : Int} {k : Nat} {x y : Int}
    (h : Reach g0 n sx sy k x y) :
    (0 ≤ x ∧ x < n ∧ 0 ≤ y ∧ y < n) ∧ gridGet g0 x y = some 0 := by
  cases h with
  | zero hb hf => exact ⟨hb, hf⟩
  | step k x y x2 y2 m _ _ _ _ hb hf => exact ⟨hb, hf⟩

theorem Reach_of_walk {g0 : Grid} {n sx sy : Int} :
    ∀ (w : List (Int × Int)) (x y : Int), IsWalkFromTo g0 n (sx, sy) (x, y) w →
      Reach g0 n sx sy (w.length - 1) x y := by
  intro w
  induction w using List.reverseRecOn with
  | nil => intro x y h; simp [IsWalkFromTo] at h
  | append_singleton w c ih =>
    intro x y ⟨⟨hgood, hchain⟩, hhead, hlast⟩
    have hc : c = (x, y) := by simpa using hlast
    subst hc
    have hcg := hgood (x, y) (by simp)
    cases hw : w.getLast? with
    | none =>
      have hnil : w = [] := List.getLast?_eq_none_iff.1 hw
      subst hnil
      simp only [List.nil_append, List.head?_cons, Option.some.injEq, Prod.mk.injEq] at hhead
      obtain ⟨rfl, rfl⟩ := hhead
      exact Reach.zero hcg.1 hcg.2
    | some c2 =>
      have hne : w ≠ [] := by
        intro h; rw [h] at hw; simp at hw
      rw [List.chain'_append] at hchain
      obtain ⟨hch1, _, hlink⟩ := hchain
      have hstep : StepOf c2 (x, y) := hlink c2 hw (x, y) (by simp)
      have hhead2 : w.head? = some (sx, sy) := by
        cases w with
        | nil => exact absurd rfl hne
        | cons a w => simpa using hhead
      have hwalk : IsWalkFromTo g0 n (sx, sy) (c2.1, c2.2) w :=
        ⟨⟨fun c hc => hgood c (List.mem_append_left _ hc), hch1⟩, hhead2, hw⟩
      have hr := ih c2.1 c2.2 hwalk
      obtain ⟨m, hm, hx, hy⟩ := hstep
      have hlen : (w ++ [(x, y)]).length - 1 = (w.length - 1) + 1 := by
        have : 0 < w.length := List.length_pos.2 hne
        simp; omega
      rw [hlen]
      exact Reach.step _ _ _ _ _ m hr hm hx hy hcg.1 hcg.2

theorem walk_of_Reach {g0 : Grid} {n sx sy : Int} {k : Nat} {x y : Int}
    (h : Reach g0 n sx sy k x y) :
    ∃ w, IsWalkFromTo g0 n (sx, sy) (x, y) w ∧ w.length = k + 1 := by
  induction h with
  | zero hb hf =>
    refine ⟨[(sx, sy)], ⟨⟨?_, by simp⟩, rfl, rfl⟩, rfl⟩
    intro c hc
    rw [List.mem_singleton] at hc
    subst hc
    exact ⟨hb, hf⟩
  | step k x y x2 y2 m _ hm hx hy hb hf ih =>
    obtain ⟨w, ⟨⟨hgood, hchain⟩, hhead, hlast⟩, hlen⟩ := ih
    refine ⟨w ++ [(x2, y2)], ⟨⟨?_, ?_⟩, ?_, by simp⟩, by simp [hlen]⟩
    · intro c hc
      rcases List.mem_append.1 hc with hc | hc
      · exact hgood c hc
      · rw [List.mem_singleton] at hc
        subst hc
        exact ⟨hb, hf⟩
    · rw [List.chain'_append]
      refine ⟨hchain, by simp, ?_⟩
      intro a ha b hb2
      rw [hlast] at ha
      simp only [Option.mem_def, Option.some.injEq] at ha
      simp only [List.head?_cons, Option.mem_def, Option.some.injEq] at hb2
      subst ha hb2
      exact ⟨m, hm, hx, hy⟩
    · cases w with
      | nil => simp at hhead
      | cons a w => simpa using hhead

theorem ClosedOk_reach {g0 : Grid} {n : Int} {start : Node} {cl : List Node}
    (h : ClosedOk g0 n start cl) :
    ∀ e ∈ cl, ∃ k, Reach g0 n start.x_ start.y_ k e.x_ e.y_ := by
  induction h with
  | nil => intro e he; cases he
  | snoc cl e0 _ hok hpar ih =>
    intro e he
    rcases List.mem_append.1 he with he | he
    · exact ih e he
    · rw [List.mem_singleton] at he
      subst he
      rcases hpar with ⟨hx, hy⟩ | ⟨p, hp, _, m, hm, hx, hy⟩
      · refine ⟨0, ?_⟩
        rw [hx, hy]
        exact Reach.zero (hx ▸ hy ▸ hok.1) (hx ▸ hy ▸ hok.2.1)
      · obtain ⟨k, hk⟩ := ih p hp
        exact ⟨k + 1, Reach.step k _ _ _ _ m hk hm hx hy hok.1 hok.2.1⟩

theorem PlanInv_open_reach {g0 : Grid} {n : Int} {start : Node} {grid : Grid}
    {ol cl : List Node} (hinv : PlanInv g0 n start grid ol cl) :
    ∀ e ∈ ol, ∃ k, Reach g0 n start.x_ start.y_ k e.x_ e.y_ := by
  intro e he
  obtain ⟨hb, hf, hpar⟩ := hinv.opn e he
  rcases hpar with ⟨hx, hy⟩ | ⟨p, hp, _, m, hm, hx, hy⟩
  · refine ⟨0, ?_⟩
    rw [hx, hy]
    exact Reach.zero (hx ▸ hy ▸ hb) (hx ▸ hy ▸ hf)
  · obtain ⟨k, hk⟩ := ClosedOk_reach hinv.closed p hp
    exact ⟨k + 1, Reach.step k _ _ _ _ m hk hm hx hy hb hf⟩

/-- C4: on an `n` by `n` grid with in-bounds free start and goal, if no 4-connected walk of
free cells leads from start to goal, `Plan` returns `found = false` and an empty path. -/
theorem Plan_no_path (a : AStar) (start goal : Node)
    (hsq : IsSquare a.original_grid_ a.n_)
    (hsb : InBounds a.n_ start.x_ start.y_) (hsf : IsFree a.original_grid_ start.x_ start.y_)
    (hgb : InBounds a.n_ goal.x_ goal.y_) (hgf : IsFree a.original_grid_ goal.x_ goal.y_)
    (hno : ¬ ∃ w, IsWalkFromTo a.original_grid_ a.n_ start.pos goal.pos w) :
    a.Plan start goal = .ret (false, []) := by
  obtain ⟨grid1, ol1, cl1, hinv, hrun, hterm⟩ := PlanRun_ends a start goal hsq hsb hsf hgb hgf
  unfold AStar.Plan
  rw [hrun]
  rcases hterm with rfl | ⟨top, rest, rfl, hg⟩
  · rw [planLoop_nil]; rfl
  · exfalso
    obtain ⟨k, hk⟩ := PlanInv_open_reach hinv top (List.mem_cons_self _ _)
    rw [CompareCoordinates_iff] at hg
    rw [hg.1, hg.2] at hk
    obtain ⟨w, hw, _⟩ := walk_of_Reach hk
    exact hno ⟨w, hw⟩

theorem Reach_blocked_2x2 {k : Nat} {x y : Int}
    (h : Reach [[0, 1], [1, 0]] 2 0 0 k x y) : x = 0 ∧ y = 0 := by
  induction h with
  | zero _ _ => exact ⟨rfl, rfl⟩
  | step k x y x2 y2 m _ hm hx hy hb hf ih =>
    obtain ⟨rfl, rfl⟩ := ih
    obtain ⟨_, hcase⟩ := mem_GetMotion hm
    rcases hcase with ⟨h1, h2⟩ | ⟨h1, h2⟩ | ⟨h1, h2⟩ | ⟨h1, h2⟩ <;>
      rw [h1] at hx <;> rw [h2] at hy <;> simp only [Int.zero_add, Int.add_zero] at hx hy <;>
      subst hx hy
    · exact absurd hf (by decide)
    · exact absurd hf (by decide)
    · omega
    · omega

/-- Witness for C4: the 2 x 2 grid whose anti-diagonal is blocked, from (0,0) to (1,1). -/
theorem Plan_no_path_witness :
    AStar.Plan ⟨[], [[0, 1], [1, 0]], 2⟩ ⟨0, 0, 0, 2, 0, 0⟩ ⟨1, 1, 0, 0, 3, 0⟩ = .ret (false, []) :=
  Plan_no_path ⟨[], [[0, 1], [1, 0]], 2⟩ ⟨0, 0, 0, 2, 0, 0⟩ ⟨1, 1, 0, 0, 3, 0⟩
    (by decide) (by decide) (by decide) (by decide) (by decide)
    (by
      rintro ⟨w, hw⟩
      have := Reach_blocked_2x2 (Reach_of_walk w 1 1 hw)
      omega)

/-! ## Cost bookkeeping -/

theorem id_injective {g0 : Grid} {n : Int} {p q : Node} (hp : NodeOk g0 n p)
    (hq : NodeOk g0 n q) (h : p.id_ = q.id_) : p.x_ = q.x_ ∧ p.y_ = q.y_ := by
  have h1 := decode_id hp.1.1 hp.1.2.2.1 hp.1.2.2.2
  have h2 := decode_id hq.1.1 hq.1.2.2.1 hq.1.2.2.2
  rw [← hp.2.2, h, hq.2.2] at h1
  exact ⟨h1.1.symm.trans h2.1, h1.2.symm.trans h2.2⟩

theorem abs_shift (a b d : Int) (h : b = a + d) (hd : -1 ≤ d ∧ d ≤ 1) :
    |b| ≤ |a| + 1 ∧ |a| ≤ |b| + 1 ∧ (d = 0 → |b| = |a|) := by
  subst h
  rcases abs_cases a with ⟨ha, _⟩ | ⟨ha, _⟩ <;>
    rcases abs_cases (a + d) with ⟨hb, _⟩ | ⟨hb, _⟩ <;>
    refine ⟨by omega, by omega, ?_⟩ <;> intro h0 <;> subst h0 <;> simp

theorem hDist_step (goal : Node) {x y : Int} {m : Node} (hm : m ∈ GetMotion) :
    hDist goal x y ≤ hDist goal (x + m.x_) (y + m.y_) + 1 ∧
    hDist goal (x + m.x_) (y + m.y_) ≤ hDist goal x y + 1 := by
  obtain ⟨_, hcase⟩ := mem_GetMotion hm
  unfold hDist
  have hx := abs_shift (x - goal.x_) (x + m.x_ - goal.x_) m.x_ (by omega)
  have hy := abs_shift (y - goal.y_) (y + m.y_ - goal.y_) m.y_ (by omega)
  rcases hcase with ⟨h1, h2⟩ | ⟨h1, h2⟩ | ⟨h1, h2⟩ | ⟨h1, h2⟩
  · have a1 := (hx (by omega)).2.2 h1
    have a2 := hy (by omega)
    omega
  · have a1 := (hy (by omega)).2.2 h2
    have a2 := hx (by omega)
    omega
  · have a1 := (hx (by omega)).2.2 h1
    have a2 := hy (by omega)
    omega
  · have a1 := (hy (by omega)).2.2 h2
    have a2 := hx (by omega)
    omega

theorem hDist_nonneg (goal : Node) (x y : Int) : 0 ≤ hDist goal x y := by
  unfold hDist; positivity

theorem hDist_eq_zero (goal : Node) {x y : Int} : hDist goal x y ≤ 0 ↔ x = goal.x_ ∧ y = goal.y_ := by
  unfold hDist
  rcases abs_cases (x - goal.x_) with ⟨ha, _⟩ | ⟨ha, _⟩ <;>
    rcases abs_cases (y - goal.y_) with ⟨hb, _⟩ | ⟨hb, _⟩ <;> constructor <;> intro h <;> omega
theorem newPoint_facts (n : Int) (goal cur : Node) {m : Node} (hm : m ∈ GetMotion) :
    (newPoint n goal cur m).cost_ = cur.cost_ + 1 ∧
    (newPoint n goal cur m).h_cost_ =
      hDist goal (newPoint n goal cur m).x_ (newPoint n goal cur m).y_ ∧
    (newPoint n goal cur m).pid_ = cur.id_ ∧
    (newPoint n goal cur m).x_ = cur.x_ + m.x_ ∧
    (newPoint n goal cur m).y_ = cur.y_ + m.y_ ∧
    ¬ ((newPoint n goal cur m).x_ = cur.x_ ∧ (newPoint n goal cur m).y_ = cur.y_) := by
  obtain ⟨hc, hcase⟩ := mem_GetMotion hm
  obtain ⟨fx, fy, fc, fp, fh⟩ := newPoint_fields n goal cur m
  refine ⟨by rw [fc, hc], ?_, fp, fx, fy, ?_⟩
  · rw [fh, fx, fy]; rfl
  · rw [fx, fy]; omega

theorem Reach_zero_eq {g0 : Grid} {n sx sy x y : Int} (h : Reach g0 n sx sy 0 x y) :
    x = sx ∧ y = sy := by
  cases h with
  | zero _ _ => exact ⟨rfl, rfl⟩

theorem ClosedOk_parent {g0 : Grid} {n : Int} {start : Node} {cl : List Node}
    (h : ClosedOk g0 n start cl) :
    ∀ e ∈ cl, (e.x_ = start.x_ ∧ e.y_ = start.y_) ∨ ∃ p ∈ cl, p.id_ = e.pid_ := by
  induction h with
  | nil => intro e he; cases he
  | snoc cl e0 _ _ hpar ih =>
    intro e he
    rcases List.mem_append.1 he with he | he
    · rcases ih e he with h | ⟨p, hp, hid⟩
      · exact Or.inl h
      · exact Or.inr ⟨p, List.mem_append_left _ hp, hid⟩
    · rw [List.mem_singleton] at he
      subst he
      rcases hpar with h | ⟨p, hp, hid, _⟩
      · exact Or.inl h
      · exact Or.inr ⟨p, List.mem_append_left _ hp, hid⟩

theorem closedInsert_mem {g0 : Grid} {n : Int} {start : Node} {cl : List Node} (cur : Node)
    (hcl : ClosedOk g0 n start cl) (hid : cur.id_ = cur.x_ * n + cur.y_) :
    (∀ e ∈ cl, e ∈ closedInsert cl cur) ∧
    (∀ e ∈ closedInsert cl cur,
      e ∈ cl ∨ (e = cur ∧ ∀ q ∈ cl, ¬ (q.x_ = cur.x_ ∧ q.y_ = cur.y_))) ∧
    (∃ p0 ∈ closedInsert cl cur, p0.x_ = cur.x_ ∧ p0.y_ = cur.y_ ∧ p0.id_ = cur.id_) := by
  rcases closedInsert_cases cl cur with ⟨heq, q, hq, h1, h2, h3⟩ | ⟨heq, hnew⟩
  · rw [heq]
    exact ⟨fun e he => he, fun e he => Or.inl he, q, hq, h2, h3, h1⟩
  · rw [heq]
    refine ⟨fun e he => List.mem_append_left _ he, ?_, cur, by simp, rfl, rfl, rfl⟩
    intro e he
    rcases List.mem_append.1 he with he | he
    · exact Or.inl he
    · rw [List.mem_singleton] at he
      refine Or.inr ⟨he, ?_⟩
      intro q hq hxy
      refine hnew q hq ⟨?_, hxy.1, hxy.2⟩
      rw [(ClosedOk_mem hcl q hq).2.2, hid, hxy.1, hxy.2]

/-- While the frontier property holds, every cell that is reachable and not closed has an
open node on a walk to it whose total cost does not exceed that of the walk. -/
theorem frontier_entry {g0 : Grid} {n : Int} {start : Node} (goal : Node) {ol cl : List Node}
    (hb0 : ∃ p ∈ cl, p.x_ = start.x_ ∧ p.y_ = start.y_)
    (hopt : ∀ p ∈ cl, ∀ k, Reach g0 n start.x_ start.y_ k p.x_ p.y_ → p.cost_ ≤ start.cost_ + k)
    (hfr : Frontier g0 n ol cl) :
    ∀ (k : Nat) (x y : Int), Reach g0 n start.x_ start.y_ k x y →
      (∀ q ∈ cl, ¬ (q.x_ = x ∧ q.y_ = y)) →
      ∃ e ∈ ol, e.cost_ + hDist goal e.x_ e.y_ ≤ start.cost_ + k + hDist goal x y := by
  intro k x y h
  induction h with
  | zero _ _ =>
    intro hnc
    obtain ⟨p, hp, hxy⟩ := hb0
    exact absurd hxy (hnc p hp)
  | step k x y x2 y2 m hr hm hx hy hb hf ih =>
    intro hnc
    have hd := hDist_step goal (x := x) (y := y) hm
    rw [← hx, ← hy] at hd
    by_cases hcl : ∃ p ∈ cl, p.x_ = x ∧ p.y_ = y
    · obtain ⟨p, hp, hpx, hpy⟩ := hcl
      have hb2 : 0 ≤ p.x_ + m.x_ ∧ p.x_ + m.x_ < n ∧ 0 ≤ p.y_ + m.y_ ∧ p.y_ + m.y_ < n := by
        rw [hpx, hpy, ← hx, ← hy]; exact hb
      have hf2 : gridGet g0 (p.x_ + m.x_) (p.y_ + m.y_) = some 0 := by
        rw [hpx, hpy, ← hx, ← hy]; exact hf
      rcases hfr p hp m hm hb2 hf2 with ⟨q, hq, hqx, hqy⟩ | ⟨e, he, ⟨hex, hey⟩, hcost⟩
      · exact absurd ⟨by rw [hqx, hpx, hx], by rw [hqy, hpy, hy]⟩ (hnc q hq)
      · refine ⟨e, he, ?_⟩
        have hpopt := hopt p hp k (by rw [hpx, hpy]; exact hr)
        have hexy : e.x_ = x2 ∧ e.y_ = y2 := ⟨by rw [hex, hpx, hx], by rw [hey, hpy, hy]⟩
        rw [hexy.1, hexy.2]
        push_cast
        omega
    · have hnc2 : ∀ q ∈ cl, ¬ (q.x_ = x ∧ q.y_ = y) := fun q hq hxy => hcl ⟨q, hq, hxy⟩
      obtain ⟨e, he, hle⟩ := ih hnc2
      refine ⟨e, he, ?_⟩
      push_cast
      omega

/-- Length of the reconstructed path, from the cost links of the closed list. -/
theorem convertLoop_length (n : Int) (cl : List Node) (start : Node)
    (hlink : ∀ e ∈ cl, ¬ (e.x_ = start.x_ ∧ e.y_ = start.y_) →
      ∀ q ∈ cl, q.id_ = e.pid_ → q.cost_ + 1 ≤ e.cost_)
    (hge : ∀ e ∈ cl, start.cost_ ≤ e.cost_) :
    ∀ (fuel : Nat) (e : Node) (path p : List Node), e ∈ cl →
      convertLoop n cl start fuel e path = .ret p → p ≠ [] →
      (p.length : Int) ≤ path.length + (e.cost_ - start.cost_) + 1 := by
  intro fuel
  induction fuel with
  | zero => intro e path p _ h; simp [convertLoop] at h
  | succ k ih =>
    intro e path p he h hne
    unfold convertLoop at h
    by_cases hc : CompareCoordinates e start = true
    · rw [if_pos hc] at h
      cases h
      have := hge e he
      simp only [List.length_append, List.length_singleton]
      push_cast
      omega
    · rw [if_neg hc] at h
      by_cases hn : n = 0
      · rw [if_pos hn] at h; cases h
      · rw [if_neg hn] at h
        cases hf : closedFind cl
            ⟨Int.tdiv e.pid_ n, Int.tmod e.pid_ n, 0, 0, e.pid_, 0⟩ with
        | none => rw [hf] at h; cases h; exact absurd rfl hne
        | some q =>
          rw [hf] at h
          obtain ⟨hq, hqid, _, _⟩ := closedFind_some hf
          have hcost := hlink e he (fun hxy => hc ((CompareCoordinates_iff _ _).2 hxy)) q hq hqid
          have := ih q (path ++ [e]) p hq h hne
          simp only [List.length_append, List.length_singleton] at this
          push_cast at this
          omega
/-! ## The cost invariant is kept by every iteration -/

theorem blocked_closed {g0 : Grid} {n : Int} {start : Node} {grid2 : Grid} {ol2 cl2 : List Node}
    (hbase2 : PlanInv g0 n start grid2 ol2 cl2) {x y v : Int}
    (hb : 0 ≤ x ∧ x < n ∧ 0 ≤ y ∧ y < n) (hf : gridGet g0 x y = some 0)
    (hget : gridGet grid2 x y = some v) (hv : v ≠ 0) :
    ∃ q ∈ cl2, q.x_ = x ∧ q.y_ = y := by
  by_contra hno
  have h0 : gridGet grid2 x y = some 0 :=
    (hbase2.gr x y hb).2 ⟨hf, fun e he hxy => hno ⟨e, he, hxy⟩⟩
  rw [hget] at h0
  exact hv (by simpa using h0)

theorem Frontier_new {g0 : Grid} {n : Int} {start goal : Node} {grid2 : Grid}
    {ol2 cl2 pushed rest : List Node} {cur : Node}
    (hbase2 : PlanInv g0 n start grid2 ol2 cl2)
    (hmem : ∀ e, e ∈ ol2 ↔ e ∈ pushed ∨ e ∈ rest)
    (hnb : ∀ m ∈ GetMotion, CompareCoordinates (newPoint n goal cur m) goal = false ∧
      (checkOutsideBoundary (newPoint n goal cur m) n = true ∨
        (∃ v, gridGet grid2 (newPoint n goal cur m).x_ (newPoint n goal cur m).y_ = some v
          ∧ v ≠ 0) ∨
        newPoint n goal cur m ∈ pushed))
    {m : Node} (hm : m ∈ GetMotion)
    (hb : 0 ≤ cur.x_ + m.x_ ∧ cur.x_ + m.x_ < n ∧ 0 ≤ cur.y_ + m.y_ ∧ cur.y_ + m.y_ < n)
    (hf : gridGet g0 (cur.x_ + m.x_) (cur.y_ + m.y_) = some 0) :
    (∃ q ∈ cl2, q.x_ = cur.x_ + m.x_ ∧ q.y_ = cur.y_ + m.y_) ∨
    (∃ e ∈ ol2, (e.x_ = cur.x_ + m.x_ ∧ e.y_ = cur.y_ + m.y_) ∧ e.cost_ ≤ cur.cost_ + 1) := by
  obtain ⟨fc, _, _, fx, fy, _⟩ := newPoint_facts n goal cur hm
  obtain ⟨_, hcase⟩ := hnb m hm
  rcases hcase with ho | ⟨v, hget, hv⟩ | hin
  · exfalso
    simp only [checkOutsideBoundary, Bool.or_eq_true, decide_eq_true_eq] at ho
    rw [fx, fy] at ho
    omega
  · left
    rw [fx, fy] at hget
    exact blocked_closed hbase2 hb hf hget hv
  · right
    exact ⟨_, (hmem _).2 (Or.inl hin), ⟨fx, fy⟩, by rw [fc]⟩

theorem PhaseA_step {g0 : Grid} {n : Int} {start goal : Node} {grid2 : Grid}
    {s : Node} {ol2 pushed : List Node}
    (hsx : s.x_ = start.x_) (hsy : s.y_ = start.y_) (hsc : s.cost_ = start.cost_)
    (hsb : 0 ≤ start.x_ ∧ start.x_ < n ∧ 0 ≤ start.y_ ∧ start.y_ < n)
    (hsf : gridGet g0 start.x_ start.y_ = some 0)
    (hbase2 : PlanInv g0 n start grid2 ol2 [canon n s])
    (hg : CompareCoordinates s goal = false)
    (hmem : ∀ e, e ∈ ol2 ↔ e ∈ pushed ∨ e ∈ ([] : List Node))
    (hp : ∀ e ∈ pushed, ∃ m ∈ GetMotion, e = newPoint n goal (canon n s) m)
    (hall : (∃ e ∈ pushed, CompareCoordinates e goal = true) ∨
      ∀ m ∈ GetMotion, CompareCoordinates (newPoint n goal (canon n s) m) goal = false ∧
        (checkOutsideBoundary (newPoint n goal (canon n s) m) n = true ∨
          (∃ v, gridGet grid2 (newPoint n goal (canon n s) m).x_
            (newPoint n goal (canon n s) m).y_ = some v ∧ v ≠ 0) ∨
          newPoint n goal (canon n s) m ∈ pushed)) :
    PhaseB g0 n start goal ol2 [canon n s] := by
  have hcx : (canon n s).x_ = start.x_ := hsx
  have hcy : (canon n s).y_ = start.y_ := hsy
  have hcc : (canon n s).cost_ = start.cost_ := hsc
  have hng : ¬ (start.x_ = goal.x_ ∧ start.y_ = goal.y_) := by
    intro h
    rw [← hsx, ← hsy, ← CompareCoordinates_iff, hg] at h
    cases h
  have hpush : ∀ e ∈ ol2, ∃ m ∈ GetMotion, e = newPoint n goal (canon n s) m := by
    intro e he
    rcases (hmem e).1 he with h | h
    · exact hp e h
    · cases h
  have hr0 : Reach g0 n start.x_ start.y_ 0 start.x_ start.y_ := Reach.zero hsb hsf
  refine ⟨⟨canon n s, by simp, hcx, hcy⟩, ?_, ?_, ?_, ?_, ?_, ?_, ?_, ?_⟩
  · intro e he
    obtain ⟨m, hm, rfl⟩ := hpush e he
    exact (newPoint_facts n goal _ hm).2.1
  · intro e he
    obtain ⟨m, hm, rfl⟩ := hpush e he
    have := (newPoint_facts n goal (canon n s) hm).2.2.2.2.2
    rw [hcx, hcy] at this
    exact this
  · intro e he
    obtain ⟨hb, hf, _⟩ := hbase2.opn e he
    obtain ⟨m, hm, rfl⟩ := hpush e he
    obtain ⟨fc, _, _, fx, fy, _⟩ := newPoint_facts n goal (canon n s) hm
    rw [hcx] at fx
    rw [hcy] at fy
    exact ⟨1, Reach.step 0 _ _ _ _ m hr0 hm fx fy hb hf, by rw [fc, hcc]; rfl⟩
  · intro p hp1
    rw [List.mem_singleton] at hp1
    subst hp1
    rw [hcx, hcy, hcc]
    exact ⟨⟨0, hr0, by simp⟩, fun k _ => by omega⟩
  · intro p hp1
    rw [List.mem_singleton] at hp1
    subst hp1
    rw [hcx, hcy]
    exact hng
  · intro e he q hq _
    rw [List.mem_singleton] at hq
    subst hq
    obtain ⟨m, hm, rfl⟩ := hpush e he
    rw [(newPoint_facts n goal (canon n s) hm).1]
  · intro e he hns
    rw [List.mem_singleton] at he
    subst he
    exact absurd ⟨hcx, hcy⟩ hns
  · rcases hall with ⟨eg, heg, hceg⟩ | hnb
    · left
      rw [CompareCoordinates_iff] at hceg
      obtain ⟨m, hm, hem⟩ := hp eg heg
      have hcost : eg.cost_ = start.cost_ + 1 := by
        rw [hem, (newPoint_facts n goal (canon n s) hm).1, hcc]
      refine ⟨eg, (hmem eg).2 (Or.inl heg), hceg, ?_, ?_⟩
      · intro k hk
        have hk0 : k ≠ 0 := by
          intro h0
          subst h0
          obtain ⟨h1, h2⟩ := Reach_zero_eq hk
          exact hng ⟨h1.symm, h2.symm⟩
        rw [hcost]
        have : 1 ≤ k := Nat.one_le_iff_ne_zero.2 hk0
        omega
      · intro e2 he2
        obtain ⟨m2, hm2, rfl⟩ := hpush e2 he2
        obtain ⟨fc, fh, _⟩ := newPoint_facts n goal (canon n s) hm2
        have := hDist_nonneg goal (newPoint n goal (canon n s) m2).x_
          (newPoint n goal (canon n s) m2).y_
        rw [hcost, fc, fh, hcc]
        omega
    · right
      intro p hp1 m hm hb hf
      rw [List.mem_singleton] at hp1
      subst hp1
      exact Frontier_new hbase2 hmem hnb hm hb hf
theorem top_minimal {top : Node} {rest : List Node} (hsorted : OpenSorted (top :: rest)) :
    ∀ e ∈ top :: rest, top.cost_ + top.h_cost_ ≤ e.cost_ + e.h_cost_ ∧
      (top.cost_ + top.h_cost_ = e.cost_ + e.h_cost_ → top.h_cost_ ≤ e.h_cost_) := by
  intro e he
  rcases List.mem_cons.1 he with rfl | he
  · exact ⟨le_refl _, fun _ => le_refl _⟩
  · exact compare_cost_le ((List.pairwise_cons.1 hsorted).1 e he)

theorem PhaseB_frontier {g0 : Grid} {n : Int} {start goal : Node} {top : Node}
    {rest cl : List Node} (hsorted : OpenSorted (top :: rest))
    (hB : PhaseB g0 n start goal (top :: rest) cl)
    (hg : CompareCoordinates top goal = false) : Frontier g0 n (top :: rest) cl := by
  rcases hB.bfr with ⟨e, he, hxy, _, hminA⟩ | hF
  · exfalso
    have hng : ¬ (top.x_ = goal.x_ ∧ top.y_ = goal.y_) := by
      intro h
      rw [← CompareCoordinates_iff, hg] at h
      cases h
    have heh : e.h_cost_ = 0 := by
      rw [hB.bh e he]
      have h1 := (hDist_eq_zero goal).2 hxy
      have h2 := hDist_nonneg goal e.x_ e.y_
      omega
    have hth := hB.bh top (List.mem_cons_self _ _)
    have hm := top_minimal hsorted e he
    have ha := hminA top (List.mem_cons_self _ _)
    have hle : hDist goal top.x_ top.y_ ≤ 0 := by
      have := hm.2 (by omega)
      omega
    exact hng ((hDist_eq_zero goal).1 hle)
  · exact hF

theorem PhaseB_step {g0 : Grid} {n : Int} {start goal : Node} {grid grid2 : Grid}
    {top : Node} {rest cl ol2 pushed : List Node}
    (hbase : PlanInv g0 n start grid (top :: rest) cl)
    (hbase2 : PlanInv g0 n start grid2 ol2 (closedInsert cl (canon n top)))
    (hsorted : OpenSorted (top :: rest))
    (hB : PhaseB g0 n start goal (top :: rest) cl)
    (hg : CompareCoordinates top goal = false)
    (hmem : ∀ e, e ∈ ol2 ↔ e ∈ pushed ∨ e ∈ rest)
    (hp : ∀ e ∈ pushed, ∃ m ∈ GetMotion, e = newPoint n goal (canon n top) m ∧
      (CompareCoordinates e goal = true ∨
        (checkOutsideBoundary e n = false ∧ gridGet grid2 e.x_ e.y_ = some 0)))
    (hall : (∃ e ∈ pushed, CompareCoordinates e goal = true) ∨
      ∀ m ∈ GetMotion, CompareCoordinates (newPoint n goal (canon n top) m) goal = false ∧
        (checkOutsideBoundary (newPoint n goal (canon n top) m) n = true ∨
          (∃ v, gridGet grid2 (newPoint n goal (canon n top) m).x_
            (newPoint n goal (canon n top) m).y_ = some v ∧ v ≠ 0) ∨
          newPoint n goal (canon n top) m ∈ pushed)) :
    PhaseB g0 n start goal ol2 (closedInsert cl (canon n top)) := by
  have htm : top ∈ top :: rest := List.mem_cons_self _ _
  obtain ⟨htb, htf, htpar⟩ := hbase.opn top htm
  have hok : NodeOk g0 n (canon n top) := ⟨htb, htf, rfl⟩
  have hnst := hB.bns top htm
  obtain ⟨par, hpar, hparid⟩ : ∃ p ∈ cl, p.id_ = top.pid_ := by
    rcases htpar with h | ⟨p, hp1, hp2, _⟩
    · exact absurd h hnst
    · exact ⟨p, hp1, hp2⟩
  obtain ⟨k0, hk0, hc0⟩ := hB.bcost top htm
  have hth := hB.bh top htm
  have hmin := top_minimal hsorted
  have hng : ¬ (top.x_ = goal.x_ ∧ top.y_ = goal.y_) := by
    intro h
    rw [← CompareCoordinates_iff, hg] at h
    cases h
  have hsg : ¬ (start.x_ = goal.x_ ∧ start.y_ = goal.y_) := by
    obtain ⟨p, hp1, hpx, hpy⟩ := hB.b0
    intro h
    exact hB.bnog p hp1 ⟨hpx.trans h.1, hpy.trans h.2⟩
  have hfrB := PhaseB_frontier hsorted hB hg
  have hlow : ∀ (k : Nat) (x y : Int), Reach g0 n start.x_ start.y_ k x y →
      (∀ q ∈ cl, ¬ (q.x_ = x ∧ q.y_ = y)) →
      top.cost_ + hDist goal top.x_ top.y_ ≤ start.cost_ + k + hDist goal x y := by
    intro k x y hr hnc
    obtain ⟨e, he, hle⟩ :=
      frontier_entry goal hB.b0 (fun p hp1 => (hB.bcl p hp1).2) hfrB k x y hr hnc
    have h1 := (hmin e he).1
    rw [hB.bh e he, hth] at h1
    omega
  have hht : 1 ≤ hDist goal top.x_ top.y_ := by
    by_contra hlt
    exact hng ((hDist_eq_zero goal).1 (by omega))
  obtain ⟨hsub, hcl2, p0, hp0, hp0x, hp0y, hp0id⟩ :=
    closedInsert_mem (canon n top) hbase.closed rfl
  have hclok := ClosedOk_mem hbase.closed
  have hattop : ∀ q ∈ cl, q.id_ = (canon n top).id_ → q.x_ = top.x_ ∧ q.y_ = top.y_ :=
    fun q hq hid => id_injective (q := canon n top) (hclok q hq) hok hid
  have hpushed : ∀ e ∈ pushed, ∃ m ∈ GetMotion, e.cost_ = top.cost_ + 1 ∧
      e.h_cost_ = hDist goal e.x_ e.y_ ∧ e.pid_ = (canon n top).id_ ∧
      e.x_ = top.x_ + m.x_ ∧ e.y_ = top.y_ + m.y_ := by
    intro e he
    obtain ⟨m, hm, rfl, _⟩ := hp e he
    obtain ⟨f1, f2, f3, f4, f5, _⟩ := newPoint_facts n goal (canon n top) hm
    exact ⟨m, hm, f1, f2, f3, f4, f5⟩
  refine ⟨?_, ?_, ?_, ?_, ?_, ?_, ?_, ?_, ?_⟩
  · obtain ⟨p, hp1, hxy⟩ := hB.b0
    exact ⟨p, hsub p hp1, hxy⟩
  · intro e he
    rcases (hmem e).1 he with h | h
    · obtain ⟨_, _, _, fh, _⟩ := hpushed e h
      exact fh
    · exact hB.bh e (List.mem_cons_of_mem _ h)
  · intro e he
    rcases (hmem e).1 he with h | h
    · obtain ⟨m, hm, _, hcase⟩ := hp e h
      rcases hcase with hc | ⟨ho, hz⟩
      · rw [CompareCoordinates_iff] at hc
        intro hs
        exact hsg ⟨hs.1.symm.trans hc.1, hs.2.symm.trans hc.2⟩
      · intro hs
        obtain ⟨p, hp1, hpx, hpy⟩ := hB.b0
        have := ((hbase2.gr e.x_ e.y_ (checkOutsideBoundary_false ho)).1 hz).2 p (hsub p hp1)
        exact this ⟨hpx.trans hs.1.symm, hpy.trans hs.2.symm⟩
    · exact hB.bns e (List.mem_cons_of_mem _ h)
  · intro e he
    rcases (hmem e).1 he with h | h
    · obtain ⟨hb, hf, _⟩ := hbase2.opn e he
      obtain ⟨m, hm, fc, _, _, fx, fy⟩ := hpushed e h
      exact ⟨k0 + 1, Reach.step k0 _ _ _ _ m hk0 hm fx fy hb hf, by rw [fc, hc0]; push_cast; ring⟩
    · exact hB.bcost e (List.mem_cons_of_mem _ h)
  · intro p hp1
    rcases hcl2 p hp1 with h | ⟨rfl, hnot⟩
    · exact hB.bcl p h
    · refine ⟨⟨k0, hk0, hc0⟩, ?_⟩
      intro k hk
      have := hlow k top.x_ top.y_ hk hnot
      have hcc : (canon n top).cost_ = top.cost_ := rfl
      rw [hcc]
      omega
  · intro p hp1
    rcases hcl2 p hp1 with h | ⟨rfl, _⟩
    · exact hB.bnog p h
    · exact hng
  · intro e he q hq hid
    rcases (hmem e).1 he with h | h
    · obtain ⟨m, hm, fc, _, fp, _, _⟩ := hpushed e h
      rw [fc]
      rcases hcl2 q hq with hq1 | ⟨rfl, _⟩
      · obtain ⟨hqx, hqy⟩ := hattop q hq1 (hid.trans fp)
        have := (hB.bcl q hq1).2 k0 (by rw [hqx, hqy]; exact hk0)
        omega
      · exact le_refl _
    · rcases hcl2 q hq with hq1 | ⟨rfl, hnot⟩
      · exact hB.blo e (List.mem_cons_of_mem _ h) q hq1 hid
      · exfalso
        obtain ⟨_, _, hepar⟩ := hbase.opn e (List.mem_cons_of_mem _ h)
        rcases hepar with hs | ⟨p, hp1, hp2, _⟩
        · exact hB.bns e (List.mem_cons_of_mem _ h) hs
        · exact hnot p hp1 (hattop p hp1 (hp2.trans hid.symm))
  · intro e he hns q hq hid
    rcases hcl2 e he with he1 | ⟨rfl, hnot⟩
    · rcases hcl2 q hq with hq1 | ⟨rfl, hnot⟩
      · exact hB.blink e he1 hns q hq1 hid
      · exfalso
        rcases ClosedOk_parent hbase.closed e he1 with hs | ⟨p, hp1, hp2⟩
        · exact hns hs
        · exact hnot p hp1 (hattop p hp1 (hp2.trans hid.symm))
    · rcases hcl2 q hq with hq1 | ⟨rfl, _⟩
      · exact hB.blo top htm q hq1 hid
      · exfalso
        exact hnot par hpar (hattop par hpar (hparid.trans hid.symm))
  · rcases hall with ⟨eg, heg, hceg⟩ | hnb
    · left
      rw [CompareCoordinates_iff] at hceg
      obtain ⟨m, hm, fc, _, _, _, _⟩ := hpushed eg heg
      refine ⟨eg, (hmem eg).2 (Or.inl heg), hceg, ?_, ?_⟩
      · intro k hk
        have := hlow k goal.x_ goal.y_ hk hB.bnog
        have hz := (hDist_eq_zero goal (x := goal.x_) (y := goal.y_)).2 ⟨rfl, rfl⟩
        omega
      · intro e2 he2
        rcases (hmem e2).1 he2 with h | h
        · obtain ⟨m2, _, fc2, fh2, _⟩ := hpushed e2 h
          have := hDist_nonneg goal e2.x_ e2.y_
          omega
        · have := (hmin e2 (List.mem_cons_of_mem _ h)).1
          omega
    · right
      intro p hp1 m hm hb hf
      rcases hcl2 p hp1 with h | ⟨rfl, _⟩
      · rcases hfrB p h m hm hb hf with ⟨q, hq, hxy⟩ | ⟨e, he, hxy, hcost⟩
        · exact Or.inl ⟨q, hsub q hq, hxy⟩
        · rcases List.mem_cons.1 he with rfl | he
          · exact Or.inl ⟨p0, hp0, hp0x.trans hxy.1, hp0y.trans hxy.2⟩
          · exact Or.inr ⟨e, (hmem e).2 (Or.inr he), hxy, hcost⟩
      · exact Frontier_new hbase2 hmem hnb hm hb hf
theorem CostInv_step {g0 : Grid} {n : Int} {start goal : Node}
    (hgb : 0 ≤ goal.x_ ∧ goal.x_ < n ∧ 0 ≤ goal.y_ ∧ goal.y_ < n)
    (hgf : gridGet g0 goal.x_ goal.y_ = some 0)
    {grid : Grid} {top : Node} {rest cl : List Node} {grid2 : Grid} {ol2 : List Node}
    (hinv : CostInv g0 n start goal grid (top :: rest) cl)
    (hg : CompareCoordinates top goal = false)
    (hset : gridSet grid top.x_ top.y_ 2 = some grid2)
    (hex : expandLoop n grid2 goal (canon n top) GetMotion rest = .ret ol2) :
    CostInv g0 n start goal grid2 ol2 (closedInsert cl (canon n top)) := by
  have hbase2 := PlanInv_step hgb hgf hinv.base hset hex
  rcases expandLoop_spec n grid2 goal (canon n top) GetMotion rest with
    ⟨hub, _⟩ | ⟨pushed, ol3, hr, hperm, hso, _, hp, hall⟩
  · rw [hub] at hex; cases hex
  · rw [hr] at hex
    cases hex
    have hmem : ∀ e, e ∈ ol2 ↔ e ∈ pushed ∨ e ∈ rest := by
      intro e; rw [hperm.mem_iff, List.mem_append]
    refine ⟨hbase2, hso (List.pairwise_cons.1 hinv.sorted).2, Or.inr ?_⟩
    rcases hinv.phase with ⟨hcl, s, hol, hsx, hsy, hsc⟩ | hB
    · have hts : top = s ∧ rest = [] := by simpa using hol
      obtain ⟨rfl, rfl⟩ := hts
      subst hcl
      obtain ⟨hb, hf, _⟩ := hinv.base.opn top (List.mem_cons_self _ _)
      have hc2 : closedInsert [] (canon n top) = [canon n top] := by
        simp [closedInsert, closedFind]
      rw [hc2] at hbase2 ⊢
      refine PhaseA_step hsx hsy hsc (hsx ▸ hsy ▸ hb) (hsx ▸ hsy ▸ hf) hbase2 hg
        hmem ?_ hall
      intro e he
      obtain ⟨m, hm, hem, _⟩ := hp e he
      exact ⟨m, hm, hem⟩
    · exact PhaseB_step hinv.base hbase2 hinv.sorted hB hg hmem hp hall

theorem CostInv_init {g0 : Grid} {n : Int} {start : Node} (goal : Node) (hsq : IsSquare g0 n)
    (hsb : 0 ≤ start.x_ ∧ start.x_ < n ∧ 0 ≤ start.y_ ∧ start.y_ < n)
    (hsf : gridGet g0 start.x_ start.y_ = some 0) :
    CostInv g0 n start goal g0 (openPush start []) [] :=
  ⟨PlanInv_init hsq hsb hsf, by simp [OpenSorted, openPush],
    Or.inl ⟨rfl, start, rfl, rfl, rfl, rfl⟩⟩

/-- A run of `Plan` ends at a state that satisfies the cost invariant. -/
theorem PlanRun_ends_cost (a : AStar) (start goal : Node)
    (hsq : IsSquare a.original_grid_ a.n_)
    (hsb : 0 ≤ start.x_ ∧ start.x_ < a.n_ ∧ 0 ≤ start.y_ ∧ start.y_ < a.n_)
    (hsf : gridGet a.original_grid_ start.x_ start.y_ = some 0)
    (hgb : 0 ≤ goal.x_ ∧ goal.x_ < a.n_ ∧ 0 ≤ goal.y_ ∧ goal.y_ < a.n_)
    (hgf : gridGet a.original_grid_ goal.x_ goal.y_ = some 0) :
    ∃ grid1 ol1 cl1, CostInv a.original_grid_ a.n_ start goal grid1 ol1 cl1 ∧
      a.PlanRun start goal = planLoop a.n_ start goal 1 grid1 ol1 cl1 ∧
      (ol1 = [] ∨ ∃ top rest, ol1 = top :: rest ∧ CompareCoordinates top goal = true) := by
  obtain ⟨grid1, ol1, cl1, hinv, hrun, hterm⟩ :=
    planLoop_last a.n_ start goal (CostInv a.original_grid_ a.n_ start goal)
      (fun grid top rest cl grid2 ol2 hinv hg hset hex => CostInv_step hgb hgf hinv hg hset hex)
      (planFuel a.original_grid_) a.original_grid_ (openPush start []) []
      (CostInv_init goal hsq hsb hsf) (loopMeasure_init goal start a.original_grid_)
  refine ⟨grid1, ol1, cl1, hinv, hrun, ?_⟩
  rcases hterm with h | ⟨top, rest, rfl, h | h | ⟨grid2, hset, hub⟩⟩
  · exact Or.inl h
  · exact Or.inr ⟨top, rest, rfl, h⟩
  · obtain ⟨g2, hg2⟩ := PlanInv_gridSet hinv.base
    rw [hg2] at h; cases h
  · exact absurd hub (expandLoop_ne_ub (gridSet_isSquare hinv.base.sq hset) _ _ _ _)

/-- With the cost invariant, an open list is never empty while the goal is reachable. -/
theorem CostInv_open_ne_nil {g0 : Grid} {n : Int} {start goal : Node} {grid : Grid}
    {cl : List Node} (hinv : CostInv g0 n start goal grid [] cl) {k : Nat}
    (hk : Reach g0 n start.x_ start.y_ k goal.x_ goal.y_) : False := by
  rcases hinv.phase with ⟨_, s, hol, _⟩ | hB
  · cases hol
  · rcases hB.bfr with ⟨e, he, _⟩ | hF
    · cases he
    · obtain ⟨e, he, _⟩ := frontier_entry goal hB.b0 (fun p hp1 => (hB.bcl p hp1).2) hF
        k goal.x_ goal.y_ hk hB.bnog
      cases he

/-- The node extracted on the goal cell has the least cost of any walk to the goal. -/
theorem goal_cost_opt {g0 : Grid} {n : Int} {start goal : Node} {grid : Grid} {top : Node}
    {rest cl : List Node} (hinv : CostInv g0 n start goal grid (top :: rest) cl)
    (hg : CompareCoordinates top goal = true) {k : Nat}
    (hk : Reach g0 n start.x_ start.y_ k goal.x_ goal.y_) : top.cost_ ≤ start.cost_ + k := by
  rw [CompareCoordinates_iff] at hg
  have htm : top ∈ top :: rest := List.mem_cons_self _ _
  rcases hinv.phase with ⟨_, s, hol, _, _, hsc⟩ | hB
  · have : top = s := by simpa using (List.cons.inj hol).1
    rw [this, hsc]; omega
  · have hmin := top_minimal hinv.sorted
    have hth : top.h_cost_ = 0 := by
      rw [hB.bh top htm]
      have h1 := (hDist_eq_zero goal).2 hg
      have h2 := hDist_nonneg goal top.x_ top.y_
      omega
    rcases hB.bfr with ⟨e, he, hxy, hopt, _⟩ | hF
    · have heh : e.h_cost_ = 0 := by
        rw [hB.bh e he]
        have h1 := (hDist_eq_zero goal).2 hxy
        have h2 := hDist_nonneg goal e.x_ e.y_
        omega
      have h1 := (hmin e he).1
      have h2 := hopt k hk
      omega
    · obtain ⟨e, he, hle⟩ := frontier_entry goal hB.b0
        (fun p hp1 => (hB.bcl p hp1).2) hF k goal.x_ goal.y_ hk hB.bnog
      have h1 := (hmin e he).1
      rw [hB.bh e he] at h1
      have hz := (hDist_eq_zero goal (x := goal.x_) (y := goal.y_)).2 ⟨rfl, rfl⟩
      omega
/-- Cost links of the closed list once the extracted node has been inserted. -/
theorem closed_links_final {g0 : Grid} {n : Int} {start goal : Node} {grid : Grid} {top : Node}
    {rest cl : List Node} (hinv : CostInv g0 n start goal grid (top :: rest) cl) :
    (∀ e ∈ closedInsert cl (canon n top), ¬ (e.x_ = start.x_ ∧ e.y_ = start.y_) →
      ∀ q ∈ closedInsert cl (canon n top), q.id_ = e.pid_ → q.cost_ + 1 ≤ e.cost_) ∧
    (∀ e ∈ closedInsert cl (canon n top), start.cost_ ≤ e.cost_) ∧
    (∀ q ∈ closedInsert cl (canon n top), (q.x_ = goal.x_ ∧ q.y_ = goal.y_) →
      q.cost_ = top.cost_) := by
  have htm : top ∈ top :: rest := List.mem_cons_self _ _
  obtain ⟨htb, htf, htpar⟩ := hinv.base.opn top htm
  have hok : NodeOk g0 n (canon n top) := ⟨htb, htf, rfl⟩
  obtain ⟨_, hcl2, _⟩ := closedInsert_mem (canon n top) hinv.base.closed rfl
  rcases hinv.phase with ⟨hcl, s, hol, hsx, hsy, hsc⟩ | hB
  · have hts : top = s := by simpa using (List.cons.inj hol).1
    subst hts
    subst hcl
    have hall : ∀ e ∈ closedInsert [] (canon n top), e = canon n top := by
      intro e he
      rcases hcl2 e he with h | ⟨h, _⟩
      · cases h
      · exact h
    refine ⟨?_, ?_, ?_⟩
    · intro e he hns
      rw [hall e he] at hns
      exact absurd ⟨hsx, hsy⟩ hns
    · intro e he
      rw [hall e he]
      exact le_of_eq hsc.symm
    · intro q hq _
      rw [hall q hq]; rfl
  · have hclok := ClosedOk_mem hinv.base.closed
    have hattop : ∀ q ∈ cl, q.id_ = (canon n top).id_ → q.x_ = top.x_ ∧ q.y_ = top.y_ :=
      fun q hq hid => id_injective (q := canon n top) (hclok q hq) hok hid
    have hnst := hB.bns top htm
    obtain ⟨par, hpar, hparid⟩ : ∃ p ∈ cl, p.id_ = top.pid_ := by
      rcases htpar with h | ⟨p, hp1, hp2, _⟩
      · exact absurd h hnst
      · exact ⟨p, hp1, hp2⟩
    refine ⟨?_, ?_, ?_⟩
    · intro e he hns q hq hid
      rcases hcl2 e he with he1 | ⟨rfl, hnot⟩
      · rcases hcl2 q hq with hq1 | ⟨rfl, hnot⟩
        · exact hB.blink e he1 hns q hq1 hid
        · exfalso
          rcases ClosedOk_parent hinv.base.closed e he1 with hs | ⟨p, hp1, hp2⟩
          · exact hns hs
          · exact hnot p hp1 (hattop p hp1 (hp2.trans hid.symm))
      · rcases hcl2 q hq with hq1 | ⟨rfl, _⟩
        · exact hB.blo top htm q hq1 hid
        · exfalso
          exact hnot par hpar (hattop par hpar (hparid.trans hid.symm))
    · intro e he
      rcases hcl2 e he with he1 | ⟨rfl, _⟩
      · obtain ⟨⟨k, _, hc⟩, _⟩ := hB.bcl e he1
        omega
      · obtain ⟨k, _, hc⟩ := hB.bcost top htm
        have : (canon n top).cost_ = top.cost_ := rfl
        omega
    · intro q hq hxy
      rcases hcl2 q hq with hq1 | ⟨rfl, _⟩
      · exact absurd hxy (hB.bnog q hq1)
      · rfl

/-- Outcome of a run that ends with a node on the goal cell on top of the open list and
returns a result: the returned path, its validity and its length. -/
theorem planLoop_found_opt {g0 : Grid} {n : Int} {start goal : Node} {grid : Grid}
    {top : Node} {rest cl : List Node} (hinv : CostInv g0 n start goal grid (top :: rest) cl)
    (hg : CompareCoordinates top goal = true) {r : Bool × List Node × Grid}
    (hres : planLoop n start goal 1 grid (top :: rest) cl = .ret r) :
    goal.id_ = goal.x_ * n + goal.y_ ∧
    (r.2.1.length : Int) ≤ (top.cost_ - start.cost_) + 1 := by
  obtain ⟨grid2, hset⟩ := PlanInv_gridSet hinv.base
  obtain ⟨htb, htf, htpar⟩ := hinv.base.opn top (List.mem_cons_self _ _)
  have hok : NodeOk g0 n (canon n top) := ⟨htb, htf, rfl⟩
  obtain ⟨hcl2, _, _, _⟩ := closedInsert_ok (canon n top) hinv.base.closed hok htpar
  obtain ⟨hlink, hge, hgoal⟩ := closed_links_final hinv
  rw [planLoop_goal _ _ _ _ _ _ _ _ hg, hset] at hres
  simp only at hres
  unfold ConvertClosedListToPath at hres
  cases hf : closedFind (closedInsert cl (canon n top)) goal with
  | none => rw [hf] at hres; simp [Run.map] at hres
  | some q =>
    rw [hf] at hres
    simp only at hres
    obtain ⟨hq, hqid, hqx, hqy⟩ := closedFind_some hf
    have hqok := ClosedOk_mem hcl2 q hq
    have hgid : goal.id_ = goal.x_ * n + goal.y_ := by
      rw [← hqid, hqok.2.2, hqx, hqy]
    refine ⟨hgid, ?_⟩
    cases hconv : convertLoop n (closedInsert cl (canon n top)) start
        ((closedInsert cl (canon n top)).length + 1) q [] with
    | outOfFuel => rw [hconv] at hres; simp [Run.map] at hres
    | ub => rw [hconv] at hres; simp [Run.map] at hres
    | ret p =>
      rw [hconv] at hres
      simp only [Run.map, Run.ret.injEq] at hres
      subst hres
      simp only
      by_cases hp : p = []
      · subst hp
        have := hge q hq
        rw [hgoal q hq ⟨hqx, hqy⟩] at this
        simp only [List.length_nil]
        push_cast
        omega
      · have := convertLoop_length n _ start hlink hge _ q [] p hq hconv hp
        rw [hgoal q hq ⟨hqx, hqy⟩] at this
        simpa using this

/-! ## Claims on optimality and completeness -/

/-- C2: on an `n` by `n` grid with in-bounds free start and goal (start cost 0), whenever
`Plan` returns `found = true`, the returned path, read from its last cell to its first, is a
4-connected walk of free cells from start to goal, and no such walk has fewer cells: the
number of cells of the path is one more than the shortest distance. -/
theorem Plan_path_shortest (a : AStar) (start goal : Node) (path : List Node)
    (hsq : IsSquare a.original_grid_ a.n_)
    (hsb : InBounds a.n_ start.x_ start.y_) (hsf : IsFree a.original_grid_ start.x_ start.y_)
    (hgb : InBounds a.n_ goal.x_ goal.y_) (hgf : IsFree a.original_grid_ goal.x_ goal.y_)
    (_hsc : start.cost_ = 0)
    (h : a.Plan start goal = .ret (true, path)) :
    IsWalkFromTo a.original_grid_ a.n_ start.pos goal.pos (path.map Node.pos).reverse ∧
    ∀ w, IsWalkFromTo a.original_grid_ a.n_ start.pos goal.pos w → path.length ≤ w.length := by
  obtain ⟨grid1, ol1, cl1, hinv, hrun, hterm⟩ :=
    PlanRun_ends_cost a start goal hsq hsb hsf hgb hgf
  unfold AStar.Plan at h
  rw [hrun] at h
  rcases hterm with rfl | ⟨top, rest, rfl, hg⟩
  · rw [planLoop_nil] at h
    simp [Run.map] at h
  · cases hres : planLoop a.n_ start goal 1 grid1 (top :: rest) cl1 with
    | outOfFuel => rw [hres] at h; simp [Run.map] at h
    | ub => rw [hres] at h; simp [Run.map] at h
    | ret r =>
      obtain ⟨hgid, hlen⟩ := planLoop_found_opt hinv hg hres
      obtain ⟨grid2, L, hfound, hmem, hcl2, hchain, first, hfirst, hfx, hfy⟩ :=
        planLoop_found hinv.base hg hgid
      rw [hfound] at hres
      cases hres
      rw [hfound] at h
      simp only [Run.map, Run.ret.injEq, Prod.mk.injEq, true_and] at h
      subst h
      refine ⟨⟨⟨?_, ?_⟩, ?_, ?_⟩, ?_⟩
      · intro c hc
        rw [List.mem_reverse, List.mem_map] at hc
        obtain ⟨e, he, rfl⟩ := hc
        rcases List.mem_append.1 he with he | he
        · have := ClosedOk_mem hcl2 e (hmem e he)
          exact ⟨this.1, this.2.1⟩
        · rw [List.mem_singleton] at he
          subst he
          exact ⟨hsb, hsf⟩
      · rw [List.chain'_reverse, List.chain'_map]
        exact hchain
      · rw [List.head?_reverse, List.getLast?_map]
        simp
      · rw [List.getLast?_reverse, List.head?_map, hfirst]
        simp [Node.pos, hfx, hfy]
      · intro w hw
        have hr := Reach_of_walk w goal.x_ goal.y_ hw
        have hopt := goal_cost_opt hinv hg hr
        have hwne : 0 < w.length := by
          cases w with
          | nil => simp [IsWalkFromTo] at hw
          | cons c w => simp
        simp only at hlen
        have : ((L ++ [start]).length : Int) ≤ w.length := by
          have hcast : ((w.length - 1 : Nat) : Int) = (w.length : Int) - 1 := by omega
          omega
        exact_mod_cast this

/-- Witness for C2 on the free 2 x 2 grid, from (0,0) to (1,1). -/
theorem Plan_path_shortest_witness :
    IsWalkFromTo [[0, 0], [0, 0]] 2 (0, 0) (1, 1)
      (([⟨1, 1, 2, 0, 3, 1⟩, ⟨0, 1, 1, 1, 1, 0⟩, ⟨0, 0, 0, 2, 0, 0⟩] : List Node).map
        Node.pos).reverse ∧
    ∀ w, IsWalkFromTo [[0, 0], [0, 0]] 2 (0, 0) (1, 1) w →
      ([⟨1, 1, 2, 0, 3, 1⟩, ⟨0, 1, 1, 1, 1, 0⟩, ⟨0, 0, 0, 2, 0, 0⟩] : List Node).length
        ≤ w.length :=
  Plan_path_shortest ⟨[], [[0, 0], [0, 0]], 2⟩ ⟨0, 0, 0, 2, 0, 0⟩ ⟨1, 1, 0, 0, 3, 0⟩
    [⟨1, 1, 2, 0, 3, 1⟩, ⟨0, 1, 1, 1, 1, 0⟩, ⟨0, 0, 0, 2, 0, 0⟩]
    (by decide) (by decide) (by decide) (by decide) (by decide) rfl (by decide)

/-- C3, as stated, fails: on the free 2 x 2 grid the goal (0,1) is one step from the start
(0,0), but a goal node whose `id_` was left at 0 is not found in the closed list and
`Plan` dereferences `closed_list.end()` instead of returning `found = true`. -/
theorem Plan_reachable_wrong_id :
    IsSquare [[0, 0], [0, 0]] 2 ∧ InBounds 2 0 0 ∧ IsFree [[0, 0], [0, 0]] 0 0 ∧
    InBounds 2 0 1 ∧ IsFree [[0, 0], [0, 0]] 0 1 ∧
    IsWalkFromTo [[0, 0], [0, 0]] 2 (0, 0) (0, 1) [(0, 0), (0, 1)] ∧
    AStar.Plan ⟨[], [[0, 0], [0, 0]], 2⟩ ⟨0, 0, 0, 1, 0, 0⟩ ⟨0, 1, 0, 0, 0, 0⟩ = .ub := by
  refine ⟨by decide, by decide, by decide, by decide, by decide, ⟨⟨?_, ?_⟩, rfl, rfl⟩, by decide⟩
  · intro c hc
    simp only [List.mem_cons, List.mem_singleton, List.not_mem_nil, or_false] at hc
    rcases hc with rfl | rfl <;> exact ⟨by decide, by decide⟩
  · simp only [List.chain'_cons, List.chain'_singleton, and_true]
    exact ⟨⟨0, 1, 1, 0, 0, 0⟩, by simp [GetMotion], by simp, by simp⟩

/-- C3, amended: on an `n` by `n` grid with in-bounds free start and goal, the goal carrying
the identity `x * n + y`, if some 4-connected walk of free cells leads from start to goal
then `Plan` returns `found = true`. -/
theorem Plan_finds_reachable (a : AStar) (start goal : Node)
    (hsq : IsSquare a.original_grid_ a.n_)
    (hsb : InBounds a.n_ start.x_ start.y_) (hsf : IsFree a.original_grid_ start.x_ start.y_)
    (hgb : InBounds a.n_ goal.x_ goal.y_) (hgf : IsFree a.original_grid_ goal.x_ goal.y_)
    (hgid : goal.id_ = goal.x_ * a.n_ + goal.y_)
    (hwalk : ∃ w, IsWalkFromTo a.original_grid_ a.n_ start.pos goal.pos w) :
    ∃ path, a.Plan start goal = .ret (true, path) := by
  obtain ⟨w, hw⟩ := hwalk
  have hr := Reach_of_walk w goal.x_ goal.y_ hw
  obtain ⟨grid1, ol1, cl1, hinv, hrun, hterm⟩ :=
    PlanRun_ends_cost a start goal hsq hsb hsf hgb hgf
  rcases hterm with rfl | ⟨top, rest, rfl, hg⟩
  · exact absurd hr (fun h => CostInv_open_ne_nil hinv h)
  · obtain ⟨grid2, L, hfound, _⟩ := planLoop_found hinv.base hg hgid
    refine ⟨L ++ [start], ?_⟩
    unfold AStar.Plan
    rw [hrun, hfound]
    rfl

/-- Witness for the amended C3 on the free 2 x 2 grid, from (0,0) to (0,1). -/
theorem Plan_finds_reachable_witness :
    ∃ path, AStar.Plan ⟨[], [[0, 0], [0, 0]], 2⟩ ⟨0, 0, 0, 1, 0, 0⟩ ⟨0, 1, 0, 0, 1, 0⟩
      = .ret (true, path) :=
  Plan_finds_reachable ⟨[], [[0, 0], [0, 0]], 2⟩ ⟨0, 0, 0, 1, 0, 0⟩ ⟨0, 1, 0, 0, 1, 0⟩
    (by decide) (by decide) (by decide) (by decide) (by decide) (by decide)
    ⟨[(0, 0), (0, 1)], ⟨⟨by
        intro c hc
        simp only [List.mem_cons, List.mem_singleton, List.not_mem_nil, or_false] at hc
        rcases hc with rfl | rfl <;> exact ⟨by decide, by decide⟩,
      by
        simp only [List.chain'_cons, List.chain'_singleton, and_true]
        exact ⟨⟨0, 1, 1, 0, 0, 0⟩, by simp [GetMotion], by simp, by simp⟩⟩, rfl, rfl⟩⟩

/-! ## `LazyPQ`: representation invariant -/

theorem mem_heapPush (t e : NodeKeyPair) (l : List NodeKeyPair) :
    e ∈ heapPush t l ↔ e = t ∨ e ∈ l := by
  induction l with
  | nil => simp [heapPush]
  | cons a l ih =>
    unfold heapPush
    split
    · simp only [List.mem_cons, ih]; tauto
    · simp only [List.mem_cons]

theorem heapPush_pairwise (t : NodeKeyPair) (l : List NodeKeyPair)
    (h : l.Pairwise (fun a b => a.key ≤ b.key)) :
    (heapPush t l).Pairwise (fun a b => a.key ≤ b.key) := by
  induction l with
  | nil => simp [heapPush]
  | cons a l ih =>
    unfold heapPush
    rw [List.pairwise_cons] at h
    split
    · rename_i hgt
      rw [List.pairwise_cons]
      refine ⟨?_, ih h.2⟩
      intro b hb
      rcases (mem_heapPush t b l).1 hb with rfl | hb
      · omega
      · exact h.1 b hb
    · rename_i hgt
      rw [List.pairwise_cons]
      refine ⟨?_, List.pairwise_cons.2 h⟩
      intro b hb
      rcases List.mem_cons.1 hb with rfl | hb
      · omega
      · have := h.1 b hb; omega

theorem heapPush_head (t : NodeKeyPair) (l : List NodeKeyPair) :
    (heapPush t l).head? = some t ∨
      ∃ h, l.head? = some h ∧ (heapPush t l).head? = some h ∧ h.key < t.key := by
  cases l with
  | nil => simp [heapPush]
  | cons a l =>
    unfold heapPush
    split
    · rename_i hgt; right; exact ⟨a, rfl, rfl, by omega⟩
    · left; rfl

theorem mem_setErase (s : List NodeKeyPair) (t e : NodeKeyPair) :
    e ∈ setErase s t ↔ e ∈ s ∧ e.id ≠ t.id := by
  simp [setErase]

theorem setFind_eq_none (s : List NodeKeyPair) (t : NodeKeyPair) :
    setFind s t = none ↔ ∀ e ∈ s, e.id ≠ t.id := by
  simp [setFind]

theorem setFind_some {s : List NodeKeyPair} {t e : NodeKeyPair} (h : setFind s t = some e) :
    e ∈ s ∧ e.id = t.id := by
  unfold setFind at h
  have h1 := List.find?_some h
  exact ⟨List.mem_of_find?_eq_some h, by simpa using h1⟩

theorem setErase_of_not_found (s : List NodeKeyPair) (t : NodeKeyPair)
    (h : setFind s t = none) : setErase s t = s := by
  rw [setFind_eq_none] at h
  unfold setErase
  rw [List.filter_eq_self]
  intro e he
  simpa using h e he

theorem setFind_setErase (s : List NodeKeyPair) (t : NodeKeyPair) :
    setFind (setErase s t) t = none := by
  rw [setFind_eq_none]
  intro e he
  exact ((mem_setErase s t e).1 he).2

theorem insert_s (q : LazyPQ) (t : NodeKeyPair) : (q.insert t).s = setErase q.s t ++ [t] := by
  unfold LazyPQ.insert setInsert
  cases hf : setFind q.s t with
  | none => simp [setErase_of_not_found _ _ hf]
  | some e => simp [setFind_setErase]

theorem insert_pq (q : LazyPQ) (t : NodeKeyPair) : (q.insert t).pq = heapPush t q.pq := rfl

theorem ids_nodup_unique {s : List NodeKeyPair} (hnd : (s.map (fun e => e.id)).Nodup)
    {a b : NodeKeyPair} (ha : a ∈ s) (hb : b ∈ s) (hid : a.id = b.id) : a = b := by
  exact List.inj_on_of_nodup_map hnd ha hb hid

theorem isStale_eq_false_iff {s : List NodeKeyPair} (hnd : (s.map (fun e => e.id)).Nodup)
    (t : NodeKeyPair) : isStale s t = false ↔ t ∈ s := by
  unfold isStale
  cases hf : setFind s t with
  | none =>
    simp only [Bool.true_eq_false, false_iff]
    intro ht
    exact (setFind_eq_none s t).1 hf t ht rfl
  | some it =>
    obtain ⟨hit, hid⟩ := setFind_some hf
    constructor
    · intro hk
      have hk2 : t.key = it.key := by simpa using hk
      have : it = t := by
        cases it; cases t; simp_all
      exact this ▸ hit
    · intro ht
      have : it = t := ids_nodup_unique hnd hit ht hid
      simp [this]

theorem cleanup_suffix (s : List NodeKeyPair) (l : List NodeKeyPair) : cleanup s l <:+ l := by
  induction l with
  | nil => simp [cleanup]
  | cons a l ih =>
    unfold cleanup
    split
    · exact ih.trans (List.suffix_cons a l)
    · exact List.suffix_refl _

theorem cleanup_head {s : List NodeKeyPair} {l r : List NodeKeyPair} {t : NodeKeyPair}
    (h : cleanup s l = t :: r) : isStale s t = false := by
  induction l with
  | nil => simp [cleanup] at h
  | cons a l ih =>
    unfold cleanup at h
    split at h
    · exact ih h
    · rename_i hst
      cases h
      simpa using hst

theorem mem_cleanup {s : List NodeKeyPair} {l : List NodeKeyPair} {e : NodeKeyPair}
    (he : e ∈ l) (hst : isStale s e = false) : e ∈ cleanup s l := by
  induction l with
  | nil => cases he
  | cons a l ih =>
    unfold cleanup
    split
    · rename_i ha
      rcases List.mem_cons.1 he with rfl | h
      · rw [hst] at ha; cases ha
      · exact ih h
    · exact he

theorem setErase_nodup {s : List NodeKeyPair} (t : NodeKeyPair)
    (hnd : (s.map (fun e => e.id)).Nodup) : ((setErase s t).map (fun e => e.id)).Nodup :=
  hnd.sublist (List.Sublist.map _ (List.filter_sublist _))

theorem setErase_length {s : List NodeKeyPair} {t : NodeKeyPair}
    (hnd : (s.map (fun e => e.id)).Nodup) (ht : t ∈ s) :
    (setErase s t).length + 1 = s.length := by
  induction s with
  | nil => cases ht
  | cons a s ih =>
    rw [List.map_cons, List.nodup_cons] at hnd
    by_cases ha : a.id = t.id
    · have hs : setErase s t = s := by
        unfold setErase
        rw [List.filter_eq_self]
        intro e he
        have : e.id ≠ t.id := by
          intro h
          exact hnd.1 (List.mem_map.2 ⟨e, he, by rw [h, ha]⟩)
        simpa using this
      have : setErase (a :: s) t = setErase s t := by
        simp [setErase, ha]
      rw [this, hs]; rfl
    · have hts : t ∈ s := by
        rcases List.mem_cons.1 ht with rfl | h
        · exact absurd rfl ha
        · exact h
      have : setErase (a :: s) t = a :: setErase s t := by
        simp [setErase, ha]
      rw [this, List.length_cons, ih hnd.2 hts, List.length_cons]

theorem Inv_shrink {pq s pq1 s1 : List NodeKeyPair} (h : LazyPQ.Inv ⟨pq, s⟩)
    (hnd : (s1.map (fun e => e.id)).Nodup) (hsuf : pq1 <:+ pq) (hmem : ∀ e ∈ s1, e ∈ pq1) :
    LazyPQ.Inv ⟨pq1, s1⟩ :=
  ⟨hnd, hmem, h.2.2.sublist hsuf.sublist⟩

theorem Inv_insert {q : LazyPQ} (t : NodeKeyPair) (h : q.Inv) : (q.insert t).Inv := by
  refine ⟨?_, ?_, ?_⟩
  · rw [insert_s, List.map_append, List.nodup_append]
    refine ⟨setErase_nodup t h.1, by simp, ?_⟩
    intro a ha hb
    simp only [List.map_cons, List.map_nil, List.mem_singleton] at hb
    obtain ⟨e, he, rfl⟩ := List.mem_map.1 ha
    exact ((mem_setErase _ _ _).1 he).2 hb
  · intro e he
    rw [insert_s, List.mem_append, List.mem_singleton] at he
    rw [insert_pq, mem_heapPush]
    rcases he with he | rfl
    · exact Or.inr (h.2.1 e ((mem_setErase _ _ _).1 he).1)
    · exact Or.inl rfl
  · rw [insert_pq]; exact heapPush_pairwise t _ h.2.2

theorem Inv_remove {q : LazyPQ} (t : NodeKeyPair) (h : q.Inv) : (q.remove t).Inv := by
  unfold LazyPQ.remove
  have hnd : ((if (setFind q.s t).isSome then setErase q.s t else q.s).map
      (fun e => e.id)).Nodup := by
    split
    · exact setErase_nodup t h.1
    · exact h.1
  have hsub : ∀ e ∈ (if (setFind q.s t).isSome then setErase q.s t else q.s), e ∈ q.s := by
    intro e he
    split at he
    · exact ((mem_setErase _ _ _).1 he).1
    · exact he
  refine @Inv_shrink q.pq q.s _ _ h hnd (cleanup_suffix _ _) ?_
  intro e he
  exact mem_cleanup (h.2.1 e (hsub e he)) ((isStale_eq_false_iff hnd e).2 he)

theorem pop_of_nonempty {q : LazyPQ} (h : q.Inv) (hne : q.s ≠ []) :
    ∃ t rest, cleanup q.s q.pq = t :: rest ∧ t ∈ q.s ∧
      q.pop = some ⟨cleanup (setErase q.s t) rest, setErase q.s t⟩ := by
  obtain ⟨e, he⟩ := List.exists_mem_of_ne_nil _ hne
  have hmem : e ∈ cleanup q.s q.pq :=
    mem_cleanup (h.2.1 e he) ((isStale_eq_false_iff h.1 e).2 he)
  cases hc : cleanup q.s q.pq with
  | nil => rw [hc] at hmem; cases hmem
  | cons t rest =>
    refine ⟨t, rest, rfl, (isStale_eq_false_iff h.1 t).1 (cleanup_head hc), ?_⟩
    unfold LazyPQ.pop
    have : q.s.isEmpty = false := by
      cases hs : q.s with
      | nil => exact absurd hs hne
      | cons _ _ => rfl
    simp [this, hc]

theorem Inv_pop {q q2 : LazyPQ} (h : q.Inv) (hp : q.pop = some q2) : q2.Inv := by
  by_cases hne : q.s = []
  · unfold LazyPQ.pop at hp
    simp only [hne, List.isEmpty_nil, if_true, Option.some.injEq] at hp
    subst hp
    exact @Inv_shrink q.pq q.s _ _ h (by simp) (cleanup_suffix _ _) (by simp)
  · obtain ⟨t, rest, hc, ht, hpop⟩ := pop_of_nonempty h hne
    rw [hpop] at hp
    cases hp
    have hnd := setErase_nodup t h.1
    have hsuf : cleanup (setErase q.s t) rest <:+ q.pq :=
      (cleanup_suffix _ _).trans ((List.suffix_cons t rest).trans (hc ▸ cleanup_suffix _ _))
    refine @Inv_shrink q.pq q.s _ _ h hnd hsuf ?_
    intro e he
    obtain ⟨hes, hid⟩ := (mem_setErase _ _ _).1 he
    have h1 : e ∈ cleanup q.s q.pq :=
      mem_cleanup (h.2.1 e hes) ((isStale_eq_false_iff h.1 e).2 hes)
    rw [hc] at h1
    rcases List.mem_cons.1 h1 with rfl | h1
    · exact absurd rfl hid
    · exact mem_cleanup h1 ((isStale_eq_false_iff hnd e).2 he)

theorem Inv_empty : LazyPQ.Inv ⟨[], []⟩ := by
  simp [LazyPQ.Inv]

theorem Reachable_Inv {q : LazyPQ} (h : q.Reachable) : q.Inv := by
  induction h with
  | init => exact Inv_empty
  | insert q t _ ih => exact Inv_insert t ih
  | pop q q2 _ hp ih => exact Inv_pop ih hp
  | remove q t _ ih => exact Inv_remove t ih
  | clear q _ _ => exact Inv_empty

theorem TopValid_of_cleanup {s1 : List NodeKeyPair} (hnd : (s1.map (fun e => e.id)).Nodup)
    (l : List NodeKeyPair) : LazyPQ.TopValid ⟨cleanup s1 l, s1⟩ := by
  intro t ht
  cases hc : cleanup s1 l with
  | nil => simp [hc] at ht
  | cons a r =>
    simp only [hc, List.head?_cons, Option.some.injEq] at ht
    subst ht
    exact (isStale_eq_false_iff hnd a).1 (cleanup_head hc)

theorem ReachableDec_Reachable {q : LazyPQ} (h : q.ReachableDec) : q.Reachable := by
  induction h with
  | init => exact .init
  | insert q t _ _ ih => exact .insert q t ih
  | pop q q2 _ hp ih => exact .pop q q2 ih hp
  | remove q t _ ih => exact .remove q t ih
  | clear q _ ih => exact .clear q ih

theorem ReachableDec_TopValid {q : LazyPQ} (h : q.ReachableDec) : q.TopValid := by
  induction h with
  | init => intro t ht; simp [LazyPQ.emptyQueue] at ht
  | insert q t hq hdec ih =>
    intro a ha
    rw [insert_pq] at ha
    rw [insert_s, List.mem_append, List.mem_singleton]
    rcases heapPush_head t q.pq with h1 | ⟨b, hb, h1, hlt⟩
    · rw [h1] at ha; cases ha; exact Or.inr rfl
    · have hab : b = a := by rw [h1] at ha; exact Option.some.inj ha
      rw [← hab]
      have hbs : b ∈ q.s := ih b hb
      left
      rw [mem_setErase]
      refine ⟨hbs, ?_⟩
      intro hid
      have := hdec b hbs hid
      omega
  | pop q q2 hq hp _ =>
    have hinv := Reachable_Inv (ReachableDec_Reachable hq)
    by_cases hne : q.s = []
    · unfold LazyPQ.pop at hp
      simp only [hne, List.isEmpty_nil, if_true, Option.some.injEq] at hp
      subst hp
      exact TopValid_of_cleanup (by simp) _
    · obtain ⟨t, rest, _, _, hpop⟩ := pop_of_nonempty hinv hne
      rw [hpop] at hp
      cases hp
      exact TopValid_of_cleanup (setErase_nodup t hinv.1) _
  | remove q t hq _ =>
    have hinv := Reachable_Inv (ReachableDec_Reachable hq)
    unfold LazyPQ.remove
    refine TopValid_of_cleanup ?_ _
    split
    · exact setErase_nodup t hinv.1
    · exact hinv.1
  | clear q _ _ => intro t ht; simp [LazyPQ.clear] at ht

/-! ## Claims on `LazyPQ::top` and `LazyPQ::pop` -/

/-- C9: the code at the failing input. After `insert (1, 5)` and `insert (1, 7)` on the empty
queue, identity 1 is live with key 7, yet `top()` returns the stale pair `(1, 5)`: `insert`
replaces the key of a live identity without the cleanup loop that ends `pop` and `remove`. -/
theorem LazyPQ_top_stale :
    LazyPQ.Reachable ((LazyPQ.emptyQueue.insert ⟨1, 5⟩).insert ⟨1, 7⟩) ∧
    ((LazyPQ.emptyQueue.insert ⟨1, 5⟩).insert ⟨1, 7⟩).s = [⟨1, 7⟩] ∧
    ((LazyPQ.emptyQueue.insert ⟨1, 5⟩).insert ⟨1, 7⟩).top = some ⟨1, 5⟩ ∧
    setFind ((LazyPQ.emptyQueue.insert ⟨1, 5⟩).insert ⟨1, 7⟩).s ⟨1, 5⟩ = some ⟨1, 7⟩ :=
  ⟨.insert _ _ (.insert _ _ .init), by decide, by decide, by decide⟩

/-- Where `top()` is right: in every state reached from the empty queue by `insert`, `pop`,
`remove` and `clear` in which no `insert` raises the key of a live identity, and in which
some identity is live, `top()` returns an entry of the authoritative set (its identity is
live and its key is the recorded one) whose key is minimal among the live keys. -/
theorem LazyPQ_top_valid (q : LazyPQ) (hr : q.ReachableDec) (hne : q.s ≠ []) :
    ∃ t, q.top = some t ∧ setFind q.s t = some t ∧ t ∈ q.s ∧ ∀ e ∈ q.s, t.key ≤ e.key := by
  have hinv := Reachable_Inv (ReachableDec_Reachable hr)
  have htv := ReachableDec_TopValid hr
  obtain ⟨e0, he0⟩ := List.exists_mem_of_ne_nil _ hne
  have hpq : e0 ∈ q.pq := hinv.2.1 e0 he0
  cases hq : q.pq with
  | nil => rw [hq] at hpq; cases hpq
  | cons t rest =>
    have hts : t ∈ q.s := htv t (by simp [hq])
    refine ⟨t, by simp [LazyPQ.top, hq], ?_, hts, ?_⟩
    · cases hf : setFind q.s t with
      | none => exact absurd rfl ((setFind_eq_none _ _).1 hf t hts)
      | some it =>
        obtain ⟨hit, hid⟩ := setFind_some hf
        rw [ids_nodup_unique hinv.1 hit hts hid]
    · intro e he
      have hmem := hinv.2.1 e he
      have hs := hinv.2.2
      rw [hq] at hmem hs
      rcases List.mem_cons.1 hmem with rfl | hmem
      · exact le_refl _
      · exact (List.pairwise_cons.1 hs).1 e hmem

/-- Instance of `LazyPQ_top_valid`: the queue holding `(1, 5)` lowered to `(1, 3)`. -/
theorem LazyPQ_top_valid_witness :
    ∃ t, ((LazyPQ.emptyQueue.insert ⟨1, 5⟩).insert ⟨1, 3⟩).top = some t ∧
      setFind ((LazyPQ.emptyQueue.insert ⟨1, 5⟩).insert ⟨1, 3⟩).s t = some t ∧
      t ∈ ((LazyPQ.emptyQueue.insert ⟨1, 5⟩).insert ⟨1, 3⟩).s ∧
      ∀ e ∈ ((LazyPQ.emptyQueue.insert ⟨1, 5⟩).insert ⟨1, 3⟩).s, t.key ≤ e.key :=
  LazyPQ_top_valid ((LazyPQ.emptyQueue.insert ⟨1, 5⟩).insert ⟨1, 3⟩)
    (.insert _ _ (.insert _ _ .init (by decide)) (by decide)) (by decide)

/-- C10: in every reachable state with a live identity, `pop()` does not read an empty
heap; it discards the stale entries at the top of the heap, reaching a live entry `t` of
minimal key among the live keys, removes `t` from the heap and from the authoritative set,
so that `size()` drops by one and every other live pair is kept unchanged, and cleans the
heap's top again. -/
theorem LazyPQ_pop_spec (q : LazyPQ) (hr : q.Reachable) (hne : q.s ≠ []) :
    ∃ t rest q2, q.pop = some q2 ∧ cleanup q.s q.pq = t :: rest ∧ t ∈ q.s ∧
      (∀ e ∈ q.s, t.key ≤ e.key) ∧
      q2.size + 1 = q.size ∧
      (∀ e, e ∈ q2.s ↔ e ∈ q.s ∧ e.id ≠ t.id) ∧
      q2.pq = cleanup q2.s rest := by
  have hinv := Reachable_Inv hr
  obtain ⟨t, rest, hc, ht, hpop⟩ := pop_of_nonempty hinv hne
  refine ⟨t, rest, _, hpop, hc, ht, ?_, setErase_length hinv.1 ht, ?_, rfl⟩
  · intro e he
    have h1 : e ∈ cleanup q.s q.pq :=
      mem_cleanup (hinv.2.1 e he) ((isStale_eq_false_iff hinv.1 e).2 he)
    have hs : (cleanup q.s q.pq).Pairwise (fun a b => a.key ≤ b.key) :=
      hinv.2.2.sublist (cleanup_suffix _ _).sublist
    rw [hc] at h1 hs
    rcases List.mem_cons.1 h1 with rfl | h1
    · exact le_refl _
    · exact (List.pairwise_cons.1 hs).1 e h1
  · intro e
    exact mem_setErase _ _ _

/-- Witness for C10: a queue with a stale copy of identity 1 above the live entries. -/
theorem LazyPQ_pop_spec_witness :
    ∃ t rest q2, (((LazyPQ.emptyQueue.insert ⟨1, 5⟩).insert ⟨2, 8⟩).insert ⟨1, 9⟩).pop = some q2 ∧
      cleanup (((LazyPQ.emptyQueue.insert ⟨1, 5⟩).insert ⟨2, 8⟩).insert ⟨1, 9⟩).s
        (((LazyPQ.emptyQueue.insert ⟨1, 5⟩).insert ⟨2, 8⟩).insert ⟨1, 9⟩).pq = t :: rest ∧
      t ∈ (((LazyPQ.emptyQueue.insert ⟨1, 5⟩).insert ⟨2, 8⟩).insert ⟨1, 9⟩).s ∧
      (∀ e ∈ (((LazyPQ.emptyQueue.insert ⟨1, 5⟩).insert ⟨2, 8⟩).insert ⟨1, 9⟩).s, t.key ≤ e.key) ∧
      q2.size + 1 = (((LazyPQ.emptyQueue.insert ⟨1, 5⟩).insert ⟨2, 8⟩).insert ⟨1, 9⟩).size ∧
      (∀ e, e ∈ q2.s ↔
        e ∈ (((LazyPQ.emptyQueue.insert ⟨1, 5⟩).insert ⟨2, 8⟩).insert ⟨1, 9⟩).s ∧ e.id ≠ t.id) ∧
      q2.pq = cleanup q2.s rest :=
  LazyPQ_pop_spec (((LazyPQ.emptyQueue.insert ⟨1, 5⟩).insert ⟨2, 8⟩).insert ⟨1, 9⟩)
    (.insert _ _ (.insert _ _ (.insert _ _ .init))) (by decide)

/-! ## Claims on decrease-key, `remove` and the size of `LazyPQ` -/

theorem remove_s (q : LazyPQ) (t : NodeKeyPair) : (q.remove t).s = setErase q.s t := by
  unfold LazyPQ.remove
  cases hf : setFind q.s t with
  | none => simp [setErase_of_not_found _ _ hf]
  | some e => simp

theorem Inv_nonempty_heap {q : LazyPQ} (h : q.Inv) (hne : q.s ≠ []) :
    ∃ u rest, q.pq = u :: rest ∧ ∀ e ∈ q.s, u.key ≤ e.key := by
  obtain ⟨e0, he0⟩ := List.exists_mem_of_ne_nil _ hne
  have hpq := h.2.1 e0 he0
  cases hq : q.pq with
  | nil => rw [hq] at hpq; cases hpq
  | cons u rest =>
    refine ⟨u, rest, rfl, ?_⟩
    intro e he
    have hmem := h.2.1 e he
    have hs := h.2.2
    rw [hq] at hmem hs
    rcases List.mem_cons.1 hmem with rfl | hmem
    · exact le_refl _
    · exact (List.pairwise_cons.1 hs).1 e hmem

/-- C11: the code at the failing input. After `insert (1, 5)`, `insert (1, 7)` and
`insert (2, 9)`, identity 2 is live with key 9 and the only other live key is 7; after the
decrease-key `insert (2, 6)`, `top()` returns the stale pair `(1, 5)` instead of `(2, 6)`.
The state before the last insert was corrupted by the key-raising `insert (1, 7)`, the defect
shown for C9. -/
theorem LazyPQ_decrease_top_stale :
    LazyPQ.Reachable (((LazyPQ.emptyQueue.insert ⟨1, 5⟩).insert ⟨1, 7⟩).insert ⟨2, 9⟩) ∧
    (((LazyPQ.emptyQueue.insert ⟨1, 5⟩).insert ⟨1, 7⟩).insert ⟨2, 9⟩).s = [⟨1, 7⟩, ⟨2, 9⟩] ∧
    ((((LazyPQ.emptyQueue.insert ⟨1, 5⟩).insert ⟨1, 7⟩).insert ⟨2, 9⟩).insert ⟨2, 6⟩).s
      = [⟨1, 7⟩, ⟨2, 6⟩] ∧
    ((((LazyPQ.emptyQueue.insert ⟨1, 5⟩).insert ⟨1, 7⟩).insert ⟨2, 9⟩).insert ⟨2, 6⟩).top
      = some ⟨1, 5⟩ :=
  ⟨.insert _ _ (.insert _ _ (.insert _ _ .init)), by decide, by decide, by decide⟩

/-- What holds of decrease-key in every reachable state: after `insert (i, k2)` with
`k2 < k` on a state where `(i, k)` is live, the authoritative set holds `(i, k2)` as its only
entry for `i`, `size()` is unchanged, `top()` is not the stale pair `(i, k)` and `pop()`
returns without reading an empty heap and does not remove the pair `(i, k)`. -/
theorem LazyPQ_decrease_key (q : LazyPQ) (hr : q.Reachable) (i k k2 : Int)
    (hlive : (⟨i, k⟩ : NodeKeyPair) ∈ q.s) (hlt : k2 < k) :
    setFind (q.insert ⟨i, k2⟩).s ⟨i, k2⟩ = some ⟨i, k2⟩ ∧
    (∀ e ∈ (q.insert ⟨i, k2⟩).s, e.id = i → e = ⟨i, k2⟩) ∧
    (q.insert ⟨i, k2⟩).size = q.size ∧
    (q.insert ⟨i, k2⟩).top ≠ some ⟨i, k⟩ ∧
    ∃ u rest q2, (q.insert ⟨i, k2⟩).pop = some q2 ∧
      cleanup (q.insert ⟨i, k2⟩).s (q.insert ⟨i, k2⟩).pq = u :: rest ∧
      u ∈ (q.insert ⟨i, k2⟩).s ∧ u ≠ ⟨i, k⟩ := by
  have hinv := Reachable_Inv hr
  have hinv2 := Inv_insert ⟨i, k2⟩ hinv
  have hmem2 : (⟨i, k2⟩ : NodeKeyPair) ∈ (q.insert ⟨i, k2⟩).s := by
    rw [insert_s]; simp
  have huniq : ∀ e ∈ (q.insert ⟨i, k2⟩).s, e.id = i → e = ⟨i, k2⟩ :=
    fun e he hid => ids_nodup_unique hinv2.1 he hmem2 hid
  have hne : (q.insert ⟨i, k2⟩).s ≠ [] := List.ne_nil_of_mem hmem2
  refine ⟨?_, huniq, ?_, ?_, ?_⟩
  · cases hf : setFind (q.insert ⟨i, k2⟩).s ⟨i, k2⟩ with
    | none => exact absurd rfl ((setFind_eq_none _ _).1 hf _ hmem2)
    | some it =>
      obtain ⟨hit, hid⟩ := setFind_some hf
      rw [huniq it hit hid]
  · have h1 := setErase_length hinv.1 hlive
    have h2 : setErase q.s ⟨i, k2⟩ = setErase q.s ⟨i, k⟩ := rfl
    simp only [LazyPQ.size, insert_s, List.length_append, List.length_singleton, h2]
    exact h1
  · obtain ⟨u, rest, hpq, hmin⟩ := Inv_nonempty_heap hinv2 hne
    simp only [LazyPQ.top, hpq, List.head?_cons, ne_eq, Option.some.injEq]
    intro hu
    have := hmin _ hmem2
    rw [hu] at this
    simp only at this
    omega
  · obtain ⟨u, rest, hc, hu, hpop⟩ := pop_of_nonempty hinv2 hne
    refine ⟨u, rest, _, hpop, hc, hu, ?_⟩
    intro heq
    have := huniq u hu (by rw [heq])
    rw [heq] at this
    simp only [NodeKeyPair.mk.injEq, true_and] at this
    omega

/-- Instance of `LazyPQ_decrease_key`: `(1, 5)` lowered to `(1, 3)` next to `(2, 4)`. -/
theorem LazyPQ_decrease_key_witness :
    setFind (((LazyPQ.emptyQueue.insert ⟨1, 5⟩).insert ⟨2, 4⟩).insert ⟨1, 3⟩).s ⟨1, 3⟩
      = some ⟨1, 3⟩ ∧
    (∀ e ∈ (((LazyPQ.emptyQueue.insert ⟨1, 5⟩).insert ⟨2, 4⟩).insert ⟨1, 3⟩).s,
      e.id = 1 → e = ⟨1, 3⟩) ∧
    (((LazyPQ.emptyQueue.insert ⟨1, 5⟩).insert ⟨2, 4⟩).insert ⟨1, 3⟩).size
      = ((LazyPQ.emptyQueue.insert ⟨1, 5⟩).insert ⟨2, 4⟩).size ∧
    (((LazyPQ.emptyQueue.insert ⟨1, 5⟩).insert ⟨2, 4⟩).insert ⟨1, 3⟩).top ≠ some ⟨1, 5⟩ ∧
    ∃ u rest q2, (((LazyPQ.emptyQueue.insert ⟨1, 5⟩).insert ⟨2, 4⟩).insert ⟨1, 3⟩).pop = some q2 ∧
      cleanup (((LazyPQ.emptyQueue.insert ⟨1, 5⟩).insert ⟨2, 4⟩).insert ⟨1, 3⟩).s
        (((LazyPQ.emptyQueue.insert ⟨1, 5⟩).insert ⟨2, 4⟩).insert ⟨1, 3⟩).pq = u :: rest ∧
      u ∈ (((LazyPQ.emptyQueue.insert ⟨1, 5⟩).insert ⟨2, 4⟩).insert ⟨1, 3⟩).s ∧ u ≠ ⟨1, 5⟩ :=
  LazyPQ_decrease_key ((LazyPQ.emptyQueue.insert ⟨1, 5⟩).insert ⟨2, 4⟩)
    (.insert _ _ (.insert _ _ .init)) 1 5 3 (by decide) (by decide)

/-- C12: in every reachable state, after `remove(t)` the identity of `t` is not live, every
other live pair is kept unchanged, and, when the queue is not empty, `top()` returns a live
entry of another identity and the next `pop()` removes a live entry of another identity,
whatever copies of `t` the heap holds. -/
theorem LazyPQ_remove_spec (q : LazyPQ) (hr : q.Reachable) (t : NodeKeyPair) :
    (q.remove t).isElementInStruct t = false ∧
    (∀ e, e ∈ (q.remove t).s ↔ e ∈ q.s ∧ e.id ≠ t.id) ∧
    ((q.remove t).s ≠ [] →
      (∃ u, (q.remove t).top = some u ∧ u ∈ (q.remove t).s ∧ u.id ≠ t.id) ∧
      ∃ u rest q2, (q.remove t).pop = some q2 ∧
        cleanup (q.remove t).s (q.remove t).pq = u :: rest ∧
        u ∈ (q.remove t).s ∧ u.id ≠ t.id ∧ q2.s = setErase (q.remove t).s u) := by
  have hinv := Reachable_Inv hr
  have hinv2 := Inv_remove t hinv
  have hmem : ∀ e, e ∈ (q.remove t).s ↔ e ∈ q.s ∧ e.id ≠ t.id := by
    intro e; rw [remove_s]; exact mem_setErase _ _ _
  refine ⟨?_, hmem, ?_⟩
  · unfold LazyPQ.isElementInStruct
    rw [remove_s, setFind_setErase]
    rfl
  · intro hne
    constructor
    · obtain ⟨u, rest, hpq, _⟩ := Inv_nonempty_heap hinv2 hne
      have htv : (q.remove t).TopValid := by
        unfold LazyPQ.remove
        refine TopValid_of_cleanup ?_ _
        split
        · exact setErase_nodup t hinv.1
        · exact hinv.1
      have hu : u ∈ (q.remove t).s := htv u (by rw [hpq]; rfl)
      exact ⟨u, by simp [LazyPQ.top, hpq], hu, ((hmem u).1 hu).2⟩
    · obtain ⟨u, rest, hc, hu, hpop⟩ := pop_of_nonempty hinv2 hne
      exact ⟨u, rest, _, hpop, hc, hu, ((hmem u).1 hu).2, rfl⟩

/-- Witness for C12: identity 1 inserted three times, identity 2 once, then `remove` of 1. -/
theorem LazyPQ_remove_spec_witness :
    ((((((LazyPQ.emptyQueue.insert ⟨1, 5⟩).insert ⟨1, 3⟩).insert ⟨2, 8⟩).insert ⟨1, 4⟩).remove
        ⟨1, 0⟩).isElementInStruct ⟨1, 0⟩ = false) ∧
    (∀ e, e ∈ (((((LazyPQ.emptyQueue.insert ⟨1, 5⟩).insert ⟨1, 3⟩).insert ⟨2, 8⟩).insert
          ⟨1, 4⟩).remove ⟨1, 0⟩).s ↔
      e ∈ ((((LazyPQ.emptyQueue.insert ⟨1, 5⟩).insert ⟨1, 3⟩).insert ⟨2, 8⟩).insert ⟨1, 4⟩).s ∧
        e.id ≠ (⟨1, 0⟩ : NodeKeyPair).id) ∧
    ((((((LazyPQ.emptyQueue.insert ⟨1, 5⟩).insert ⟨1, 3⟩).insert ⟨2, 8⟩).insert ⟨1, 4⟩).remove
        ⟨1, 0⟩).s ≠ [] →
      (∃ u, (((((LazyPQ.emptyQueue.insert ⟨1, 5⟩).insert ⟨1, 3⟩).insert ⟨2, 8⟩).insert
          ⟨1, 4⟩).remove ⟨1, 0⟩).top = some u ∧
        u ∈ (((((LazyPQ.emptyQueue.insert ⟨1, 5⟩).insert ⟨1, 3⟩).insert ⟨2, 8⟩).insert
          ⟨1, 4⟩).remove ⟨1, 0⟩).s ∧ u.id ≠ (⟨1, 0⟩ : NodeKeyPair).id) ∧
      ∃ u rest q2, (((((LazyPQ.emptyQueue.insert ⟨1, 5⟩).insert ⟨1, 3⟩).insert ⟨2, 8⟩).insert
          ⟨1, 4⟩).remove ⟨1, 0⟩).pop = some q2 ∧
        cleanup (((((LazyPQ.emptyQueue.insert ⟨1, 5⟩).insert ⟨1, 3⟩).insert ⟨2, 8⟩).insert
          ⟨1, 4⟩).remove ⟨1, 0⟩).s
          (((((LazyPQ.emptyQueue.insert ⟨1, 5⟩).insert ⟨1, 3⟩).insert ⟨2, 8⟩).insert
          ⟨1, 4⟩).remove ⟨1, 0⟩).pq = u :: rest ∧
        u ∈ (((((LazyPQ.emptyQueue.insert ⟨1, 5⟩).insert ⟨1, 3⟩).insert ⟨2, 8⟩).insert
          ⟨1, 4⟩).remove ⟨1, 0⟩).s ∧ u.id ≠ (⟨1, 0⟩ : NodeKeyPair).id ∧
        q2.s = setErase (((((LazyPQ.emptyQueue.insert ⟨1, 5⟩).insert ⟨1, 3⟩).insert
          ⟨2, 8⟩).insert ⟨1, 4⟩).remove ⟨1, 0⟩).s u) :=
  LazyPQ_remove_spec ((((LazyPQ.emptyQueue.insert ⟨1, 5⟩).insert ⟨1, 3⟩).insert ⟨2, 8⟩).insert
    ⟨1, 4⟩) (.insert _ _ (.insert _ _ (.insert _ _ (.insert _ _ .init)))) ⟨1, 0⟩
theorem apply_Reachable {q q2 : LazyPQ} {op : Op} (hr : q.Reachable)
    (h : q.apply op = some q2) : q2.Reachable := by
  cases op with
  | insert t => cases h; exact .insert q t hr
  | pop => exact .pop q q2 hr h
  | remove t => cases h; exact .remove q t hr
  | clear => cases h; exact .clear q hr

theorem pop_defined {q : LazyPQ} (h : q.Inv) : ∃ q2, q.pop = some q2 ∧ RefPop q.s q2.s := by
  by_cases hne : q.s = []
  · refine ⟨⟨cleanup q.s q.pq, q.s⟩, ?_, Or.inl ⟨hne, hne⟩⟩
    unfold LazyPQ.pop
    simp [hne]
  · obtain ⟨t, rest, hc, ht, hpop⟩ := pop_of_nonempty h hne
    refine ⟨_, hpop, Or.inr ⟨t, ht, ?_, rfl⟩⟩
    intro e he
    have h1 : e ∈ cleanup q.s q.pq := mem_cleanup (h.2.1 e he) ((isStale_eq_false_iff h.1 e).2 he)
    have hs : (cleanup q.s q.pq).Pairwise (fun a b => a.key ≤ b.key) :=
      h.2.2.sublist (cleanup_suffix _ _).sublist
    rw [hc] at h1 hs
    rcases List.mem_cons.1 h1 with rfl | h1
    · exact le_refl _
    · exact (List.pairwise_cons.1 hs).1 e h1

/-- Every sequence of operations runs without undefined behaviour from a reachable state,
and the authoritative set follows a run of the reference map model. -/
theorem run_refines :
    ∀ (ops : List Op) (q : LazyPQ), q.Reachable →
      ∃ q2, LazyPQ.run ops q = some q2 ∧ q2.Reachable ∧ RefRun q.s ops q2.s := by
  intro ops
  induction ops with
  | nil => intro q hr; exact ⟨q, rfl, hr, RefRun.done _⟩
  | cons op ops ih =>
    intro q hr
    cases op with
    | insert t =>
      obtain ⟨q2, h1, h2, h3⟩ := ih (q.insert t) (.insert q t hr)
      refine ⟨q2, by simpa [LazyPQ.run, LazyPQ.apply] using h1, h2, RefRun.insert _ t _ _ ?_⟩
      rw [insert_s] at h3
      exact h3
    | pop =>
      obtain ⟨q1, hp, href⟩ := pop_defined (Reachable_Inv hr)
      obtain ⟨q2, h1, h2, h3⟩ := ih q1 (.pop q q1 hr hp)
      exact ⟨q2, by simpa [LazyPQ.run, LazyPQ.apply, hp] using h1, h2, RefRun.pop _ _ _ _ href h3⟩
    | remove t =>
      obtain ⟨q2, h1, h2, h3⟩ := ih (q.remove t) (.remove q t hr)
      refine ⟨q2, by simpa [LazyPQ.run, LazyPQ.apply] using h1, h2, RefRun.remove _ t _ _ ?_⟩
      rw [remove_s] at h3
      exact h3
    | clear =>
      obtain ⟨q2, h1, h2, h3⟩ := ih q.clear (.clear q hr)
      exact ⟨q2, by simpa [LazyPQ.run, LazyPQ.apply] using h1, h2, RefRun.clear _ _ _ h3⟩

theorem Inv_size_le {q : LazyPQ} (h : q.Inv) : q.s.length ≤ q.pq.length := by
  have hnd : q.s.Nodup := List.Nodup.of_map _ h.1
  exact (hnd.subperm (fun e he => h.2.1 e he)).length_le

/-- C13: every sequence of `insert`, `pop`, `remove` and `clear` applied to the empty queue
runs to a state in which the authoritative set has at most one entry per identity, `size()`
is the number of live identities of a run of the reference map model on the same sequence,
`empty()` holds exactly when that number is 0, and the heap holds at least `size()`
entries. -/
theorem LazyPQ_size_refines (ops : List Op) :
    ∃ q m, LazyPQ.run ops LazyPQ.emptyQueue = some q ∧ RefRun [] ops m ∧
      (q.s.map (fun e => e.id)).Nodup ∧
      (∀ e, e ∈ q.s ↔ e ∈ m) ∧
      q.size = m.length ∧
      (q.empty = true ↔ m.length = 0) ∧
      q.size ≤ q.pq.length := by
  obtain ⟨q, hrun, hr, href⟩ := run_refines ops LazyPQ.emptyQueue .init
  have hinv := Reachable_Inv hr
  refine ⟨q, q.s, hrun, href, hinv.1, fun e => Iff.rfl, rfl, ?_, Inv_size_le hinv⟩
  unfold LazyPQ.empty
  cases q.s <;> simp

/-! ## Traces -/

theorem planLog_nil (n : Int) (goal : Node) (k : Nat) (grid : Grid) (cl : List Node) :
    planLog n goal (k + 1) grid [] cl = [] := by
  simp [planLog, openTop]

theorem planLog_goal (n : Int) (goal : Node) (k : Nat) (grid : Grid)
    (top : Node) (rest cl : List Node) (hg : CompareCoordinates top goal = true) :
    planLog n goal (k + 1) grid (top :: rest) cl =
      Event.extract (canon n top) :: (closedEvent cl (canon n top) ++
        [Event.write top.x_ top.y_ (gridSet grid top.x_ top.y_ 2).isSome]) := by
  have hg2 : CompareCoordinates (canon n top) goal = true := hg
  simp only [planLog, openTop, List.head?_cons]
  rw [show ({ top with id_ := top.x_ * n + top.y_ } : Node) = canon n top from rfl]
  simp only [hg2, if_true]

theorem planLog_setfail (n : Int) (goal : Node) (k : Nat) (grid : Grid)
    (top : Node) (rest cl : List Node) (hg : CompareCoordinates top goal = false)
    (hset : gridSet grid top.x_ top.y_ 2 = none) :
    planLog n goal (k + 1) grid (top :: rest) cl =
      [Event.extract (canon n top), Event.write top.x_ top.y_ false] := by
  have hg2 : CompareCoordinates (canon n top) goal = false := hg
  simp only [planLog, openTop, List.head?_cons]
  rw [show ({ top with id_ := top.x_ * n + top.y_ } : Node) = canon n top from rfl]
  rw [hset]
  simp only [hg2, Bool.false_eq_true, if_false]

theorem planLog_step (n : Int) (goal : Node) (k : Nat) (grid grid2 : Grid)
    (top : Node) (rest cl ol2 : List Node) (hg : CompareCoordinates top goal = false)
    (hset : gridSet grid top.x_ top.y_ 2 = some grid2)
    (hex : expandLoop n grid2 goal (canon n top) GetMotion rest = .ret ol2) :
    planLog n goal (k + 1) grid (top :: rest) cl =
      Event.extract (canon n top) :: Event.write top.x_ top.y_ true ::
        Event.expand (canon n top) :: (expandReads n grid2 goal (canon n top) GetMotion ++
          (closedEvent cl (canon n top) ++
            planLog n goal k grid2 ol2 (closedInsert cl (canon n top)))) := by
  have hg2 : CompareCoordinates (canon n top) goal = false := hg
  simp only [planLog, openTop, openPop, List.head?_cons, List.tail_cons]
  rw [show ({ top with id_ := top.x_ * n + top.y_ } : Node) = canon n top from rfl]
  rw [hset]
  simp only [hg2, Bool.false_eq_true, if_false, hex]

theorem planLog_stop (n : Int) (goal : Node) (k : Nat) (grid grid2 : Grid)
    (top : Node) (rest cl : List Node) (hg : CompareCoordinates top goal = false)
    (hset : gridSet grid top.x_ top.y_ 2 = some grid2)
    (hex : ∀ ol2, expandLoop n grid2 goal (canon n top) GetMotion rest ≠ .ret ol2) :
    planLog n goal (k + 1) grid (top :: rest) cl =
      Event.extract (canon n top) :: Event.write top.x_ top.y_ true ::
        Event.expand (canon n top) :: (expandReads n grid2 goal (canon n top) GetMotion ++
          []) := by
  have hg2 : CompareCoordinates (canon n top) goal = false := hg
  simp only [planLog, openTop, openPop, List.head?_cons, List.tail_cons]
  rw [show ({ top with id_ := top.x_ * n + top.y_ } : Node) = canon n top from rfl]
  rw [hset]
  cases hr : expandLoop n grid2 goal (canon n top) GetMotion rest with
  | outOfFuel => simp [hg2]
  | ub => simp [hg2]
  | ret ol2 => exact absurd hr (hex ol2)

theorem closedCells_append (a b : List Event) :
    closedCells (a ++ b) = closedCells a ++ closedCells b := by
  induction a with
  | nil => rfl
  | cons ev a ih => cases ev <;> simp [closedCells, ih]

theorem closedCells_expandReads (n : Int) (grid : Grid) (goal cur : Node) (ms : List Node) :
    closedCells (expandReads n grid goal cur ms) = [] := by
  induction ms with
  | nil => rfl
  | cons m ms ih =>
    unfold expandReads
    simp only
    split
    · rfl
    · split
      · exact ih
      · split
        · rfl
        · simp [closedCells, ih]

theorem closedCells_closedEvent (cl : List Node) (cur : Node) :
    closedCells (closedEvent cl cur) = [] ∧ closedInsert cl cur = cl ∨
    closedCells (closedEvent cl cur) = [cur.pos] ∧ closedInsert cl cur = cl ++ [cur] ∧
      closedFind cl cur = none := by
  unfold closedEvent closedInsert
  cases hf : closedFind cl cur with
  | none => right; exact ⟨rfl, rfl, rfl⟩
  | some q => left; exact ⟨rfl, rfl⟩

theorem canon_fresh {n : Int} {cl : List Node} {top : Node}
    (hcan : ∀ c ∈ cl, c.id_ = c.x_ * n + c.y_) (hf : closedFind cl (canon n top) = none) :
    ∀ c ∈ cl, c.pos ≠ (canon n top).pos := by
  intro c hc hpos
  unfold closedFind at hf
  rw [List.find?_eq_none] at hf
  have hxy : c.x_ = top.x_ ∧ c.y_ = top.y_ := by
    simpa [Node.pos, canon] using hpos
  refine hf c hc ?_
  simp [CompareCoordinates, canon, hcan c hc, hxy.1, hxy.2]

/-- In a trace of the main loop the closed cells are pairwise distinct and none of them is
already in the closed list. -/
theorem planLog_closed (n : Int) (goal : Node) :
    ∀ (fuel : Nat) (grid : Grid) (ol cl : List Node),
      (∀ c ∈ cl, c.id_ = c.x_ * n + c.y_) →
      (closedCells (planLog n goal fuel grid ol cl)).Nodup ∧
      ∀ c ∈ cl, c.pos ∉ closedCells (planLog n goal fuel grid ol cl) := by
  intro fuel
  induction fuel with
  | zero => intro grid ol cl _; simp [planLog, closedCells]
  | succ k ih =>
    intro grid ol cl hcan
    cases ol with
    | nil => rw [planLog_nil]; simp [closedCells]
    | cons top rest =>
      have hev : (closedCells (closedEvent cl (canon n top))).Nodup ∧
          ∀ c ∈ cl, c.pos ∉ closedCells (closedEvent cl (canon n top)) := by
        rcases closedCells_closedEvent cl (canon n top) with ⟨h1, _⟩ | ⟨h1, _, hf⟩
        · rw [h1]; simp
        · rw [h1]
          refine ⟨by simp, ?_⟩
          intro c hc
          simpa using canon_fresh hcan hf c hc
      by_cases hg : CompareCoordinates top goal = true
      · rw [planLog_goal _ _ _ _ _ _ _ hg]
        simp only [closedCells, closedCells_append, List.append_nil]
        exact hev
      · have hg2 : CompareCoordinates top goal = false := by simpa using hg
        cases hset : gridSet grid top.x_ top.y_ 2 with
        | none => rw [planLog_setfail _ _ _ _ _ _ _ hg2 hset]; simp [closedCells]
        | some grid2 =>
          cases hex : expandLoop n grid2 goal (canon n top) GetMotion rest with
          | outOfFuel =>
            rw [planLog_stop _ _ _ _ _ _ _ _ hg2 hset (by rw [hex]; intro ol2 h; cases h)]
            simp [closedCells, closedCells_append, closedCells_expandReads]
          | ub =>
            rw [planLog_stop _ _ _ _ _ _ _ _ hg2 hset (by rw [hex]; intro ol2 h; cases h)]
            simp [closedCells, closedCells_append, closedCells_expandReads]
          | ret ol2 =>
            rw [planLog_step _ _ _ _ _ _ _ _ _ hg2 hset hex]
            simp only [closedCells, closedCells_append, closedCells_expandReads,
              List.nil_append]
            rcases closedCells_closedEvent cl (canon n top) with ⟨h1, h2⟩ | ⟨h1, h2, hf⟩
            · rw [h1, h2, List.nil_append]
              exact ih grid2 ol2 cl hcan
            · rw [h1, h2]
              have hcan2 : ∀ c ∈ cl ++ [canon n top], c.id_ = c.x_ * n + c.y_ := by
                intro c hc
                rcases List.mem_append.1 hc with hc | hc
                · exact hcan c hc
                · rw [List.mem_singleton] at hc; subst hc; rfl
              obtain ⟨hnd, hdis⟩ := ih grid2 ol2 (cl ++ [canon n top]) hcan2
              refine ⟨?_, ?_⟩
              · rw [List.singleton_append, List.nodup_cons]
                exact ⟨hdis _ (by simp), hnd⟩
              · intro c hc
                rw [List.singleton_append, List.mem_cons, not_or]
                exact ⟨canon_fresh hcan hf c hc, hdis c (List.mem_append_left _ hc)⟩
theorem expandReads_inRange {n : Int} {grid2 : Grid} (hsq : IsSquare grid2 n)
    (goal cur : Node) (ms : List Node) :
    ∀ ev ∈ expandReads n grid2 goal cur ms, EventInRange n ev := by
  induction ms with
  | nil => intro ev hev; cases hev
  | cons m ms ih =>
    intro ev hev
    unfold expandReads at hev
    simp only at hev
    split at hev
    · cases hev
    · split at hev
      · exact ih ev hev
      · rename_i ho
        have hb := checkOutsideBoundary_false (by simpa using ho)
        split at hev
        · rename_i hnone
          obtain ⟨v, hv⟩ := gridGet_isSome_of_inBounds hsq hb
          rw [hv] at hnone; cases hnone
        · rcases List.mem_cons.1 hev with rfl | hev
          · exact ⟨hb, rfl⟩
          · exact ih ev hev

theorem checkOutsideBoundary_of_inBounds {e : Node} {n : Int}
    (h : 0 ≤ e.x_ ∧ e.x_ < n ∧ 0 ≤ e.y_ ∧ e.y_ < n) : checkOutsideBoundary e n = false := by
  simp only [checkOutsideBoundary, Bool.or_eq_false_iff, decide_eq_false_iff_not]
  omega

/-- With a square grid and an in-bounds goal, a trace of the main loop from an open list of
in-bounds nodes is not cut and every access it records is in range. -/
theorem planLog_inRange (n : Int) (goal : Node)
    (hgb : 0 ≤ goal.x_ ∧ goal.x_ < n ∧ 0 ≤ goal.y_ ∧ goal.y_ < n) :
    ∀ (fuel : Nat) (grid : Grid) (ol cl : List Node), IsSquare grid n →
      (∀ e ∈ ol, 0 ≤ e.x_ ∧ e.x_ < n ∧ 0 ≤ e.y_ ∧ e.y_ < n) →
      loopMeasure goal grid ol < fuel →
      ∀ ev ∈ planLog n goal fuel grid ol cl, EventInRange n ev := by
  intro fuel
  induction fuel with
  | zero => intro grid ol cl _ _ hm; omega
  | succ k ih =>
    intro grid ol cl hsq hol hm ev hev
    cases ol with
    | nil => rw [planLog_nil] at hev; cases hev
    | cons top rest =>
      have htb := hol top (List.mem_cons_self _ _)
      have hext : EventInRange n (Event.extract (canon n top)) :=
        checkOutsideBoundary_of_inBounds htb
      obtain ⟨grid2, hset⟩ := gridSet_isSome_of_inBounds 2 hsq htb
      have hwr : EventInRange n (Event.write top.x_ top.y_ true) := ⟨htb, rfl⟩
      have hcl : ∀ ev ∈ closedEvent cl (canon n top), EventInRange n ev := by
        intro ev hev
        unfold closedEvent at hev
        split at hev
        · rw [List.mem_singleton] at hev; subst hev; trivial
        · cases hev
      by_cases hg : CompareCoordinates top goal = true
      · rw [planLog_goal _ _ _ _ _ _ _ hg, hset] at hev
        rcases List.mem_cons.1 hev with rfl | hev
        · exact hext
        · rcases List.mem_append.1 hev with hev | hev
          · exact hcl ev hev
          · rw [List.mem_singleton] at hev; subst hev; exact hwr
      · have hg2 : CompareCoordinates top goal = false := by simpa using hg
        have hsq2 := gridSet_isSquare hsq hset
        rcases expandLoop_spec n grid2 goal (canon n top) GetMotion rest with
          ⟨hub, _⟩ | ⟨pushed, ol2, hr, hperm, _, _, hp, _⟩
        · exact absurd hub (expandLoop_ne_ub hsq2 _ _ _ _)
        · rw [planLog_step _ _ _ _ _ _ _ _ _ hg2 hset hr] at hev
          rcases List.mem_cons.1 hev with rfl | hev
          · exact hext
          rcases List.mem_cons.1 hev with rfl | hev
          · exact hwr
          rcases List.mem_cons.1 hev with rfl | hev
          · trivial
          rcases List.mem_append.1 hev with hev | hev
          · exact expandReads_inRange hsq2 _ _ _ ev hev
          rcases List.mem_append.1 hev with hev | hev
          · exact hcl ev hev
          · have hol2 : ∀ e ∈ ol2, 0 ≤ e.x_ ∧ e.x_ < n ∧ 0 ≤ e.y_ ∧ e.y_ < n := by
              intro e he
              rcases List.mem_append.1 (hperm.mem_iff.1 he) with he | he
              · obtain ⟨m, _, _, hcase⟩ := hp e he
                rcases hcase with hc | ⟨ho, _⟩
                · rw [CompareCoordinates_iff] at hc
                  rw [hc.1, hc.2]; exact hgb
                · exact checkOutsideBoundary_false ho
              · exact hol e (List.mem_cons_of_mem _ he)
            have hlt := loopMeasure_step hg2 hset hr
            exact ih grid2 ol2 _ hsq2 hol2 (by omega) ev hev

/-! ## Expansions and pushes -/

theorem planSteps_nil (n : Int) (goal : Node) (k : Nat) (grid : Grid) (cl : List Node) :
    planSteps n goal (k + 1) grid [] cl = [] := by
  simp [planSteps, openTop]

theorem planSteps_goal (n : Int) (goal : Node) (k : Nat) (grid : Grid)
    (top : Node) (rest cl : List Node) (hg : CompareCoordinates top goal = true) :
    planSteps n goal (k + 1) grid (top :: rest) cl = [] := by
  have hg2 : CompareCoordinates (canon n top) goal = true := hg
  simp only [planSteps, openTop, List.head?_cons]
  rw [show ({ top with id_ := top.x_ * n + top.y_ } : Node) = canon n top from rfl]
  simp only [hg2, if_true]

theorem planSteps_setfail (n : Int) (goal : Node) (k : Nat) (grid : Grid)
    (top : Node) (rest cl : List Node) (hg : CompareCoordinates top goal = false)
    (hset : gridSet grid top.x_ top.y_ 2 = none) :
    planSteps n goal (k + 1) grid (top :: rest) cl = [] := by
  have hg2 : CompareCoordinates (canon n top) goal = false := hg
  simp only [planSteps, openTop, List.head?_cons]
  rw [show ({ top with id_ := top.x_ * n + top.y_ } : Node) = canon n top from rfl]
  rw [hset]
  simp only [hg2, Bool.false_eq_true, if_false]

theorem planSteps_step (n : Int) (goal : Node) (k : Nat) (grid grid2 : Grid)
    (top : Node) (rest cl ol2 : List Node) (hg : CompareCoordinates top goal = false)
    (hset : gridSet grid top.x_ top.y_ 2 = some grid2)
    (hex : expandLoop n grid2 goal (canon n top) GetMotion rest = .ret ol2) :
    planSteps n goal (k + 1) grid (top :: rest) cl =
      (canon n top, expandPushes n grid2 goal (canon n top) GetMotion) ::
        planSteps n goal k grid2 ol2 (closedInsert cl (canon n top)) := by
  have hg2 : CompareCoordinates (canon n top) goal = false := hg
  simp only [planSteps, openTop, openPop, List.head?_cons, List.tail_cons]
  rw [show ({ top with id_ := top.x_ * n + top.y_ } : Node) = canon n top from rfl]
  rw [hset]
  simp only [hg2, Bool.false_eq_true, if_false, hex]

theorem planSteps_stop (n : Int) (goal : Node) (k : Nat) (grid grid2 : Grid)
    (top : Node) (rest cl : List Node) (hg : CompareCoordinates top goal = false)
    (hset : gridSet grid top.x_ top.y_ 2 = some grid2)
    (hex : ∀ ol2, expandLoop n grid2 goal (canon n top) GetMotion rest ≠ .ret ol2) :
    planSteps n goal (k + 1) grid (top :: rest) cl =
      [(canon n top, expandPushes n grid2 goal (canon n top) GetMotion)] := by
  have hg2 : CompareCoordinates (canon n top) goal = false := hg
  simp only [planSteps, openTop, openPop, List.head?_cons, List.tail_cons]
  rw [show ({ top with id_ := top.x_ * n + top.y_ } : Node) = canon n top from rfl]
  rw [hset]
  cases hr : expandLoop n grid2 goal (canon n top) GetMotion rest with
  | outOfFuel => simp [hg2]
  | ub => simp [hg2]
  | ret ol2 => exact absurd hr (hex ol2)

/-- A node pushed by the loop over the motions is the goal or lies on a cell whose grid value
is 0. -/
theorem expandPushes_free (n : Int) (grid : Grid) (goal cur : Node) (ms : List Node) :
    ∀ e ∈ expandPushes n grid goal cur ms,
      CompareCoordinates e goal = true ∨ gridGet grid e.x_ e.y_ = some 0 := by
  induction ms with
  | nil => intro e he; cases he
  | cons m ms ih =>
    intro e he
    unfold expandPushes at he
    simp only at he
    split at he
    · rename_i hg
      rw [List.mem_singleton] at he; subst he
      exact Or.inl hg
    · split at he
      · exact ih e he
      · split at he
        · cases he
        · rename_i v hv
          split at he
          · exact ih e he
          · rename_i hv0
            rcases List.mem_cons.1 he with rfl | he
            · right
              have : v = 0 := by simpa using hv0
              rw [hv, this]
            · exact ih e he

/-- The open list left by the loop over the motions is the former one with the nodes of
`expandPushes` pushed in order. -/
theorem expandLoop_eq_pushes (n : Int) (grid : Grid) (goal cur : Node) (ms : List Node) :
    ∀ (ol ol2 : List Node), expandLoop n grid goal cur ms ol = .ret ol2 →
      ol2 = (expandPushes n grid goal cur ms).foldl (fun l e => openPush e l) ol := by
  induction ms with
  | nil =>
    intro ol ol2 h
    simp only [expandLoop] at h
    cases h
    rfl
  | cons m ms ih =>
    intro ol ol2 h
    unfold expandLoop at h
    unfold expandPushes
    simp only at h ⊢
    split at h
    · rename_i hg
      cases h
      simp [hg]
    · rename_i hg
      simp only [hg, if_false]
      split at h
      · rename_i ho
        simp only [ho, if_true]
        exact ih ol ol2 h
      · rename_i ho
        simp only [ho, if_false]
        split at h
        · cases h
        · rename_i v hv
          split at h
          · rename_i hv0
            rw [if_pos hv0]
            exact ih ol ol2 h
          · rename_i hv0
            rw [if_neg hv0]
            simp only [Bool.false_eq_true, if_false, List.foldl_cons]
            exact ih _ ol2 h

theorem foldl_openPush_perm (ps : List Node) :
    ∀ ol : List Node, (ps.foldl (fun l e => openPush e l) ol).Perm (ps ++ ol) := by
  induction ps with
  | nil => intro ol; exact List.Perm.refl _
  | cons p ps ih =>
    intro ol
    rw [List.foldl_cons]
    refine (ih (openPush p ol)).trans ?_
    refine (List.Perm.append_left ps (openPush_perm p ol)).trans ?_
    exact List.perm_middle

theorem expandedCells_append (a b : List Event) :
    expandedCells (a ++ b) = expandedCells a ++ expandedCells b := by
  induction a with
  | nil => rfl
  | cons ev a ih => cases ev <;> simp [expandedCells, ih]

theorem expandedCells_expandReads (n : Int) (grid : Grid) (goal cur : Node) (ms : List Node) :
    expandedCells (expandReads n grid goal cur ms) = [] := by
  induction ms with
  | nil => rfl
  | cons m ms ih =>
    unfold expandReads
    simp only
    split
    · rfl
    · split
      · exact ih
      · split
        · rfl
        · simp [expandedCells, ih]

theorem expandedCells_closedEvent (cl : List Node) (cur : Node) :
    expandedCells (closedEvent cl cur) = [] := by
  unfold closedEvent
  split <;> rfl

/-- The cells of `planSteps` are the cells expanded in the trace `planLog`. -/
theorem planSteps_cells (n : Int) (goal : Node) :
    ∀ (fuel : Nat) (grid : Grid) (ol cl : List Node),
      (planSteps n goal fuel grid ol cl).map (fun s => s.1.pos)
        = expandedCells (planLog n goal fuel grid ol cl) := by
  intro fuel
  induction fuel with
  | zero => intro grid ol cl; simp [planSteps, planLog, expandedCells]
  | succ k ih =>
    intro grid ol cl
    cases ol with
    | nil => rw [planSteps_nil, planLog_nil]; rfl
    | cons top rest =>
      by_cases hg : CompareCoordinates top goal = true
      · rw [planSteps_goal _ _ _ _ _ _ _ hg, planLog_goal _ _ _ _ _ _ _ hg]
        simp [expandedCells, expandedCells_append, expandedCells_closedEvent]
      · have hg2 : CompareCoordinates top goal = false := by simpa using hg
        cases hset : gridSet grid top.x_ top.y_ 2 with
        | none =>
          rw [planSteps_setfail _ _ _ _ _ _ _ hg2 hset, planLog_setfail _ _ _ _ _ _ _ hg2 hset]
          simp [expandedCells]
        | some grid2 =>
          cases hex : expandLoop n grid2 goal (canon n top) GetMotion rest with
          | outOfFuel =>
            rw [planSteps_stop _ _ _ _ _ _ _ _ hg2 hset (by rw [hex]; intro ol2 h; cases h),
              planLog_stop _ _ _ _ _ _ _ _ hg2 hset (by rw [hex]; intro ol2 h; cases h)]
            simp [expandedCells, expandedCells_append, expandedCells_expandReads]
          | ub =>
            rw [planSteps_stop _ _ _ _ _ _ _ _ hg2 hset (by rw [hex]; intro ol2 h; cases h),
              planLog_stop _ _ _ _ _ _ _ _ hg2 hset (by rw [hex]; intro ol2 h; cases h)]
            simp [expandedCells, expandedCells_append, expandedCells_expandReads]
          | ret ol2 =>
            rw [planSteps_step _ _ _ _ _ _ _ _ _ hg2 hset hex,
              planLog_step _ _ _ _ _ _ _ _ _ hg2 hset hex]
            simp only [expandedCells, expandedCells_append, expandedCells_expandReads,
              expandedCells_closedEvent, List.nil_append, List.map_cons]
            rw [ih]

/-- No node is pushed for a cell that is not the goal while the grid value of the cell is not
0: the writes of the main loop only store 2. -/
theorem planSteps_marked (n : Int) (goal : Node) (x y : Int)
    (hxy : ¬ (x = goal.x_ ∧ y = goal.y_)) :
    ∀ (fuel : Nat) (grid : Grid) (ol cl : List Node), gridGet grid x y ≠ some 0 →
      ∀ s ∈ planSteps n goal fuel grid ol cl, ∀ e ∈ s.2, e.pos ≠ (x, y) := by
  intro fuel
  induction fuel with
  | zero => intro grid ol cl _ s hs; simp [planSteps] at hs
  | succ k ih =>
    intro grid ol cl hm s hs
    cases ol with
    | nil => rw [planSteps_nil] at hs; cases hs
    | cons top rest =>
      by_cases hg : CompareCoordinates top goal = true
      · rw [planSteps_goal _ _ _ _ _ _ _ hg] at hs; cases hs
      · have hg2 : CompareCoordinates top goal = false := by simpa using hg
        cases hset : gridSet grid top.x_ top.y_ 2 with
        | none => rw [planSteps_setfail _ _ _ _ _ _ _ hg2 hset] at hs; cases hs
        | some grid2 =>
          have hm2 : gridGet grid2 x y ≠ some 0 := by
            rw [gridGet_gridSet hset]
            split
            · intro h; cases h
            · exact hm
          have hhead : ∀ e ∈ expandPushes n grid2 goal (canon n top) GetMotion,
              e.pos ≠ (x, y) := by
            intro e he hpos
            have hx : e.x_ = x ∧ e.y_ = y := by simpa [Node.pos] using hpos
            rcases expandPushes_free n grid2 goal (canon n top) GetMotion e he with hc | hf
            · rw [CompareCoordinates_iff] at hc
              exact hxy ⟨hx.1 ▸ hc.1, hx.2 ▸ hc.2⟩
            · rw [hx.1, hx.2] at hf
              exact hm2 hf
          cases hex : expandLoop n grid2 goal (canon n top) GetMotion rest with
          | outOfFuel =>
            rw [planSteps_stop _ _ _ _ _ _ _ _ hg2 hset (by rw [hex]; intro ol2 h; cases h),
              List.mem_singleton] at hs
            subst hs; exact hhead
          | ub =>
            rw [planSteps_stop _ _ _ _ _ _ _ _ hg2 hset (by rw [hex]; intro ol2 h; cases h),
              List.mem_singleton] at hs
            subst hs; exact hhead
          | ret ol2 =>
            rw [planSteps_step _ _ _ _ _ _ _ _ _ hg2 hset hex] at hs
            rcases List.mem_cons.1 hs with rfl | hs
            · exact hhead
            · exact ih grid2 ol2 _ hm2 s hs

/-- An expansion pushes no node for its own cell, and no later expansion pushes a node for
the cell of an earlier one. -/
theorem planSteps_no_push (n : Int) (goal : Node) :
    ∀ (fuel : Nat) (grid : Grid) (ol cl : List Node),
      (∀ s ∈ planSteps n goal fuel grid ol cl, ∀ e ∈ s.2, e.pos ≠ s.1.pos) ∧
      (planSteps n goal fuel grid ol cl).Pairwise
        (fun s1 s2 => ∀ e ∈ s2.2, e.pos ≠ s1.1.pos) := by
  intro fuel
  induction fuel with
  | zero => intro grid ol cl; simp [planSteps]
  | succ k ih =>
    intro grid ol cl
    cases ol with
    | nil => rw [planSteps_nil]; simp
    | cons top rest =>
      by_cases hg : CompareCoordinates top goal = true
      · rw [planSteps_goal _ _ _ _ _ _ _ hg]; simp
      · have hg2 : CompareCoordinates top goal = false := by simpa using hg
        cases hset : gridSet grid top.x_ top.y_ 2 with
        | none => rw [planSteps_setfail _ _ _ _ _ _ _ hg2 hset]; simp
        | some grid2 =>
          have hxy : ¬ (top.x_ = goal.x_ ∧ top.y_ = goal.y_) := by
            rw [← CompareCoordinates_iff]; simpa using hg
          have hm2 : gridGet grid2 top.x_ top.y_ ≠ some 0 := by
            rw [gridGet_gridSet hset]
            simp
          have hhead : ∀ e ∈ expandPushes n grid2 goal (canon n top) GetMotion,
              e.pos ≠ (canon n top).pos := by
            intro e he hpos
            have hx : e.x_ = top.x_ ∧ e.y_ = top.y_ := by simpa [Node.pos, canon] using hpos
            rcases expandPushes_free n grid2 goal (canon n top) GetMotion e he with hc | hf
            · rw [CompareCoordinates_iff] at hc
              exact hxy ⟨hx.1 ▸ hc.1, hx.2 ▸ hc.2⟩
            · rw [hx.1, hx.2] at hf
              exact hm2 hf
          cases hex : expandLoop n grid2 goal (canon n top) GetMotion rest with
          | outOfFuel =>
            rw [planSteps_stop _ _ _ _ _ _ _ _ hg2 hset (by rw [hex]; intro ol2 h; cases h)]
            refine ⟨?_, List.pairwise_singleton _ _⟩
            intro s hs
            rw [List.mem_singleton] at hs; subst hs; exact hhead
          | ub =>
            rw [planSteps_stop _ _ _ _ _ _ _ _ hg2 hset (by rw [hex]; intro ol2 h; cases h)]
            refine ⟨?_, List.pairwise_singleton _ _⟩
            intro s hs
            rw [List.mem_singleton] at hs; subst hs; exact hhead
          | ret ol2 =>
            rw [planSteps_step _ _ _ _ _ _ _ _ _ hg2 hset hex]
            obtain ⟨h1, h2⟩ := ih grid2 ol2 (closedInsert cl (canon n top))
            refine ⟨?_, List.pairwise_cons.2 ⟨?_, h2⟩⟩
            · intro s hs
              rcases List.mem_cons.1 hs with rfl | hs
              · exact hhead
              · exact h1 s hs
            · intro s hs
              exact planSteps_marked n goal top.x_ top.y_ hxy k grid2 ol2 _ hm2 s hs

/-- Each expansion consumes one queued node: the expanded nodes are, counted with
multiplicity, among the nodes of the open list and the nodes pushed by the expansions, with
the identity recomputed at the extraction. -/
theorem planSteps_subperm (n : Int) (goal : Node) :
    ∀ (fuel : Nat) (grid : Grid) (ol cl : List Node),
      ((planSteps n goal fuel grid ol cl).map (fun s => s.1)).Subperm
        ((ol ++ (planSteps n goal fuel grid ol cl).flatMap (fun s => s.2)).map (canon n)) := by
  intro fuel
  induction fuel with
  | zero => intro grid ol cl; simp [planSteps]
  | succ k ih =>
    intro grid ol cl
    cases ol with
    | nil => rw [planSteps_nil]; simp
    | cons top rest =>
      by_cases hg : CompareCoordinates top goal = true
      · rw [planSteps_goal _ _ _ _ _ _ _ hg]
        exact List.nil_subperm
      · have hg2 : CompareCoordinates top goal = false := by simpa using hg
        cases hset : gridSet grid top.x_ top.y_ 2 with
        | none =>
          rw [planSteps_setfail _ _ _ _ _ _ _ hg2 hset]
          exact List.nil_subperm
        | some grid2 =>
          cases hex : expandLoop n grid2 goal (canon n top) GetMotion rest with
          | outOfFuel =>
            rw [planSteps_stop _ _ _ _ _ _ _ _ hg2 hset (by rw [hex]; intro ol2 h; cases h)]
            simp only [List.map_cons, List.map_nil, List.cons_append]
            exact List.singleton_subperm_iff.2 (List.mem_cons_self _ _)
          | ub =>
            rw [planSteps_stop _ _ _ _ _ _ _ _ hg2 hset (by rw [hex]; intro ol2 h; cases h)]
            simp only [List.map_cons, List.map_nil, List.cons_append]
            exact List.singleton_subperm_iff.2 (List.mem_cons_self _ _)
          | ret ol2 =>
            rw [planSteps_step _ _ _ _ _ _ _ _ _ hg2 hset hex]
            have hperm : ol2.Perm (expandPushes n grid2 goal (canon n top) GetMotion ++ rest) := by
              rw [expandLoop_eq_pushes n grid2 goal (canon n top) GetMotion rest ol2 hex]
              exact foldl_openPush_perm _ _
            have h := ih grid2 ol2 (closedInsert cl (canon n top))
            simp only [List.map_cons, List.cons_append, List.flatMap_cons]
            rw [List.subperm_cons]
            refine h.trans (List.Perm.subperm (List.Perm.map _ ?_))
            refine (List.Perm.append_right _ hperm).trans ?_
            rw [List.append_assoc, ← List.append_assoc, ← List.append_assoc]
            exact List.Perm.append_right _ List.perm_append_comm

/-! ## Claims on re-expansion and on grid accesses -/

/-- C16, as stated, fails: on the 3 x 3 grid with obstacles at (1,2) and (2,1), from (1,1)
to (2,2), the cell (0,0) is queued from (1,0) and from (0,1) before it is expanded, and both
queued nodes are extracted and have their neighbours generated. -/
theorem Plan_expands_twice :
    IsSquare [[0, 0, 0], [0, 0, 1], [0, 1, 0]] 3 ∧
    InBounds 3 1 1 ∧ IsFree [[0, 0, 0], [0, 0, 1], [0, 1, 0]] 1 1 ∧
    InBounds 3 2 2 ∧ IsFree [[0, 0, 0], [0, 0, 1], [0, 1, 0]] 2 2 ∧
    expandedCells (AStar.PlanLog ⟨[], [[0, 0, 0], [0, 0, 1], [0, 1, 0]], 3⟩
      ⟨1, 1, 0, 2, 4, 4⟩ ⟨2, 2, 0, 0, 8, 0⟩)
      = [(1, 1), (1, 0), (2, 0), (0, 1), (0, 2), (0, 0), (0, 0)] ∧
    ¬ (expandedCells (AStar.PlanLog ⟨[], [[0, 0, 0], [0, 0, 1], [0, 1, 0]], 3⟩
      ⟨1, 1, 0, 2, 4, 4⟩ ⟨2, 2, 0, 0, 8, 0⟩)).Nodup := by
  refine ⟨by decide, by decide, by decide, by decide, by decide, by decide, by decide⟩

/-- C16, amended: on an `n` by `n` grid with in-bounds start and goal, the run of `Plan` is
recorded in full and, once a cell has been expanded, no node is pushed on the open list for
it any more: the expansion stores 2 in the grid, so every later generation attempt for the
cell is discarded, by that expansion and by all later ones. A cell is therefore expanded
again only for nodes queued for it before its first expansion: each expansion consumes one
queued node, the start node or a node pushed by an expansion. Each cell is inserted in the
closed list at most once. -/
theorem Plan_no_push_after_expansion (a : AStar) (start goal : Node)
    (hsq : IsSquare a.original_grid_ a.n_)
    (hsb : InBounds a.n_ start.x_ start.y_) (hgb : InBounds a.n_ goal.x_ goal.y_) :
    Event.truncated ∉ a.PlanLog start goal ∧
    (a.PlanSteps start goal).map (fun s => s.1.pos) = expandedCells (a.PlanLog start goal) ∧
    (∀ s ∈ a.PlanSteps start goal, ∀ e ∈ s.2, e.pos ≠ s.1.pos) ∧
    (a.PlanSteps start goal).Pairwise (fun s1 s2 => ∀ e ∈ s2.2, e.pos ≠ s1.1.pos) ∧
    ((a.PlanSteps start goal).map (fun s => s.1)).Subperm
      ((start :: (a.PlanSteps start goal).flatMap (fun s => s.2)).map (canon a.n_)) ∧
    (closedCells (a.PlanLog start goal)).Nodup := by
  refine ⟨?_, planSteps_cells a.n_ goal _ _ _ _, (planSteps_no_push a.n_ goal _ _ _ _).1,
    (planSteps_no_push a.n_ goal _ _ _ _).2, planSteps_subperm a.n_ goal _ _ _ _,
    (planLog_closed a.n_ goal _ _ _ [] (by simp)).1⟩
  intro hmem
  refine planLog_inRange a.n_ goal hgb _ _ _ [] hsq ?_
    (loopMeasure_init goal start a.original_grid_) _ hmem
  intro e he
  simp only [openPush, List.mem_singleton] at he
  subst he
  exact hsb

/-- Witness for the amended C16: the 3 x 3 grid with obstacles at (1,2) and (2,1), from (1,1)
to (2,2), on which the cell (0,0) is expanded twice. -/
theorem Plan_no_push_after_expansion_witness :
    (IsSquare [[0, 0, 0], [0, 0, 1], [0, 1, 0]] 3 ∧ InBounds 3 1 1 ∧ InBounds 3 2 2) ∧
    Event.truncated ∉ AStar.PlanLog ⟨[], [[0, 0, 0], [0, 0, 1], [0, 1, 0]], 3⟩
      ⟨1, 1, 0, 2, 4, 4⟩ ⟨2, 2, 0, 0, 8, 0⟩ ∧
    (AStar.PlanSteps ⟨[], [[0, 0, 0], [0, 0, 1], [0, 1, 0]], 3⟩
        ⟨1, 1, 0, 2, 4, 4⟩ ⟨2, 2, 0, 0, 8, 0⟩).map (fun s => s.1.pos)
      = expandedCells (AStar.PlanLog ⟨[], [[0, 0, 0], [0, 0, 1], [0, 1, 0]], 3⟩
        ⟨1, 1, 0, 2, 4, 4⟩ ⟨2, 2, 0, 0, 8, 0⟩) ∧
    (∀ s ∈ AStar.PlanSteps ⟨[], [[0, 0, 0], [0, 0, 1], [0, 1, 0]], 3⟩
        ⟨1, 1, 0, 2, 4, 4⟩ ⟨2, 2, 0, 0, 8, 0⟩, ∀ e ∈ s.2, e.pos ≠ s.1.pos) ∧
    (AStar.PlanSteps ⟨[], [[0, 0, 0], [0, 0, 1], [0, 1, 0]], 3⟩
        ⟨1, 1, 0, 2, 4, 4⟩ ⟨2, 2, 0, 0, 8, 0⟩).Pairwise
      (fun s1 s2 => ∀ e ∈ s2.2, e.pos ≠ s1.1.pos) ∧
    ((AStar.PlanSteps ⟨[], [[0, 0, 0], [0, 0, 1], [0, 1, 0]], 3⟩
        ⟨1, 1, 0, 2, 4, 4⟩ ⟨2, 2, 0, 0, 8, 0⟩).map (fun s => s.1)).Subperm
      (((⟨1, 1, 0, 2, 4, 4⟩ : Node) ::
        (AStar.PlanSteps ⟨[], [[0, 0, 0], [0, 0, 1], [0, 1, 0]], 3⟩
          ⟨1, 1, 0, 2, 4, 4⟩ ⟨2, 2, 0, 0, 8, 0⟩).flatMap (fun s => s.2)).map (canon 3)) ∧
    (closedCells (AStar.PlanLog ⟨[], [[0, 0, 0], [0, 0, 1], [0, 1, 0]], 3⟩
      ⟨1, 1, 0, 2, 4, 4⟩ ⟨2, 2, 0, 0, 8, 0⟩)).Nodup :=
  ⟨⟨by decide, by decide, by decide⟩,
    Plan_no_push_after_expansion ⟨[], [[0, 0, 0], [0, 0, 1], [0, 1, 0]], 3⟩
      ⟨1, 1, 0, 2, 4, 4⟩ ⟨2, 2, 0, 0, 8, 0⟩ (by decide) (by decide) (by decide)⟩

/-- C19: on an `n` by `n` grid with in-bounds start and goal, the trace of `Plan` is complete
and every grid access in it is in range: each extracted node has `checkOutsideBoundary`
false, each write `grid_[x][y] = 2` and each read of `grid_[x][y]` has `0 ≤ x < n` and
`0 ≤ y < n` and falls inside `grid_`; `expandReads` reads a successor only after
`checkOutsideBoundary` returned false for it. -/
theorem Plan_accesses_in_range (a : AStar) (start goal : Node)
    (hsq : IsSquare a.original_grid_ a.n_)
    (hsb : InBounds a.n_ start.x_ start.y_) (hgb : InBounds a.n_ goal.x_ goal.y_) :
    ∀ ev ∈ a.PlanLog start goal, EventInRange a.n_ ev := by
  refine planLog_inRange a.n_ goal hgb _ _ _ [] hsq ?_
    (loopMeasure_init goal start a.original_grid_)
  intro e he
  simp only [openPush, List.mem_singleton] at he
  subst he
  exact hsb

/-- Witness for C19: the 2 x 2 grid whose start cell (0,0) is an obstacle, goal (1,1). -/
theorem Plan_accesses_in_range_witness :
    (IsSquare [[1, 0], [0, 0]] 2 ∧ InBounds 2 0 0 ∧ InBounds 2 1 1) ∧
    ∀ ev ∈ AStar.PlanLog ⟨[], [[1, 0], [0, 0]], 2⟩ ⟨0, 0, 0, 2, 0, 0⟩ ⟨1, 1, 0, 0, 3, 0⟩,
      EventInRange 2 ev :=
  ⟨⟨by decide, by decide, by decide⟩,
    Plan_accesses_in_range ⟨[], [[1, 0], [0, 0]], 2⟩ ⟨0, 0, 0, 2, 0, 0⟩ ⟨1, 1, 0, 0, 3, 0⟩
      (by decide) (by decide) (by decide)⟩

/-! ## Claims on termination and on the consistency branch -/

theorem planLoop_fuel_mono (n : Int) (start goal : Node) :
    ∀ (k : Nat) (grid : Grid) (ol cl : List Node),
      planLoop n start goal k grid ol cl ≠ .outOfFuel →
      planLoop n start goal (k + 1) grid ol cl = planLoop n start goal k grid ol cl := by
  intro k
  induction k with
  | zero => intro grid ol cl h; exact absurd rfl h
  | succ k ih =>
    intro grid ol cl h
    cases ol with
    | nil => rw [planLoop_nil, planLoop_nil]
    | cons top rest =>
      by_cases hg : CompareCoordinates top goal = true
      · rw [planLoop_goal _ _ _ _ _ _ _ _ hg, planLoop_goal _ _ _ _ _ _ _ _ hg]
      · have hg2 : CompareCoordinates top goal = false := by simpa using hg
        cases hset : gridSet grid top.x_ top.y_ 2 with
        | none =>
          rw [planLoop_setfail _ _ _ _ _ _ _ _ hset, planLoop_setfail _ _ _ _ _ _ _ _ hset]
        | some grid2 =>
          rcases expandLoop_spec n grid2 goal (canon n top) GetMotion rest with
            ⟨hub, _⟩ | ⟨pushed, ol2, hr, _⟩
          · rw [planLoop_expand_ub _ _ _ _ _ _ _ _ _ hg2 hset hub,
              planLoop_expand_ub _ _ _ _ _ _ _ _ _ hg2 hset hub]
          · rw [planLoop_step _ _ _ _ _ _ _ _ _ _ hg2 hset hr] at h ⊢
            rw [planLoop_step _ _ _ _ _ _ _ _ _ _ hg2 hset hr]
            exact ih grid2 ol2 _ h

theorem planLoop_fuel_ge (n : Int) (start goal : Node) (k : Nat) (grid : Grid)
    (ol cl : List Node) (h : planLoop n start goal k grid ol cl ≠ .outOfFuel) :
    ∀ fuel, k ≤ fuel → planLoop n start goal fuel grid ol cl = planLoop n start goal k grid ol cl := by
  intro fuel hle
  induction fuel with
  | zero =>
    have : k = 0 := by omega
    subst this; rfl
  | succ f ih =>
    by_cases hk : k = f + 1
    · subst hk; rfl
    · have hkf : k ≤ f := by omega
      have h1 := ih hkf
      rw [planLoop_fuel_mono n start goal f grid ol cl (by rw [h1]; exact h), h1]

/-- A run that ends with a node on the goal cell on top of the open list does not exhaust the
fuel of the parent-following loop. -/
theorem planLoop_goal_ne_outOfFuel {g0 : Grid} {n : Int} {start goal : Node} {grid : Grid}
    {top : Node} {rest cl : List Node} (hinv : PlanInv g0 n start grid (top :: rest) cl)
    (hg : CompareCoordinates top goal = true) :
    planLoop n start goal 1 grid (top :: rest) cl ≠ .outOfFuel := by
  obtain ⟨grid2, hset⟩ := PlanInv_gridSet hinv
  obtain ⟨htb, htf, htpar⟩ := hinv.opn top (List.mem_cons_self _ _)
  have hok : NodeOk g0 n (canon n top) := ⟨htb, htf, rfl⟩
  obtain ⟨hcl2, _, _, _⟩ := closedInsert_ok (canon n top) hinv.closed hok htpar
  rw [planLoop_goal _ _ _ _ _ _ _ _ hg, hset]
  simp only
  unfold ConvertClosedListToPath
  cases hf : closedFind (closedInsert cl (canon n top)) goal with
  | none => simp [Run.map]
  | some q =>
    obtain ⟨hq, _⟩ := closedFind_some hf
    obtain ⟨L, h1, _⟩ :=
      convertLoop_spec hcl2 [] q hq ((closedInsert cl (canon n top)).length + 1) (by omega) []
    rw [List.append_nil] at h1
    simp only [h1, Run.map]
    intro h; cases h

/-- C17, as stated, fails: on the free 3 x 3 grid, from (0,0) to (2,2), a goal node whose
`id_` was left at 0 is not found in the closed list once the main loop has reached the goal,
so `ConvertClosedListToPath` starts its parent-following loop from `*closed_list.end()`:
the call is undefined and returns no result. -/
theorem Plan_wrong_id_undefined :
    IsSquare [[0, 0, 0], [0, 0, 0], [0, 0, 0]] 3 ∧
    InBounds 3 0 0 ∧ IsFree [[0, 0, 0], [0, 0, 0], [0, 0, 0]] 0 0 ∧
    InBounds 3 2 2 ∧ IsFree [[0, 0, 0], [0, 0, 0], [0, 0, 0]] 2 2 ∧
    AStar.PlanRun ⟨[], [[0, 0, 0], [0, 0, 0], [0, 0, 0]], 3⟩ ⟨0, 0, 0, 4, 0, 0⟩
      ⟨2, 2, 0, 0, 0, 0⟩ = .ub ∧
    AStar.Plan ⟨[], [[0, 0, 0], [0, 0, 0], [0, 0, 0]], 3⟩ ⟨0, 0, 0, 4, 0, 0⟩
      ⟨2, 2, 0, 0, 0, 0⟩ = .ub := by
  refine ⟨by decide, by decide, by decide, by decide, by decide, by decide, by decide⟩

/-- C17, amended: on an `n` by `n` grid with in-bounds free start and goal, the goal carrying
the identity `x * n + y`, `Plan` terminates with a result: the main loop reaches the goal or
exhausts the open list and the parent-following loop of `ConvertClosedListToPath` stops,
within the fuel of each loop; the trace is not cut, and any larger amount of fuel gives the
same result. -/
theorem Plan_terminates (a : AStar) (start goal : Node)
    (hsq : IsSquare a.original_grid_ a.n_)
    (hsb : InBounds a.n_ start.x_ start.y_) (hsf : IsFree a.original_grid_ start.x_ start.y_)
    (hgb : InBounds a.n_ goal.x_ goal.y_) (hgf : IsFree a.original_grid_ goal.x_ goal.y_)
    (hgid : goal.id_ = goal.x_ * a.n_ + goal.y_) :
    (∃ r, a.PlanRun start goal = .ret r) ∧
    (∃ found path, a.Plan start goal = .ret (found, path)) ∧
    Event.truncated ∉ a.PlanLog start goal ∧
    ∀ fuel, planFuel a.original_grid_ ≤ fuel →
      planLoop a.n_ start goal fuel a.original_grid_ (openPush start []) []
        = a.PlanRun start goal := by
  obtain ⟨grid1, ol1, cl1, hinv, hrun, hterm⟩ := PlanRun_ends a start goal hsq hsb hsf hgb hgf
  have hret : ∃ r, a.PlanRun start goal = .ret r := by
    rw [hrun]
    rcases hterm with rfl | ⟨top, rest, rfl, hg⟩
    · exact ⟨_, planLoop_nil _ _ _ _ _ _⟩
    · obtain ⟨grid2, L, hfound, _⟩ := planLoop_found hinv hg hgid
      exact ⟨_, hfound⟩
  obtain ⟨r, hr⟩ := hret
  have hne : a.PlanRun start goal ≠ .outOfFuel := by
    rw [hr]; intro h; cases h
  refine ⟨⟨r, hr⟩, ⟨r.1, r.2.1, ?_⟩, ?_, ?_⟩
  · unfold AStar.Plan
    rw [hr]; rfl
  · intro hmem
    refine planLog_inRange a.n_ goal hgb _ _ _ [] hsq ?_
      (loopMeasure_init goal start a.original_grid_) _ hmem
    intro e he
    simp only [openPush, List.mem_singleton] at he
    subst he
    exact hsb
  · intro fuel hle
    exact planLoop_fuel_ge a.n_ start goal (planFuel a.original_grid_) a.original_grid_
      (openPush start []) [] hne fuel hle

/-- Witness for the amended C17 on the free 2 x 2 grid, from (0,0) to (1,1). -/
theorem Plan_terminates_witness :
    (∃ r, AStar.PlanRun ⟨[], [[0, 0], [0, 0]], 2⟩ ⟨0, 0, 0, 2, 0, 0⟩ ⟨1, 1, 0, 0, 3, 0⟩
      = .ret r) ∧
    (∃ found path,
      AStar.Plan ⟨[], [[0, 0], [0, 0]], 2⟩ ⟨0, 0, 0, 2, 0, 0⟩ ⟨1, 1, 0, 0, 3, 0⟩
        = .ret (found, path)) ∧
    Event.truncated ∉
      AStar.PlanLog ⟨[], [[0, 0], [0, 0]], 2⟩ ⟨0, 0, 0, 2, 0, 0⟩ ⟨1, 1, 0, 0, 3, 0⟩ ∧
    ∀ fuel, planFuel [[0, 0], [0, 0]] ≤ fuel →
      planLoop 2 ⟨0, 0, 0, 2, 0, 0⟩ ⟨1, 1, 0, 0, 3, 0⟩ fuel [[0, 0], [0, 0]]
          (openPush ⟨0, 0, 0, 2, 0, 0⟩ []) []
        = AStar.PlanRun ⟨[], [[0, 0], [0, 0]], 2⟩ ⟨0, 0, 0, 2, 0, 0⟩ ⟨1, 1, 0, 0, 3, 0⟩ :=
  Plan_terminates ⟨[], [[0, 0], [0, 0]], 2⟩ ⟨0, 0, 0, 2, 0, 0⟩ ⟨1, 1, 0, 0, 3, 0⟩
    (by decide) (by decide) (by decide) (by decide) (by decide) (by decide)

/-- C18: on an `n` by `n` grid with in-bounds free start and goal (ids `x * n + y`), the
consistency branch of `ConvertClosedListToPath` is not taken: `Plan` returns either
`found = false` with the empty path or `found = true` with a path that ends with the start
node, so the path is empty exactly when `found = false`. -/
theorem Plan_found_iff_nonempty (a : AStar) (start goal : Node)
    (hsq : IsSquare a.original_grid_ a.n_)
    (hsb : InBounds a.n_ start.x_ start.y_) (hsf : IsFree a.original_grid_ start.x_ start.y_)
    (hgb : InBounds a.n_ goal.x_ goal.y_) (hgf : IsFree a.original_grid_ goal.x_ goal.y_)
    (_hsid : start.id_ = start.x_ * a.n_ + start.y_)
    (hgid : goal.id_ = goal.x_ * a.n_ + goal.y_) :
    ∃ found path, a.Plan start goal = .ret (found, path) ∧
      (found = true → path ≠ [] ∧ path.getLast? = some start) ∧
      (path = [] ↔ found = false) := by
  obtain ⟨grid1, ol1, cl1, hinv, hrun, hterm⟩ := PlanRun_ends a start goal hsq hsb hsf hgb hgf
  rcases hterm with rfl | ⟨top, rest, rfl, hg⟩
  · refine ⟨false, [], ?_, by simp, by simp⟩
    unfold AStar.Plan
    rw [hrun, planLoop_nil]; rfl
  · obtain ⟨grid2, L, hfound, _⟩ := planLoop_found hinv hg hgid
    refine ⟨true, L ++ [start], ?_, by simp, by simp⟩
    unfold AStar.Plan
    rw [hrun, hfound]; rfl

/-- Witness for C18 on the free 2 x 2 grid, from (0,0) to (1,1). -/
theorem Plan_found_iff_nonempty_witness :
    ∃ found path,
      AStar.Plan ⟨[], [[0, 0], [0, 0]], 2⟩ ⟨0, 0, 0, 2, 0, 0⟩ ⟨1, 1, 0, 0, 3, 0⟩
        = .ret (found, path) ∧
      (found = true → path ≠ [] ∧ path.getLast? = some ⟨0, 0, 0, 2, 0, 0⟩) ∧
      (path = [] ↔ found = false) :=
  Plan_found_iff_nonempty ⟨[], [[0, 0], [0, 0]], 2⟩ ⟨0, 0, 0, 2, 0, 0⟩ ⟨1, 1, 0, 0, 3, 0⟩
    (by decide) (by decide) (by decide) (by decide) (by decide) (by decide) (by decide)

/-! ## Claims on the cell identity and on `compare_cost` -/

/-- C14: for a grid width `n > 0`, the identity `x * n + y` that `Plan` assigns (to the
extracted node and, as `n * x + y`, to each successor) is injective on in-bounds cells, and
the decoding of `ConvertClosedListToPath`, `(id / n, id % n)`, returns the coordinates. -/
theorem cell_id_bijective (n : Int) (_hn : 0 < n) (p q : Node)
    (hp : InBounds n p.x_ p.y_) (hq : InBounds n q.x_ q.y_) :
    ((canon n p).id_ = (canon n q).id_ ↔ (p.x_ = q.x_ ∧ p.y_ = q.y_)) ∧
    Int.tdiv (canon n p).id_ n = p.x_ ∧ Int.tmod (canon n p).id_ n = p.y_ ∧
    (∀ goal cur m : Node,
      (newPoint n goal cur m).id_ = (canon n (newPoint n goal cur m)).id_) := by
  have hdp := decode_id hp.1 hp.2.2.1 hp.2.2.2
  have hdq := decode_id hq.1 hq.2.2.1 hq.2.2.2
  have hcp : (canon n p).id_ = p.x_ * n + p.y_ := rfl
  have hcq : (canon n q).id_ = q.x_ * n + q.y_ := rfl
  refine ⟨⟨?_, ?_⟩, by rw [hcp]; exact hdp.1, by rw [hcp]; exact hdp.2, ?_⟩
  · intro h
    rw [hcp, hcq] at h
    rw [h] at hdp
    exact ⟨hdp.1.symm.trans hdq.1, hdp.2.symm.trans hdq.2⟩
  · intro h
    rw [hcp, hcq, h.1, h.2]
  · intro goal cur m
    show n * _ + _ = _ * n + _
    rw [Int.mul_comm]
    rfl

/-- Witness for C14: the cells (1,2) and (2,1) of a grid of width 3. -/
theorem cell_id_bijective_witness :
    ((canon 3 ⟨1, 2, 0, 0, 0, 0⟩).id_ = (canon 3 ⟨2, 1, 0, 0, 0, 0⟩).id_ ↔
      ((⟨1, 2, 0, 0, 0, 0⟩ : Node).x_ = (⟨2, 1, 0, 0, 0, 0⟩ : Node).x_ ∧
        (⟨1, 2, 0, 0, 0, 0⟩ : Node).y_ = (⟨2, 1, 0, 0, 0, 0⟩ : Node).y_)) ∧
    Int.tdiv (canon 3 ⟨1, 2, 0, 0, 0, 0⟩).id_ 3 = (⟨1, 2, 0, 0, 0, 0⟩ : Node).x_ ∧
    Int.tmod (canon 3 ⟨1, 2, 0, 0, 0, 0⟩).id_ 3 = (⟨1, 2, 0, 0, 0, 0⟩ : Node).y_ ∧
    (∀ goal cur m : Node,
      (newPoint 3 goal cur m).id_ = (canon 3 (newPoint 3 goal cur m)).id_) :=
  cell_id_bijective 3 (by decide) ⟨1, 2, 0, 0, 0, 0⟩ ⟨2, 1, 0, 0, 0, 0⟩ (by decide) (by decide)

/-- C15, as stated, fails: of two nodes of total cost 2, one with heuristic 2 and one with
heuristic 1, `compare_cost` ranks the node with the larger heuristic behind the other, and
the node with the smaller heuristic is extracted first, whichever is pushed first. -/
theorem compare_cost_prefers_smaller_h :
    (⟨0, 0, 0, 2, 0, 0⟩ : Node).cost_ + (⟨0, 0, 0, 2, 0, 0⟩ : Node).h_cost_
      = (⟨0, 1, 1, 1, 1, 0⟩ : Node).cost_ + (⟨0, 1, 1, 1, 1, 0⟩ : Node).h_cost_ ∧
    compare_cost ⟨0, 0, 0, 2, 0, 0⟩ ⟨0, 1, 1, 1, 1, 0⟩ = true ∧
    compare_cost ⟨0, 1, 1, 1, 1, 0⟩ ⟨0, 0, 0, 2, 0, 0⟩ = false ∧
    openTop (openPush ⟨0, 0, 0, 2, 0, 0⟩ (openPush ⟨0, 1, 1, 1, 1, 0⟩ []))
      = some ⟨0, 1, 1, 1, 1, 0⟩ ∧
    openTop (openPush ⟨0, 1, 1, 1, 1, 0⟩ (openPush ⟨0, 0, 0, 2, 0, 0⟩ []))
      = some ⟨0, 1, 1, 1, 1, 0⟩ := by
  refine ⟨by decide, by decide, by decide, by decide, by decide⟩

/-- C15, amended: `compare_cost` ranks nodes by total cost `cost_ + h_cost_`, lower total
first, and of two nodes with equal total cost and different heuristics it ranks the node
with the smaller `h_cost_` ahead: that node is the one extracted first. -/
theorem compare_cost_ranking (p q : Node) :
    (p.cost_ + p.h_cost_ < q.cost_ + q.h_cost_ →
      compare_cost q p = true ∧ compare_cost p q = false ∧
      openTop (openPush p (openPush q [])) = some p ∧
      openTop (openPush q (openPush p [])) = some p) ∧
    (p.cost_ + p.h_cost_ = q.cost_ + q.h_cost_ → p.h_cost_ < q.h_cost_ →
      compare_cost q p = true ∧ compare_cost p q = false ∧
      openTop (openPush p (openPush q [])) = some p ∧
      openTop (openPush q (openPush p [])) = some p) := by
  have key : compare_cost q p = true → compare_cost p q = false →
      openTop (openPush p (openPush q [])) = some p ∧
      openTop (openPush q (openPush p [])) = some p := by
    intro h1 h2
    simp [openPush, openTop, h1, h2]
  constructor
  · intro h
    have h1 : compare_cost q p = true := by
      simp only [compare_cost, Bool.or_eq_true, Bool.and_eq_true, decide_eq_true_eq]
      omega
    have h2 : compare_cost p q = false := by
      simp only [compare_cost, Bool.or_eq_false_iff, Bool.and_eq_false_iff,
        decide_eq_false_iff_not]
      omega
    exact ⟨h1, h2, key h1 h2⟩
  · intro h hh
    have h1 : compare_cost q p = true := by
      simp only [compare_cost, Bool.or_eq_true, Bool.and_eq_true, decide_eq_true_eq]
      omega
    have h2 : compare_cost p q = false := by
      simp only [compare_cost, Bool.or_eq_false_iff, Bool.and_eq_false_iff,
        decide_eq_false_iff_not]
      omega
    exact ⟨h1, h2, key h1 h2⟩

/-- Witness for the amended C15: a lower total, and equal totals with a smaller heuristic. -/
theorem compare_cost_ranking_witness :
    (compare_cost ⟨0, 1, 2, 1, 1, 0⟩ ⟨0, 0, 0, 2, 0, 0⟩ = true ∧
      compare_cost ⟨0, 0, 0, 2, 0, 0⟩ ⟨0, 1, 2, 1, 1, 0⟩ = false ∧
      openTop (openPush ⟨0, 0, 0, 2, 0, 0⟩ (openPush ⟨0, 1, 2, 1, 1, 0⟩ []))
        = some ⟨0, 0, 0, 2, 0, 0⟩ ∧
      openTop (openPush ⟨0, 1, 2, 1, 1, 0⟩ (openPush ⟨0, 0, 0, 2, 0, 0⟩ []))
        = some ⟨0, 0, 0, 2, 0, 0⟩) ∧
    (compare_cost ⟨0, 0, 0, 2, 0, 0⟩ ⟨0, 1, 1, 1, 1, 0⟩ = true ∧
      compare_cost ⟨0, 1, 1, 1, 1, 0⟩ ⟨0, 0, 0, 2, 0, 0⟩ = false ∧
      openTop (openPush ⟨0, 1, 1, 1, 1, 0⟩ (openPush ⟨0, 0, 0, 2, 0, 0⟩ []))
        = some ⟨0, 1, 1, 1, 1, 0⟩ ∧
      openTop (openPush ⟨0, 0, 0, 2, 0, 0⟩ (openPush ⟨0, 1, 1, 1, 1, 0⟩ []))
        = some ⟨0, 1, 1, 1, 1, 0⟩) :=
  ⟨(compare_cost_ranking ⟨0, 0, 0, 2, 0, 0⟩ ⟨0, 1, 2, 1, 1, 0⟩).1 (by decide),
    (compare_cost_ranking ⟨0, 1, 1, 1, 1, 0⟩ ⟨0, 0, 0, 2, 0, 0⟩).2 (by decide) (by decide)⟩

/-- C20: the code at the failing input. `compare_cost p p` holds for every node `p` (it uses
`>=` on the heuristic), and it holds both ways for two different nodes of equal total cost
and equal heuristic, so it is not a strict ordering. -/
theorem compare_cost_not_strict :
    (∀ p : Node, compare_cost p p = true) ∧
    compare_cost ⟨0, 1, 1, 1, 1, 0⟩ ⟨1, 0, 1, 1, 2, 0⟩ = true ∧
    compare_cost ⟨1, 0, 1, 1, 2, 0⟩ ⟨0, 1, 1, 1, 1, 0⟩ = true := by
  refine ⟨?_, by decide, by decide⟩
  intro p
  simp [compare_cost]

/-! ## Claims on endpoints, the trivial case, statelessness and the 3 x 3 example -/

/-- C5: whenever `Plan` returns a non-empty path, its first element has the coordinates of
the goal and its last element the coordinates of the start, so the reversed path begins
at the start. -/
theorem Plan_endpoints (a : AStar) (start goal : Node) (found : Bool) (path : List Node)
    (h : a.Plan start goal = .ret (found, path)) (hne : path ≠ []) :
    ∃ first last, path.head? = some first ∧ path.getLast? = some last ∧
      first.pos = goal.pos ∧ last.pos = start.pos ∧
      ∃ rfirst, path.reverse.head? = some rfirst ∧ rfirst.pos = start.pos := by
  unfold AStar.Plan at h
  cases hrun : a.PlanRun start goal with
  | outOfFuel => rw [hrun] at h; simp [Run.map] at h
  | ub => rw [hrun] at h; simp [Run.map] at h
  | ret r =>
    obtain ⟨f, p, g2⟩ := r
    rw [hrun] at h
    simp only [Run.map, Run.ret.injEq, Prod.mk.injEq] at h
    obtain ⟨_, hp⟩ := h
    subst hp
    rcases planLoop_ends _ _ _ _ _ _ _ _ _ _ hrun with h0 | ⟨hl, first, hf, hpos⟩
    · exact absurd h0 hne
    · exact ⟨first, start, hf, hl, hpos, rfl, start, by simpa using hl, rfl⟩

/-- Witness for C5 on the free 2 x 2 grid, from (0,0) to (0,1). -/
theorem Plan_endpoints_witness :
    ∃ first last,
      ([⟨0, 1, 1, 0, 1, 0⟩, ⟨0, 0, 0, 1, 0, 0⟩] : List Node).head? = some first ∧
      ([⟨0, 1, 1, 0, 1, 0⟩, ⟨0, 0, 0, 1, 0, 0⟩] : List Node).getLast? = some last ∧
      first.pos = (⟨0, 1, 0, 0, 1, 0⟩ : Node).pos ∧ last.pos = (⟨0, 0, 0, 1, 0, 0⟩ : Node).pos ∧
      ∃ rfirst, ([⟨0, 1, 1, 0, 1, 0⟩, ⟨0, 0, 0, 1, 0, 0⟩] : List Node).reverse.head? = some rfirst ∧
        rfirst.pos = (⟨0, 0, 0, 1, 0, 0⟩ : Node).pos :=
  Plan_endpoints ⟨[], [[0, 0], [0, 0]], 2⟩ ⟨0, 0, 0, 1, 0, 0⟩ ⟨0, 1, 0, 0, 1, 0⟩ true
    [⟨0, 1, 1, 0, 1, 0⟩, ⟨0, 0, 0, 1, 0, 0⟩] (by decide) (by decide)

/-- C6: on an `n` by `n` grid, `Plan` called with start and goal both at the in-bounds free
cell `(x, y)` (ids `x * n + y`) returns `found = true` and the one-element path holding
that cell. -/
theorem Plan_start_eq_goal (a : AStar) (start goal : Node)
    (hsq : IsSquare a.original_grid_ a.n_)
    (hb : InBounds a.n_ start.x_ start.y_)
    (_hfree : IsFree a.original_grid_ start.x_ start.y_)
    (hgx : goal.x_ = start.x_) (hgy : goal.y_ = start.y_)
    (_hsid : start.id_ = start.x_ * a.n_ + start.y_)
    (hgid : goal.id_ = goal.x_ * a.n_ + goal.y_) :
    ∃ c, a.Plan start goal = .ret (true, [c]) ∧ c.x_ = start.x_ ∧ c.y_ = start.y_ := by
  refine ⟨start, ?_, rfl, rfl⟩
  obtain ⟨g2, hset⟩ := gridSet_isSome_of_inBounds 2 hsq hb
  simp [AStar.Plan, AStar.PlanRun, planFuel, planLoop, openPush, openTop, openPop,
    CompareCoordinates, hgx, hgy, hset, closedInsert, closedFind, ConvertClosedListToPath,
    convertLoop, hgid, Run.map]

/-- Witness for C6 on the free 3 x 3 grid at cell (1,1). -/
theorem Plan_start_eq_goal_witness :
    ∃ c, AStar.Plan ⟨[], [[0, 0, 0], [0, 0, 0], [0, 0, 0]], 3⟩ ⟨1, 1, 0, 0, 4, 4⟩ ⟨1, 1, 0, 0, 4, 0⟩
        = .ret (true, [c]) ∧ c.x_ = 1 ∧ c.y_ = 1 :=
  Plan_start_eq_goal ⟨[], [[0, 0, 0], [0, 0, 0], [0, 0, 0]], 3⟩ ⟨1, 1, 0, 0, 4, 4⟩ ⟨1, 1, 0, 0, 4, 0⟩
    (by decide) (by decide) (by decide) rfl rfl (by decide) (by decide)

/-- C7: `Plan` keeps no search state. Whatever the working grid `grid_` holds, the call
returns what it returns on an object with the same original grid and any other working grid
(a fresh one included); the object left behind has the same `original_grid_` and `n_`, and
calling `Plan` on it again with the same arguments returns the same result. -/
theorem Plan_stateless (a : AStar) (start goal : Node) :
    (∀ working : Grid,
        AStar.Plan ⟨working, a.original_grid_, a.n_⟩ start goal = a.Plan start goal) ∧
    (∀ a2 : AStar, a.afterPlan start goal = .ret a2 →
        a2.original_grid_ = a.original_grid_ ∧ a2.n_ = a.n_ ∧
        a2.Plan start goal = a.Plan start goal) := by
  refine ⟨fun _ => rfl, ?_⟩
  intro a2 h
  unfold AStar.afterPlan at h
  cases hrun : a.PlanRun start goal with
  | outOfFuel => rw [hrun] at h; simp [Run.map] at h
  | ub => rw [hrun] at h; simp [Run.map] at h
  | ret r =>
    rw [hrun] at h
    simp only [Run.map, Run.ret.injEq] at h
    subst h
    exact ⟨rfl, rfl, rfl⟩

/-- Witness for C7: a second call on the object left by a first call on the free 2 x 2 grid. -/
theorem Plan_stateless_witness :
    (⟨[[2, 2], [0, 0]], [[0, 0], [0, 0]], 2⟩ : AStar).original_grid_ = [[0, 0], [0, 0]] ∧
    (⟨[[2, 2], [0, 0]], [[0, 0], [0, 0]], 2⟩ : AStar).n_ = 2 ∧
    AStar.Plan ⟨[[2, 2], [0, 0]], [[0, 0], [0, 0]], 2⟩ ⟨0, 0, 0, 1, 0, 0⟩ ⟨0, 1, 0, 0, 1, 0⟩ =
      AStar.Plan ⟨[], [[0, 0], [0, 0]], 2⟩ ⟨0, 0, 0, 1, 0, 0⟩ ⟨0, 1, 0, 0, 1, 0⟩ :=
  (Plan_stateless ⟨[], [[0, 0], [0, 0]], 2⟩ ⟨0, 0, 0, 1, 0, 0⟩ ⟨0, 1, 0, 0, 1, 0⟩).2
    ⟨[[2, 2], [0, 0]], [[0, 0], [0, 0]], 2⟩ (by decide)

/-- C8: on the free 3 x 3 grid, from (0,0) to (2,2), `Plan` returns `found = true` and a
path of exactly 5 cells from (2,2) to (0,0) in which every step lowers one coordinate
by one. -/
theorem Plan_free_3x3 (working : Grid) (hs ps gc gh gp : Int) :
    ∃ path, AStar.Plan ⟨working, [[0, 0, 0], [0, 0, 0], [0, 0, 0]], 3⟩
        ⟨0, 0, 0, hs, 0, ps⟩ ⟨2, 2, gc, gh, 8, gp⟩ = .ret (true, path) ∧
      path.length = 5 ∧ path.head?.map Node.pos = some (2, 2) ∧
      path.getLast?.map Node.pos = some (0, 0) ∧ path.Chain' MonotoneStep := by
  have hf : planFuel [[0, 0, 0], [0, 0, 0], [0, 0, 0]] = 19073486328125 + 1 := by decide
  have d5 : Int.tdiv 5 3 = 1 := by decide
  have m5 : Int.tmod 5 3 = 2 := by decide
  have d2 : Int.tdiv 2 3 = 0 := by decide
  have m2 : Int.tmod 2 3 = 2 := by decide
  have d1 : Int.tdiv 1 3 = 0 := by decide
  have m1 : Int.tmod 1 3 = 1 := by decide
  have d0 : Int.tdiv 0 3 = 0 := by decide
  have m0 : Int.tmod 0 3 = 0 := by decide
  refine ⟨[⟨2, 2, 4, 0, 8, 5⟩, ⟨1, 2, 3, 1, 5, 2⟩, ⟨0, 2, 2, 2, 2, 1⟩, ⟨0, 1, 1, 3, 1, 0⟩,
    ⟨0, 0, 0, hs, 0, ps⟩], ?_, rfl, rfl, rfl, ?_⟩
  · simp only [AStar.Plan, AStar.PlanRun, hf]
    simp [planLoop, openPush, openTop, openPop, CompareCoordinates, gridSet, expandLoop,
      GetMotion, newPoint, Node.add, checkOutsideBoundary, gridGet, compare_cost, closedInsert,
      closedFind, ConvertClosedListToPath, convertLoop, Run.map, d5, m5, d2, m2, d1, m1, d0, m0]
  · simp [MonotoneStep]

end PathPlanning
